import Mathlib

/-!
# nspre: archive reader, decoder and writer

A shallow embedding of `nspre.hpp` (namespace `nspre`) together with the
properties of the archive format that are established about it.

Conventions of the embedding
* a `char` / `unsigned char` is a `Byte` (its unsigned value, `0 .. 255`);
  `std::string` and `std::vector<char>` are `List Byte`;
* a C++ `int` is an `Int`; a value converted to `int` goes through `toInt32`
  (two's complement, 32 bits); an `unsigned int` is a `Nat` below `2^32`;
* `std::ifstream` / `std::ofstream` are explicit stream states that are passed
  through the functions (`IfStream`, `OfStream`);
* a file of the file system is given by its contents, an `Option (List Byte)`
  that is `none` when the file cannot be opened; a write to an output file that
  was opened succeeds;
* a `Reader::Outfunc` callable is a function with an explicit state;
* a loop is a recursive function; the two data-dependent `while` loops of
  `extract` carry a fuel argument and return `none` when it runs out.
-/

namespace Nspre

/-! ## Basic types -/

/-- One `char`, seen as its unsigned value. -/
abbrev Byte := Fin 256

/-- The `static_cast<char>` of an integer value: its low 8 bits. -/
def toByte (n : Nat) : Byte := ⟨n % 256, Nat.mod_lt _ (by decide)⟩

/-- Conversion of an integer value to a 32-bit `int` (two's complement). -/
@[irreducible] def toInt32 (n : Int) : Int := (n + 2147483648) % 4294967296 - 2147483648

/-- The C++ enumeration `nspre::Error`, as the `int` codes the functions return. -/
def UNINITIALIZED : Int := -1
def NO_ERROR : Int := 0
def FILE_OPEN : Int := 1
def READ_HEADER : Int := 2
def READ_SUBHEADER : Int := 3
def READ_SUBPATH : Int := 4
def READ_SUBFILE : Int := 256
def EXTRACT_SUBFILE : Int := 257
def FILE_OPEN_OUTPUT : Int := 258
def WRITE_HEADER : Int := 65536
def WRITE_SUBHEADER : Int := 65537
def WRITE_SUBPATH : Int := 65538
def WRITE_SUBFILE : Int := 65539

/-! ## `SubfileBase::filename` -/

/-- The backslash character `'\\'`. -/
def backslash : Byte := 92

/-- The forward slash character `'/'`. -/
def slash : Byte := 47

/-- The `for (int i = size - 1; i >= 0; --i)` loop of `SubfileBase::filename`.
The first argument is `i + 1` (the number of indices still to visit), the
second the current value of `start`; the result is the final `start`. -/
def filename_loop (m_prepath : List Byte) : Nat → Nat → Nat
  | 0, start => start
  | i + 1, start =>
    if m_prepath.getD i 0 = backslash then start
    else filename_loop m_prepath i i

/-- Embeds `std::string SubfileBase::filename() const`. -/
def filename (m_prepath : List Byte) : List Byte :=
  if m_prepath.length < 1 then []
  else
    let start := m_prepath.length - 1
    let start := filename_loop m_prepath m_prepath.length start
    m_prepath.drop start

/-! ## `Read32LE` / `Write32LE` -/

/-- Embeds `Read32LE<unsigned int>(buffer)`: the 32-bit pattern assembled from four
bytes, least significant first.  (The `nullptr` test of the source is left
out: a buffer is always given.) -/
def Read32LE (buffer : List Byte) : Nat :=
  let out := (buffer.getD 0 0).val
  let out := out ||| ((buffer.getD 1 0).val <<< 8)
  let out := out ||| ((buffer.getD 2 0).val <<< 16)
  let out := out ||| ((buffer.getD 3 0).val <<< 24)
  out

/-- Embeds `Read32LE<int>(buffer)`: the same pattern read as a signed `int`. -/
def Read32LE_int (buffer : List Byte) : Int :=
  toInt32 (Read32LE buffer)

/-- Embeds `Write32LE<T>(buffer, in)`: the four bytes stored at `buffer[0..3]`.  The
argument is the bit pattern of `in`; only its low 32 bits are used. -/
def Write32LE (inp : Nat) : List Byte :=
  [toByte (inp &&& 0xff),
   toByte ((inp >>> 8) &&& 0xff),
   toByte ((inp >>> 16) &&& 0xff),
   toByte ((inp >>> 24) &&& 0xff)]

/-! ## Checksum -/

/-- The table `crc_table`. -/
def crc_table : List Nat := [
  0x00000000, 0x77073096, 0xee0e612c, 0x990951ba,
  0x076dc419, 0x706af48f, 0xe963a535, 0x9e6495a3,
  0x0edb8832, 0x79dcb8a4, 0xe0d5e91e, 0x97d2d988,
  0x09b64c2b, 0x7eb17cbd, 0xe7b82d07, 0x90bf1d91,
  0x1db71064, 0x6ab020f2, 0xf3b97148, 0x84be41de,
  0x1adad47d, 0x6ddde4eb, 0xf4d4b551, 0x83d385c7,
  0x136c9856, 0x646ba8c0, 0xfd62f97a, 0x8a65c9ec,
  0x14015c4f, 0x63066cd9, 0xfa0f3d63, 0x8d080df5,
  0x3b6e20c8, 0x4c69105e, 0xd56041e4, 0xa2677172,
  0x3c03e4d1, 0x4b04d447, 0xd20d85fd, 0xa50ab56b,
  0x35b5a8fa, 0x42b2986c, 0xdbbbc9d6, 0xacbcf940,
  0x32d86ce3, 0x45df5c75, 0xdcd60dcf, 0xabd13d59,
  0x26d930ac, 0x51de003a, 0xc8d75180, 0xbfd06116,
  0x21b4f4b5, 0x56b3c423, 0xcfba9599, 0xb8bda50f,
  0x2802b89e, 0x5f058808, 0xc60cd9b2, 0xb10be924,
  0x2f6f7c87, 0x58684c11, 0xc1611dab, 0xb6662d3d,
  0x76dc4190, 0x01db7106, 0x98d220bc, 0xefd5102a,
  0x71b18589, 0x06b6b51f, 0x9fbfe4a5, 0xe8b8d433,
  0x7807c9a2, 0x0f00f934, 0x9609a88e, 0xe10e9818,
  0x7f6a0dbb, 0x086d3d2d, 0x91646c97, 0xe6635c01,
  0x6b6b51f4, 0x1c6c6162, 0x856530d8, 0xf262004e,
  0x6c0695ed, 0x1b01a57b, 0x8208f4c1, 0xf50fc457,
  0x65b0d9c6, 0x12b7e950, 0x8bbeb8ea, 0xfcb9887c,
  0x62dd1ddf, 0x15da2d49, 0x8cd37cf3, 0xfbd44c65,
  0x4db26158, 0x3ab551ce, 0xa3bc0074, 0xd4bb30e2,
  0x4adfa541, 0x3dd895d7, 0xa4d1c46d, 0xd3d6f4fb,
  0x4369e96a, 0x346ed9fc, 0xad678846, 0xda60b8d0,
  0x44042d73, 0x33031de5, 0xaa0a4c5f, 0xdd0d7cc9,
  0x5005713c, 0x270241aa, 0xbe0b1010, 0xc90c2086,
  0x5768b525, 0x206f85b3, 0xb966d409, 0xce61e49f,
  0x5edef90e, 0x29d9c998, 0xb0d09822, 0xc7d7a8b4,
  0x59b33d17, 0x2eb40d81, 0xb7bd5c3b, 0xc0ba6cad,
  0xedb88320, 0x9abfb3b6, 0x03b6e20c, 0x74b1d29a,
  0xead54739, 0x9dd277af, 0x04db2615, 0x73dc1683,
  0xe3630b12, 0x94643b84, 0x0d6d6a3e, 0x7a6a5aa8,
  0xe40ecf0b, 0x9309ff9d, 0x0a00ae27, 0x7d079eb1,
  0xf00f9344, 0x8708a3d2, 0x1e01f268, 0x6906c2fe,
  0xf762575d, 0x806567cb, 0x196c3671, 0x6e6b06e7,
  0xfed41b76, 0x89d32be0, 0x10da7a5a, 0x67dd4acc,
  0xf9b9df6f, 0x8ebeeff9, 0x17b7be43, 0x60b08ed5,
  0xd6d6a3e8, 0xa1d1937e, 0x38d8c2c4, 0x4fdff252,
  0xd1bb67f1, 0xa6bc5767, 0x3fb506dd, 0x48b2364b,
  0xd80d2bda, 0xaf0a1b4c, 0x36034af6, 0x41047a60,
  0xdf60efc3, 0xa867df55, 0x316e8eef, 0x4669be79,
  0xcb61b38c, 0xbc66831a, 0x256fd2a0, 0x5268e236,
  0xcc0c7795, 0xbb0b4703, 0x220216b9, 0x5505262f,
  0xc5ba3bbe, 0xb2bd0b28, 0x2bb45a92, 0x5cb36a04,
  0xc2d7ffa7, 0xb5d0cf31, 0x2cd99e8b, 0x5bdeae1d,
  0x9b64c2b0, 0xec63f226, 0x756aa39c, 0x026d930a,
  0x9c0906a9, 0xeb0e363f, 0x72076785, 0x05005713,
  0x95bf4a82, 0xe2b87a14, 0x7bb12bae, 0x0cb61b38,
  0x92d28e9b, 0xe5d5be0d, 0x7cdcefb7, 0x0bdbdf21,
  0x86d3d2d4, 0xf1d4e242, 0x68ddb3f8, 0x1fda836e,
  0x81be16cd, 0xf6b9265b, 0x6fb077e1, 0x18b74777,
  0x88085ae6, 0xff0f6a70, 0x66063bca, 0x11010b5c,
  0x8f659eff, 0xf862ae69, 0x616bffd3, 0x166ccf45,
  0xa00ae278, 0xd70dd2ee, 0x4e048354, 0x3903b3c2,
  0xa7672661, 0xd06016f7, 0x4969474d, 0x3e6e77db,
  0xaed16a4a, 0xd9d65adc, 0x40df0b66, 0x37d83bf0,
  0xa9bcae53, 0xdebb9ec5, 0x47b2cf7f, 0x30b5ffe9,
  0xbdbdf21c, 0xcabac28a, 0x53b39330, 0x24b4a3a6,
  0xbad03605, 0xcdd70693, 0x54de5729, 0x23d967bf,
  0xb3667a2e, 0xc4614ab8, 0x5d681b02, 0x2a6f2b94,
  0xb40bbe37, 0xc30c8ea1, 0x5a05df1b, 0x2d02ef8d
]

/-- The constant `CRC_START`. -/
def CRC_START : Nat := 0xffffffff

/-- One iteration of the checksum loop: the new `crc` after the byte `c`. -/
def crc_step (crc : Nat) (c : Byte) : Nat :=
  let table_val := crc_table.getD ((crc % 256) ^^^ c.val) 0
  table_val ^^^ (crc >>> 8)

/-- Embeds `static unsigned int string_crc(const std::string &str)`. -/
def string_crc (str : List Byte) : Nat :=
  str.foldl crc_step CRC_START

/-- Embeds `static unsigned int buffer_crc(const char *buffer, unsigned int size)`. -/
def buffer_crc (buffer : List Byte) (size : Nat) : Nat :=
  (List.range size).foldl (fun crc i => crc_step crc (buffer.getD i 0)) CRC_START

/-! ### The reference CRC-32, bit by bit

This is the textbook definition (reflected polynomial `0xEDB88320`, initial
value `0xFFFFFFFF`, final XOR `0xFFFFFFFF`), written down independently of
the table; `string_crc` is compared with it. -/

/-- One bit of the reflected CRC-32 division. -/
def crc32_bit (crc : Nat) : Nat :=
  if crc % 2 = 1 then (crc >>> 1) ^^^ 0xEDB88320 else crc >>> 1

/-- Eight bits of the division. -/
def crc32_bits8 (crc : Nat) : Nat :=
  crc32_bit (crc32_bit (crc32_bit (crc32_bit (crc32_bit (crc32_bit (crc32_bit (crc32_bit crc)))))))

/-- The register of the reference CRC-32 after the bytes of `s`. -/
def crc32_register (s : List Byte) : Nat :=
  s.foldl (fun crc c => crc32_bits8 (crc ^^^ c.val)) 0xFFFFFFFF

/-- The standard CRC-32 of `s`: the register, XORed with `0xFFFFFFFF`. -/
def crc32_standard (s : List Byte) : Nat :=
  crc32_register s ^^^ 0xFFFFFFFF

/-! ## Streams -/

/-- The state of a `std::ifstream` opened in binary mode: the bytes of the
file, the get position, whether a file is open and the `failbit`.  (`eofbit`
is not kept: every operation that follows an `ignore` or a `seekg` in this
program behaves the same with and without it.) -/
structure IfStream where
  data : List Byte
  pos : Nat
  is_open : Bool
  failbit : Bool
deriving DecidableEq, Repr

/-- Embeds `std::ifstream stream(path, std::ios::binary)`: the file is given by its
contents, `none` when it cannot be opened. -/
def IfStream.open (file : Option (List Byte)) : IfStream :=
  match file with
  | some bytes => { data := bytes, pos := 0, is_open := true, failbit := false }
  | none => { data := [], pos := 0, is_open := false, failbit := true }

/-- Embeds `stream.fail()`. -/
abbrev IfStream.fail (s : IfStream) : Bool := s.failbit

/-- Embeds `stream.read(buf, n)`: the bytes stored into `buf` and the new state.  A
read that cannot deliver `n` bytes sets `failbit` (a read of no bytes never
does) and leaves the position at the end of the file. -/
def IfStream.read (s : IfStream) (n : Nat) : List Byte × IfStream :=
  if s.failbit then ([], s)
  else if n = 0 ∨ s.pos + n ≤ s.data.length then
    ((s.data.drop s.pos).take n, { s with pos := s.pos + n })
  else
    (s.data.drop s.pos, { s with pos := max s.pos s.data.length, failbit := true })

/-- Embeds `stream.ignore(n)`: skips up to `n` bytes; nothing happens for `n <= 0`. -/
def IfStream.ignore (s : IfStream) (n : Int) : IfStream :=
  if s.failbit then s
  else if n ≤ 0 then s
  else { s with pos := min (s.pos + n.toNat) s.data.length }

/-- Embeds `stream.tellg()`. -/
def IfStream.tellg (s : IfStream) : Int :=
  if s.failbit then -1 else (s.pos : Int)

/-- Embeds `stream.seekg(off)`: fails on a stream that has failed and for a negative
position; a position past the end is accepted (the next read fails). -/
def IfStream.seekg (s : IfStream) (off : Int) : IfStream :=
  if s.failbit then s
  else if off < 0 then { s with failbit := true }
  else { s with pos := off.toNat }

/-- The state of a `std::ofstream`: the bytes of the output file, the put
position and the `failbit`.  The output device itself is not modelled as
failing: a write to a stream that was opened succeeds. -/
structure OfStream where
  data : List Byte
  pos : Nat
  failbit : Bool
deriving DecidableEq, Repr

/-- Embeds `std::ofstream ostream(path, std::ios::binary)`: an empty file, or a failed
stream when the path cannot be opened for writing. -/
def OfStream.open (writable : Bool) : OfStream :=
  { data := [], pos := 0, failbit := !writable }

/-- Embeds `ostream.fail()`. -/
abbrev OfStream.fail (s : OfStream) : Bool := s.failbit

/-- Embeds `ostream.write(buf, n)`: the bytes replace what is at the put position and
extend the file beyond its end. -/
def OfStream.write (s : OfStream) (bytes : List Byte) : OfStream :=
  if s.failbit then s
  else { s with data := s.data.take s.pos ++ bytes ++ s.data.drop (s.pos + bytes.length),
                pos := s.pos + bytes.length }

/-- Embeds `ostream.tellp()`. -/
def OfStream.tellp (s : OfStream) : Int :=
  if s.failbit then -1 else (s.pos : Int)

/-- Embeds `ostream.seekp(off)`. -/
def OfStream.seekp (s : OfStream) (off : Nat) : OfStream :=
  if s.failbit then s else { s with pos := off }

/-! ## Reader -/

/-- The data members of `Reader::Subfile` (the `std::ifstream&` it holds is the
stream of its `Reader` and is passed to `extract` explicitly). -/
structure Reader.Subfile where
  m_prepath : List Byte
  m_subheader : List Byte
  m_cmp_size : Int
  m_size : Int
  m_offset : Int
deriving DecidableEq, Repr

/-- Embeds `Reader::Subfile::Subfile(i_stream, i_subheader, i_prepath, i_offset)`. -/
def Reader.Subfile.new (i_subheader : List Byte) (i_prepath : List Byte) (i_offset : Int) :
    Reader.Subfile :=
  { m_prepath := i_prepath
    m_offset := i_offset
    m_size := Read32LE_int i_subheader
    m_cmp_size := Read32LE_int (i_subheader.drop 4)
    m_subheader := i_subheader.take 16 }

/-- Embeds `Reader::Subfile::cmp_size()`. -/
abbrev Reader.Subfile.cmp_size (f : Reader.Subfile) : Int := f.m_cmp_size

/-- Embeds `Reader::Subfile::size()`. -/
abbrev Reader.Subfile.size (f : Reader.Subfile) : Int := f.m_size

/-- Embeds `Reader::Subfile::offset()`. -/
abbrev Reader.Subfile.offset (f : Reader.Subfile) : Int := f.m_offset

/-- The data members of `Reader`. -/
structure Reader where
  stream : IfStream
  m_files : List Reader.Subfile
  m_header : List Byte
  m_size : Int
  m_error : Int
deriving DecidableEq, Repr

/-- Embeds `Reader::files()`. -/
abbrev Reader.files (r : Reader) : List Reader.Subfile := r.m_files

/-- Embeds `Reader::error()`. -/
abbrev Reader.error (r : Reader) : Int := r.m_error

/-- The `for (int i = 0; i < count; ++i)` loop of the constructor; the first
argument is the number of iterations left.  The result is the stream, the
table and the value `m_error` ends with; `none` stands for the
`std::length_error` that `std::vector<char> path_bytes(path_size)` throws for a
negative `path_size`.  The position `stream.tellg()` is converted to the `int`
parameter `i_offset`, and the `int` sum `file_size + padding` is taken in two's
complement; `%` on `int` truncates towards zero (`Int.tmod`). -/
def Reader_loop : Nat → IfStream → List Reader.Subfile →
    Option (IfStream × List Reader.Subfile × Int)
  | 0, stream, m_files => some (stream, m_files, 0)
  | n + 1, stream, m_files =>
    let (subheader, stream) := stream.read 16
    if stream.fail then some (stream, m_files, READ_SUBHEADER)
    else
      let path_size := Read32LE_int (subheader.drop 8)
      if path_size < 0 then none
      else
        let (path_bytes, stream) := stream.read path_size.toNat
        if stream.fail then some (stream, m_files, READ_SUBPATH)
        else
          let prepath := path_bytes
          let subfile := Reader.Subfile.new subheader prepath (toInt32 stream.tellg)
          let m_files := m_files ++ [subfile]
          let file_size := if subfile.cmp_size ≠ 0 then subfile.cmp_size else subfile.size
          let padding := if Int.tmod file_size 4 ≠ 0 then 4 - Int.tmod file_size 4 else 0
          let stream := stream.ignore (toInt32 (file_size + padding))
          Reader_loop n stream m_files

/-- Embeds `Reader::Reader(const std::filesystem::path& path)`; the file at `path` is
given by its contents (`none`: it cannot be opened).  Members the constructor
leaves unset on an early return (`m_size`, `m_header`) are shown as `0` and
empty. -/
def Reader.new (file : Option (List Byte)) : Option Reader :=
  let stream := IfStream.open file
  if stream.fail then
    some { stream := stream, m_files := [], m_header := [], m_size := 0, m_error := FILE_OPEN }
  else
    let (m_header, stream) := stream.read 12
    if stream.fail then
      some { stream := stream, m_files := [], m_header := m_header, m_size := 0,
             m_error := READ_HEADER }
    else
      let m_size := Read32LE_int m_header
      let count := Read32LE_int (m_header.drop 8)
      match Reader_loop count.toNat stream [] with
      | none => none
      | some (stream, m_files, m_error) =>
        some { stream := stream, m_files := m_files, m_header := m_header, m_size := m_size,
               m_error := m_error }

/-! ## Extraction -/

/-- The constant `NSPRE_CHUNK_SIZE`. -/
def NSPRE_CHUNK_SIZE : Nat := 1024

/-- Embeds `Reader::Outfunc`, a `std::function<int (char*, size_t)>`: a callable with
its own state `σ`, which receives a chunk and returns a code and its new
state. -/
abbrev Outfunc (σ : Type) := σ → List Byte → Int × σ

/-- The struct `ExtractVars`. -/
structure ExtractVars where
  in_pos : Int
  rb_pos : Nat
  ring_buffer : List Byte
deriving DecidableEq, Repr

/-- Embeds `ExtractVars::ExtractVars()`. -/
def ExtractVars.new : ExtractVars :=
  { in_pos := 0, rb_pos := 4078, ring_buffer := List.replicate 4096 0 }

/-- Embeds `static int CopyByte(ExtractVars&, std::ifstream&, Reader::Outfunc&)`. -/
def CopyByte {σ : Type} (vars : ExtractVars) (stream : IfStream) (outfunc : Outfunc σ) (snk : σ) :
    Int × ExtractVars × IfStream × σ :=
  let (buf, stream) := stream.read 1
  if stream.fail then (READ_SUBFILE, vars, stream, snk)
  else
    let b := buf.getD 0 0
    let (err, snk) := outfunc snk [b]
    if err ≠ 0 then (err, vars, stream, snk)
    else
      let vars := { vars with ring_buffer := vars.ring_buffer.set vars.rb_pos b }
      let vars := { vars with in_pos := vars.in_pos + 1 }
      let vars := { vars with rb_pos := (vars.rb_pos + 1) % 4096 }
      (NO_ERROR, vars, stream, snk)

/-- The `for (int i = 0; i < count; ++i)` loop of `CopyRB`; the second argument
is `count - i`, the third is `i`. -/
def CopyRB_loop {σ : Type} (outfunc : Outfunc σ) (offset : Nat) :
    Nat → Nat → ExtractVars → σ → Int × ExtractVars × σ
  | 0, _, vars, snk => (NO_ERROR, vars, snk)
  | n + 1, i, vars, snk =>
    let b := vars.ring_buffer.getD ((offset + i) % 4096) 0
    let vars := { vars with ring_buffer := vars.ring_buffer.set vars.rb_pos b }
    let vars := { vars with rb_pos := (vars.rb_pos + 1) % 4096 }
    let (err, snk) := outfunc snk [b]
    if err ≠ 0 then (err, vars, snk)
    else CopyRB_loop outfunc offset n (i + 1) vars snk

/-- Embeds `static int CopyRB(ExtractVars&, std::ifstream&, Reader::Outfunc&)`. -/
def CopyRB {σ : Type} (vars : ExtractVars) (stream : IfStream) (outfunc : Outfunc σ) (snk : σ) :
    Int × ExtractVars × IfStream × σ :=
  let (dict, stream) := stream.read 2
  if stream.fail then (READ_SUBFILE, vars, stream, snk)
  else
    let vars := { vars with in_pos := vars.in_pos + 2 }
    let offset := (dict.getD 0 0).val
    let offset := offset ||| (((dict.getD 1 0).val &&& 0xf0) <<< 4)
    let count := ((dict.getD 1 0).val &&& 0xf) + 3
    let (err, vars, snk) := CopyRB_loop outfunc offset count 0 vars snk
    (err, vars, stream, snk)

/-- The raw branch of `extract`: the loop `while (bytes > 0)`.  The first
argument is fuel: with none left, `none` is returned if the loop would go on. -/
def extract_raw_loop {σ : Type} (outfunc : Outfunc σ) :
    Nat → Int → IfStream → σ → Option (Int × IfStream × σ)
  | 0, bytes, stream, snk =>
    if bytes > 0 then none else some (NO_ERROR, stream, snk)
  | fuel + 1, bytes, stream, snk =>
    if bytes > 0 then
      if bytes ≥ (NSPRE_CHUNK_SIZE : Int) then
        let (buffer, stream) := stream.read NSPRE_CHUNK_SIZE
        if stream.fail then some (READ_SUBFILE, stream, snk)
        else
          let (err, snk) := outfunc snk buffer
          if err ≠ 0 then some (err, stream, snk)
          else extract_raw_loop outfunc fuel (bytes - NSPRE_CHUNK_SIZE) stream snk
      else
        let (buffer, stream) := stream.read bytes.toNat
        if stream.fail then some (READ_SUBFILE, stream, snk)
        else
          let (err, snk) := outfunc snk buffer
          if err ≠ 0 then some (err, stream, snk)
          else some (NO_ERROR, stream, snk)
    else some (NO_ERROR, stream, snk)

/-- The loop `for (int i = 0; i < 8; ++i)` over the bits of one type byte; the
third argument is `8 - i`, the fourth is `i`.  A result code `0` means that the
loop was left by its condition or by a `break`. -/
def extract_bits {σ : Type} (outfunc : Outfunc σ) (m_cmp_size : Int) (type_byte : Byte) :
    Nat → Nat → ExtractVars → IfStream → σ → Int × ExtractVars × IfStream × σ
  | 0, _, vars, stream, snk => (0, vars, stream, snk)
  | n + 1, i, vars, stream, snk =>
    if type_byte.val &&& (0x1 <<< i) ≠ 0 then
      let (err, vars, stream, snk) := CopyByte vars stream outfunc snk
      if err ≠ 0 then (err, vars, stream, snk)
      else if vars.in_pos ≥ m_cmp_size then (0, vars, stream, snk)
      else extract_bits outfunc m_cmp_size type_byte n (i + 1) vars stream snk
    else
      let (err, vars, stream, snk) := CopyRB vars stream outfunc snk
      if err ≠ 0 then (err, vars, stream, snk)
      else if vars.in_pos ≥ m_cmp_size then (0, vars, stream, snk)
      else extract_bits outfunc m_cmp_size type_byte n (i + 1) vars stream snk

/-- The compressed branch of `extract`: the loop
`while (vars.in_pos < m_cmp_size)`.  The first argument is fuel: with none
left, `none` is returned if the loop would go on. -/
def extract_loop {σ : Type} (outfunc : Outfunc σ) (m_cmp_size : Int) :
    Nat → ExtractVars → IfStream → σ → Option (Int × ExtractVars × IfStream × σ)
  | 0, vars, stream, snk =>
    if vars.in_pos < m_cmp_size then none else some (NO_ERROR, vars, stream, snk)
  | fuel + 1, vars, stream, snk =>
    if vars.in_pos < m_cmp_size then
      let (buf, stream) := stream.read 1
      if stream.fail then some (READ_SUBFILE, vars, stream, snk)
      else
        let type_byte := buf.getD 0 0
        let vars := { vars with in_pos := vars.in_pos + 1 }
        let (err, vars, stream, snk) :=
          extract_bits outfunc m_cmp_size type_byte 8 0 vars stream snk
        if err ≠ 0 then some (err, vars, stream, snk)
        else extract_loop outfunc m_cmp_size fuel vars stream snk
    else some (NO_ERROR, vars, stream, snk)

/-- Embeds `int Reader::Subfile::extract(Outfunc& outfunc)`.  The result is the
returned code, the stream and the state of the callable; the two loops get
`m_size` and `m_cmp_size` as fuel, which is more than they can use (every
iteration takes at least one byte off `bytes`, or adds one to `in_pos`). -/
def extract {σ : Type} (f : Reader.Subfile) (stream : IfStream) (outfunc : Outfunc σ) (snk : σ) :
    Option (Int × IfStream × σ) :=
  if !stream.is_open then some (UNINITIALIZED, stream, snk)
  else
    let stream := stream.seekg f.m_offset
    if stream.fail then some (READ_SUBFILE, stream, snk)
    else if f.m_cmp_size = 0 then
      let bytes := f.m_size
      extract_raw_loop outfunc bytes.toNat bytes stream snk
    else
      match extract_loop outfunc f.m_cmp_size f.m_cmp_size.toNat ExtractVars.new stream snk with
      | none => none
      | some (err, _, stream, snk) => some (err, stream, snk)

/-- The callable of `extract(char* data_out)`: it appends every chunk to what
it has stored at `data_out` so far and returns `NO_ERROR`. -/
def buffer_outfunc : Outfunc (List Byte) :=
  fun data_out data => (NO_ERROR, data_out ++ data)

/-- Embeds `int Reader::Subfile::extract(char* data_out)`: the code and the bytes
written to `data_out`. -/
def extract_to_buffer (f : Reader.Subfile) (stream : IfStream) :
    Option (Int × IfStream × List Byte) :=
  extract f stream buffer_outfunc []

/-! ## Writer -/

/-- The struct `nspre::Subfile`: the internal path and the source file, given
by its contents (`none`: the source cannot be opened). -/
structure Subfile where
  source : Option (List Byte)
  m_prepath : List Byte
deriving DecidableEq, Repr

/-- Embeds `SubfileBase::prepath()`. -/
abbrev Subfile.prepath (f : Subfile) : List Byte := f.m_prepath

/-- The constant `read_size` of `write_subfile`. -/
def read_size : Nat := 1048576

/-- The loop `while (!stream.eof())` of `write_subfile`, which reads the source
in pieces of `read_size` bytes: `rest` is the unread part of the file,
`file_buffer` what has been read.  The first argument is fuel; the loop is
always left by its `break`, on the first short read. -/
def read_source : Nat → List Byte → List Byte → List Byte
  | 0, _, file_buffer => file_buffer
  | fuel + 1, rest, file_buffer =>
    let piece := rest.take read_size
    let last_count := piece.length
    let file_buffer := file_buffer ++ piece
    if last_count < read_size then file_buffer
    else read_source fuel (rest.drop read_size) file_buffer

/-- The path bytes of `write_subfile`: the prepath with every `'/'` replaced by
`'\\'`. -/
def convert_slashes (path_buffer : List Byte) : List Byte :=
  path_buffer.map (fun c => if c = slash then backslash else c)

/-- Embeds `static int write_subfile(std::ofstream& ostream, Subfile& subfile)`. -/
def write_subfile (ostream : OfStream) (subfile : Subfile) : Int × OfStream :=
  match subfile.source with
  | none => (FILE_OPEN, ostream)
  | some contents =>
    let file_buffer := read_source (contents.length + 1) contents []
    let path_buffer := subfile.prepath
    let path_buffer := convert_slashes path_buffer
    let padding := 4 - (path_buffer.length % 4)
    let path_buffer := path_buffer ++ List.replicate padding 0
    let header :=
      Write32LE (file_buffer.length % 4294967296) ++
      Write32LE 0 ++
      Write32LE (path_buffer.length % 4294967296) ++
      Write32LE (string_crc subfile.prepath)
    let ostream := ostream.write header
    if ostream.fail then (WRITE_SUBHEADER, ostream)
    else
      let ostream := ostream.write path_buffer
      if ostream.fail then (WRITE_SUBPATH, ostream)
      else
        let padding := if file_buffer.length % 4 ≠ 0 then 4 - (file_buffer.length % 4) else 0
        let file_buffer := file_buffer ++ List.replicate padding 0
        let ostream := ostream.write file_buffer
        if ostream.fail then (WRITE_SUBFILE, ostream)
        else (NO_ERROR, ostream)

/-- The loop `for (int i = 0; i < count; ++i)` of `write`. -/
def write_loop : List Subfile → OfStream → Int × OfStream
  | [], ostream => (NO_ERROR, ostream)
  | subfile :: rest, ostream =>
    let (err, ostream) := write_subfile ostream subfile
    if err ≠ 0 then (err, ostream)
    else write_loop rest ostream

/-- Embeds `int write(Subfile* subfiles, size_t count, const std::filesystem::path& path)`
(and the overload for a `std::vector<Subfile>`): the returned code and the
output file.  `writable` says whether `path` can be opened for writing.  The
four bytes `header[0..3]`, which the source leaves unset for the first
`ostream.write`, are taken as zero. -/
def write (subfiles : List Subfile) (writable : Bool) : Int × OfStream :=
  let ostream := OfStream.open writable
  if ostream.fail then (FILE_OPEN_OUTPUT, ostream)
  else
    let count := subfiles.length
    let header : List Byte :=
      [0, 0, 0, 0] ++ [0x03, 0x0, 0xcd, 0xab] ++ Write32LE (count % 4294967296)
    let ostream := ostream.write header
    if ostream.fail then (WRITE_HEADER, ostream)
    else
      let (err, ostream) := write_loop subfiles ostream
      if err ≠ 0 then (err, ostream)
      else
        let header := Write32LE ((ostream.tellp % 4294967296).toNat) ++ header.drop 4
        let ostream := ostream.seekp 0
        let ostream := ostream.write header
        if ostream.fail then (WRITE_HEADER, ostream)
        else (NO_ERROR, ostream)

/-! ## Helpers for the statements -/

/-- The bytes of an ASCII string literal, for the examples. -/
def bytesOf (s : String) : List Byte := s.toList.map (fun c => toByte c.toNat)

/-- What `extract_bits` does with the result `r` of the token selected by one
bit: it returns on an error, leaves the loop when the compressed range is
used up, and goes on with the next bit otherwise. -/
def after_token {σ : Type} (outfunc : Outfunc σ) (m_cmp_size : Int) (type_byte : Byte)
    (n i : Nat) (r : Int × ExtractVars × IfStream × σ) : Int × ExtractVars × IfStream × σ :=
  if r.1 ≠ 0 then r
  else if r.2.1.in_pos ≥ m_cmp_size then (0, r.2.1, r.2.2.1, r.2.2.2)
  else extract_bits outfunc m_cmp_size type_byte n (i + 1) r.2.1 r.2.2.1 r.2.2.2

/-- The contents of the source file of a subfile (empty when it cannot be
opened). -/
def Subfile.contents (sf : Subfile) : List Byte := sf.source.getD []

/-- The path bytes `write_subfile` stores for a subfile: the converted path,
then the zero padding. -/
def stored_path (sf : Subfile) : List Byte :=
  convert_slashes sf.prepath ++ List.replicate (4 - sf.prepath.length % 4) 0

/-- The payload bytes `write_subfile` stores for a subfile: the contents, then
the alignment padding. -/
def stored_payload (sf : Subfile) : List Byte :=
  sf.contents ++
    List.replicate (if sf.contents.length % 4 ≠ 0 then 4 - sf.contents.length % 4 else 0) 0

/-- The 16 header bytes `write_subfile` stores for a subfile. -/
def stored_subheader (sf : Subfile) : List Byte :=
  Write32LE (sf.contents.length % 4294967296) ++
  Write32LE 0 ++
  Write32LE ((stored_path sf).length % 4294967296) ++
  Write32LE (string_crc sf.prepath)

/-- Everything `write_subfile` appends to the archive for a subfile. -/
def block (sf : Subfile) : List Byte :=
  stored_subheader sf ++ stored_path sf ++ stored_payload sf

/-- The file offset at which the block of subfile number `i` starts: the 12
header bytes and the blocks before it. -/
def block_offset (subfiles : List Subfile) (i : Nat) : Nat :=
  12 + ((subfiles.take i).map (fun sf => (block sf).length)).sum

/-- A stream whose put position is at the end of the file. -/
def OfStream.atEnd (s : OfStream) : Prop := s.failbit = false ∧ s.pos = s.data.length

/-- The output stream after `write` has stored its first 12 bytes. -/
def write_start (subfiles : List Subfile) : OfStream :=
  ⟨[0, 0, 0, 0] ++ [0x03, 0x0, 0xcd, 0xab] ++ Write32LE (subfiles.length % 4294967296), 12, false⟩

/-- The archive `write` produces for a list of subfiles whose sources can all
be read. -/
def archive_bytes (subfiles : List Subfile) : List Byte :=
  Write32LE ((12 + ((subfiles.map block).flatten).length) % 4294967296) ++
    [0x03, 0x0, 0xcd, 0xab] ++ Write32LE (subfiles.length % 4294967296) ++
    (subfiles.map block).flatten

/-- Two subfiles used as a concrete input: a five-byte payload under a path
with a forward slash, and an empty payload under a four-byte path. -/
def example_files : List Subfile :=
  [⟨some (bytesOf "hello"), bytesOf "a/b.txt"⟩, ⟨some [], bytesOf "abcd"⟩]

/-- The records `Reader` builds from the blocks of `subfiles` when the first of
them starts at file offset `base`: the stored header and path, and the
position after the path converted to `int`. -/
def expected_records (base : Nat) : List Subfile → List Reader.Subfile
  | [] => []
  | sf :: rest =>
    Reader.Subfile.new (stored_subheader sf) (stored_path sf)
        (toInt32 ((base + 16 + (stored_path sf).length : Nat) : Int)) ::
      expected_records (base + (block sf).length) rest

/-- A payload of `2^31 - 4` zero bytes. -/
def big_payload : List Byte := List.replicate 2147483644 0

/-- Two subfiles whose payloads are shorter than `2^31` bytes each and whose
archive is longer than `2^31` bytes. -/
def big_files : List Subfile := [⟨some big_payload, []⟩, ⟨some [7], []⟩]

/-- The bounds under which `Reader` reads back what `write` stored: the number
of subfiles, every stored path length and every stored payload length fit a
32-bit `int`. -/
def fits_int (subfiles : List Subfile) : Prop :=
  subfiles.length < 2147483648 ∧
  ∀ sf ∈ subfiles, (stored_path sf).length < 2147483648 ∧
    (stored_payload sf).length < 2147483648

/-- The part of a path after its last backslash (the whole path when it has
none), written with list operations: the longest suffix without a backslash. -/
def after_last_backslash (p : List Byte) : List Byte :=
  (p.reverse.takeWhile (fun c => decide (c ≠ backslash))).reverse

/-! ## Observing a decode -/

/-- A sink that keeps a record of the calls made to it: a call of
`logged outfunc` runs `outfunc` on the chunk and appends the chunk and the code
`outfunc` returned to the record. -/
def logged {σ : Type} (outfunc : Outfunc σ) : Outfunc (σ × List (List Byte × Int)) :=
  fun s data => ((outfunc s.1 data).1, ((outfunc s.1 data).2, s.2 ++ [(data, (outfunc s.1 data).1)]))

/-- A record of sink calls in which a call that returned a nonzero code is the
last one, and its code is `code`. -/
def Final (code : Int) (log : List (List Byte × Int)) : Prop :=
  ∀ k, k < log.length → (log.getD k ([], 0)).2 ≠ 0 →
    k + 1 = log.length ∧ code = (log.getD k ([], 0)).2

/-- The ring buffer has its 4096 cells and the write cursor `rb_pos` points at
one of them. -/
def RingOK (vars : ExtractVars) : Prop :=
  vars.rb_pos < 4096 ∧ vars.ring_buffer.length = 4096

/-- The sliding window: with the bytes `out` emitted so far, the write cursor is
`(4078 + out.length) % 4096`, the cell `(4078 + k) % 4096` holds `out[k]` for
each of the last 4096 positions `k`, and a cell that was never written holds
`0`. -/
def Window (vars : ExtractVars) (out : List Byte) : Prop :=
  vars.ring_buffer.length = 4096 ∧
  vars.rb_pos = (4078 + out.length) % 4096 ∧
  (∀ k, k < out.length → out.length ≤ k + 4096 →
    vars.ring_buffer.getD ((4078 + k) % 4096) 0 = out.getD k 0) ∧
  (∀ j, j < 4096 → (∀ k, k < out.length → (4078 + k) % 4096 ≠ j) →
    vars.ring_buffer.getD j 0 = 0)

/-! ## The layout the reader expects -/

/-- One block of an archive as the reader expects it: the 16-byte subheader,
then the path bytes, the payload bytes and the padding. -/
structure RawBlock where
  subheader : List Byte
  path : List Byte
  payload : List Byte
  padding : List Byte

/-- The bytes of a block, in file order. -/
def RawBlock.bytes (b : RawBlock) : List Byte :=
  b.subheader ++ b.path ++ b.payload ++ b.padding

/-- The uncompressed_size field of the subheader, bytes [0,4). -/
def RawBlock.size (b : RawBlock) : Nat := Read32LE b.subheader

/-- The compressed_size field of the subheader, bytes [4,8). -/
def RawBlock.cmp_size (b : RawBlock) : Nat := Read32LE (b.subheader.drop 4)

/-- The path_byte_length field of the subheader, bytes [8,12). -/
def RawBlock.path_size (b : RawBlock) : Nat := Read32LE (b.subheader.drop 8)

/-- The number of payload bytes of a block: compressed_size if nonzero, else
uncompressed_size. -/
def RawBlock.payload_span (b : RawBlock) : Nat :=
  if b.cmp_size ≠ 0 then b.cmp_size else b.size

/-- The number of padding bytes of a block: what brings payload_span to a
multiple of 4. -/
def RawBlock.pad (b : RawBlock) : Nat :=
  if b.payload_span % 4 = 0 then 0 else 4 - b.payload_span % 4

/-- A block whose parts have the lengths its subheader gives, all three size
fields being below 2^31. -/
def RawBlock.wf (b : RawBlock) : Prop :=
  b.subheader.length = 16 ∧ b.path.length = b.path_size ∧
  b.payload.length = b.payload_span ∧ b.padding.length = b.pad ∧
  b.size < 2147483648 ∧ b.cmp_size < 2147483648 ∧ b.path_size < 2147483648

/-- An archive byte string: the header, then the blocks. -/
def raw_archive (header : List Byte) (blocks : List RawBlock) : List Byte :=
  header ++ (blocks.map RawBlock.bytes).flatten

/-- The absolute position just after the path bytes of block `i` of an archive
with a 12-byte header. -/
def raw_offset (blocks : List RawBlock) (i : Nat) : Nat :=
  12 + ((blocks.take i).map (fun b => b.bytes.length)).sum + 16 + (blocks.getD i ⟨[], [], [], []⟩).path.length

/-- The records `Reader` builds from `blocks` when the first of them starts at
file offset `base`: the position after the path is converted to `int`. -/
def raw_records (base : Nat) : List RawBlock → List Reader.Subfile
  | [] => []
  | b :: rest =>
    Reader.Subfile.new b.subheader b.path (toInt32 ((base + 16 + b.path.length : Nat) : Int)) ::
      raw_records (base + b.bytes.length) rest

/-- Two blocks with payloads of 2^31 - 4 bytes and of 1 byte: every size field
is below 2^31 and the second block lies beyond offset 2^31. -/
def big_blocks : List RawBlock :=
  [⟨[0xfc, 0xff, 0xff, 0x7f, 0, 0, 0, 0, 0, 0, 0, 0, 0, 0, 0, 0], [], big_payload, []⟩,
   ⟨[1, 0, 0, 0, 0, 0, 0, 0, 0, 0, 0, 0, 0, 0, 0, 0], [], [7], [0, 0, 0]⟩]

/-- An archive with one subfile whose subheader gives uncompressed_size 4 and
compressed_size 1: the header, the subheader, the compressed byte FF (a type
byte) and the three padding bytes 41 00 00. -/
def type_byte_last_archive : List Byte :=
  [32, 0, 0, 0, 3, 0, 0xcd, 0xab, 1, 0, 0, 0,
   4, 0, 0, 0, 1, 0, 0, 0, 0, 0, 0, 0, 0, 0, 0, 0,
   0xFF, 0x41, 0, 0]

/-! ## Tokens -/

/-- The ring buffer after the first `k` bytes of a back-reference run that
starts at ring offset `offset`, the write cursor being `rb_pos` when the run
begins: byte `k` is read from cell `(offset + k) % 4096` of the buffer as the
earlier bytes of the run left it, and is written at cell `(rb_pos + k) % 4096`. -/
def ring_after (offset rb_pos : Nat) (rb : List Byte) : Nat → List Byte
  | 0 => rb
  | k + 1 =>
    (ring_after offset rb_pos rb k).set ((rb_pos + k) % 4096)
      ((ring_after offset rb_pos rb k).getD ((offset + k) % 4096) 0)

/-- The tokens a type byte selects, in the order they are read: entry `i` is
bit `i` of the type byte, bit 0 being the least significant; `true` stands for
a literal, `false` for a ring-buffer lookup. -/
def group_tokens (type_byte : Byte) : List Bool :=
  (List.range 8).map (fun i => type_byte.val.testBit i)

/-- A sequence of tokens decoded one after the other, a literal by `CopyByte`
and a lookup by `CopyRB`, up to the first error. -/
def run_tokens {σ : Type} (outfunc : Outfunc σ) :
    List Bool → ExtractVars → IfStream → σ → Int × ExtractVars × IfStream × σ
  | [], vars, stream, snk => (NO_ERROR, vars, stream, snk)
  | lit :: rest, vars, stream, snk =>
    let r := if lit then CopyByte vars stream outfunc snk else CopyRB vars stream outfunc snk
    if r.1 ≠ 0 then r else run_tokens outfunc rest r.2.1 r.2.2.1 r.2.2.2

/-- The number of input bytes a sequence of tokens takes: 1 for a literal, 2
for a lookup. -/
def tokens_size (l : List Bool) : Nat :=
  (l.map (fun lit => if lit then 1 else 2)).sum

/-- The block `write_subfile` stores for a subfile, split into its four parts:
the subheader, the stored path, the payload and the alignment padding. -/
def Subfile.raw (sf : Subfile) : RawBlock :=
  ⟨stored_subheader sf, stored_path sf, sf.contents,
    List.replicate (if sf.contents.length % 4 ≠ 0 then 4 - sf.contents.length % 4 else 0) 0⟩

/-! ## A sink and the chunks handed to it -/

/-- A sink without state that accepts every chunk. -/
def null_outfunc : Outfunc Unit := fun s _ => (NO_ERROR, s)

/-- The sink handed a list of chunks one after the other, up to and including
the first call that returns a nonzero code: the state of the sink afterwards
and the record of the calls made. -/
def feed {σ : Type} (outfunc : Outfunc σ) : σ → List (List Byte) → σ × List (List Byte × Int)
  | s, [] => (s, [])
  | s, c :: rest =>
    if (outfunc s c).1 ≠ 0 then ((outfunc s c).2, [(c, (outfunc s c).1)])
    else ((feed outfunc (outfunc s c).2 rest).1,
      (c, (outfunc s c).1) :: (feed outfunc (outfunc s c).2 rest).2)

/-- The sink `outfunc`, started in state `s0`, has accepted every chunk that the
accepting sink has in its record `lr`, and is in the state `sa`. -/
def SinkSync {σ : Type} (outfunc : Outfunc σ) (s0 : σ) (sa : σ × List (List Byte × Int))
    (lr : List (List Byte × Int)) : Prop :=
  feed outfunc s0 (lr.map Prod.fst) = sa ∧ ∀ x ∈ sa.2, x.2 = 0

/-- The sink `outfunc`, started in state `s0` and handed the chunks in the
record `lr` of the accepting sink, has stopped at a call that returned the
nonzero code `code`, in the state `sa`. -/
def SinkHalt {σ : Type} (outfunc : Outfunc σ) (s0 : σ) (code : Int)
    (sa : σ × List (List Byte × Int)) (lr : List (List Byte × Int)) : Prop :=
  code ≠ 0 ∧ feed outfunc s0 (lr.map Prod.fst) = sa ∧ ∃ l d, sa.2 = l ++ [(d, code)]

/-- How a decode with the sink `outfunc` (code `ca`, sink state `sa`) stands to
the same decode with the accepting sink (code `cr`, record `lr`): either both
are at the same point (`same`) with the same code, or the sink has failed and
its code is returned. -/
def SinkRel {σ : Type} (outfunc : Outfunc σ) (s0 : σ) (ca cr : Int) (same : Prop)
    (sa : σ × List (List Byte × Int)) (lr : List (List Byte × Int)) : Prop :=
  (cr = ca ∧ same ∧ SinkSync outfunc s0 sa lr) ∨ SinkHalt outfunc s0 ca sa lr

/-- A payload of `2^31 - 1` zero bytes. -/
def wide_payload : List Byte := List.replicate 2147483647 0

/-- Two blocks with payloads of 2^31 - 1 bytes and of 1 byte: every size field
is below 2^31, and payload span and padding of the first block add up to
2^31. -/
def wide_blocks : List RawBlock :=
  [⟨[0xff, 0xff, 0xff, 0x7f, 0, 0, 0, 0, 0, 0, 0, 0, 0, 0, 0, 0], [], wide_payload, [0]⟩,
   ⟨[1, 0, 0, 0, 0, 0, 0, 0, 0, 0, 0, 0, 0, 0, 0, 0], [], [7], [0, 0, 0]⟩]

/-! ## The 32-bit codec -/

theorem toByte_val (n : Nat) : (toByte n).val = n % 256 := rfl

theorem Read32LE_cons (b0 b1 b2 b3 : Byte) (rest : List Byte) :
    Read32LE (b0 :: b1 :: b2 :: b3 :: rest) =
      b0.val ||| (b1.val <<< 8) ||| (b2.val <<< 16) ||| (b3.val <<< 24) := rfl

theorem Read32LE_Write32LE_append (v : Nat) (rest : List Byte) :
    Read32LE (Write32LE v ++ rest) = v % 4294967296 := by
  simp only [Write32LE, List.cons_append, List.nil_append, Read32LE_cons, toByte_val]
  apply Nat.eq_of_testBit_eq
  intro i
  have e256 : (256 : Nat) = 2 ^ 8 := by norm_num
  have e255 : (255 : Nat) = 2 ^ 8 - 1 := by norm_num
  have e32 : (4294967296 : Nat) = 2 ^ 32 := by norm_num
  rw [e256, e255, e32]
  simp only [Nat.testBit_or, Nat.testBit_shiftLeft, Nat.testBit_mod_two_pow, Nat.testBit_and,
    Nat.testBit_shiftRight, Nat.testBit_two_pow_sub_one]
  by_cases h1 : i < 8
  · simp [h1, show i < 32 by omega, show ¬ (8 ≤ i) by omega, show ¬ (16 ≤ i) by omega,
      show ¬ (24 ≤ i) by omega]
  · by_cases h2 : i < 16
    · simp [h1, show i < 32 by omega, show (8 ≤ i) by omega, show ¬ (16 ≤ i) by omega,
        show ¬ (24 ≤ i) by omega, show i - 8 < 8 by omega, show 8 + (i - 8) = i by omega]
    · by_cases h3 : i < 24
      · simp [h1, show i < 32 by omega, show (8 ≤ i) by omega, show (16 ≤ i) by omega,
          show ¬ (24 ≤ i) by omega, show ¬ (i - 8 < 8) by omega, show i - 16 < 8 by omega,
          show 16 + (i - 16) = i by omega]
      · by_cases h4 : i < 32
        · simp [h1, h4, show (8 ≤ i) by omega, show (16 ≤ i) by omega,
            show (24 ≤ i) by omega, show ¬ (i - 8 < 8) by omega, show ¬ (i - 16 < 8) by omega,
            show i - 24 < 8 by omega, show 24 + (i - 24) = i by omega]
        · simp [h1, h4, show (8 ≤ i) by omega, show (16 ≤ i) by omega,
            show (24 ≤ i) by omega, show ¬ (i - 8 < 8) by omega, show ¬ (i - 16 < 8) by omega,
            show ¬ (i - 24 < 8) by omega]

theorem Read32LE_Write32LE (v : Nat) : Read32LE (Write32LE v) = v % 4294967296 := by
  have := Read32LE_Write32LE_append v []
  simpa using this

theorem toInt32_of_lt (n : Nat) (h : n < 2147483648) : toInt32 (n : Int) = n := by
  unfold toInt32; omega

theorem Read32LE_int_Write32LE (v : Nat) (h : v < 2147483648) (rest : List Byte) :
    Read32LE_int (Write32LE v ++ rest) = v := by
  unfold Read32LE_int
  rw [Read32LE_Write32LE_append, Nat.mod_eq_of_lt (by omega), toInt32_of_lt _ h]


/-! ## The checksum and the reference CRC-32 -/

set_option maxRecDepth 100000 in
theorem crc_table_eq_bits8 : ∀ i : Fin 256, crc_table.getD i.val 0 = crc32_bits8 i.val := by
  decide

theorem nat_xor_left_comm (a b c : Nat) : a ^^^ (b ^^^ c) = b ^^^ (a ^^^ c) := by
  rw [← Nat.xor_assoc, Nat.xor_comm a b, Nat.xor_assoc]

theorem crc32_bit_xor (x y : Nat) : crc32_bit (x ^^^ y) = crc32_bit x ^^^ crc32_bit y := by
  have hx : (x ^^^ y) % 2 = (x % 2 + y % 2) % 2 := by
    rw [Nat.xor_mod_two_eq]; omega
  have hs : (x ^^^ y) >>> 1 = (x >>> 1) ^^^ (y >>> 1) := by
    simp only [Nat.shiftRight_eq_div_pow, pow_one, Nat.xor_div_two]
  unfold crc32_bit
  rw [hx, hs]
  rcases Nat.mod_two_eq_zero_or_one x with h1 | h1 <;>
    rcases Nat.mod_two_eq_zero_or_one y with h2 | h2 <;>
    simp [h1, h2, Nat.xor_assoc, nat_xor_left_comm, Nat.xor_comm]

theorem crc32_bits8_xor (x y : Nat) : crc32_bits8 (x ^^^ y) = crc32_bits8 x ^^^ crc32_bits8 y := by
  simp [crc32_bits8, crc32_bit_xor]

theorem crc32_bit_even (h : Nat) : crc32_bit (2 * h) = h := by
  unfold crc32_bit
  simp [Nat.shiftRight_eq_div_pow]

theorem crc32_bits8_shift (h : Nat) : crc32_bits8 (h <<< 8) = h := by
  have e : h <<< 8 = 2 * (2 * (2 * (2 * (2 * (2 * (2 * (2 * h))))))) := by
    rw [Nat.shiftLeft_eq]; omega
  rw [e]
  simp [crc32_bits8, crc32_bit_even]

theorem split_low8 (x : Nat) : x = (x % 256) ^^^ ((x >>> 8) <<< 8) := by
  apply Nat.eq_of_testBit_eq
  intro i
  have : (256 : Nat) = 2 ^ 8 := by norm_num
  rw [this]
  simp only [Nat.testBit_xor, Nat.testBit_mod_two_pow, Nat.testBit_shiftLeft, Nat.testBit_shiftRight]
  by_cases hi : i < 8
  · have : ¬ (8 ≤ i) := by omega
    simp [hi, this]
  · have : 8 ≤ i := by omega
    simp [hi, this]

theorem crc_step_eq (crc : Nat) (c : Byte) : crc_step crc c = crc32_bits8 (crc ^^^ c.val) := by
  have hlt : (crc % 256) ^^^ c.val < 256 := by
    have h1 : crc % 256 < 2 ^ 8 := Nat.mod_lt _ (by norm_num)
    have h2 : c.val < 2 ^ 8 := c.isLt
    exact Nat.xor_lt_two_pow h1 h2
  have ht := crc_table_eq_bits8 ⟨_, hlt⟩
  have hs : crc ^^^ c.val = ((crc >>> 8) <<< 8) ^^^ ((crc % 256) ^^^ c.val) := by
    conv_lhs => rw [split_low8 crc]
    rw [Nat.xor_comm (crc % 256), Nat.xor_assoc]
  unfold crc_step
  simp only at ht ⊢
  rw [hs, crc32_bits8_xor, crc32_bits8_shift, ← ht, Nat.xor_comm]

theorem string_crc_eq_register (s : List Byte) : string_crc s = crc32_register s := by
  unfold string_crc crc32_register
  have : crc_step = (fun crc c => crc32_bits8 (crc ^^^ c.val)) := by
    funext crc c; exact crc_step_eq crc c
  rw [this]; rfl


/-! ## The decoder -/

theorem getD_set_ring (l : List Byte) (i j : Nat) (v d : Byte) :
    (l.set i v).getD j d = if i = j ∧ i < l.length then v else l.getD j d := by
  simp only [List.getD_eq_getElem?_getD, List.getElem?_set]
  by_cases h : i = j
  · subst h
    by_cases h2 : i < l.length
    · simp [h2]
    · simp [h2, List.getElem?_eq_none (Nat.le_of_not_lt h2)]
  · simp [h]

/-- The run of `CopyRB` that re-reads what it is writing: when the cells from
`4078` up to the one before the cursor hold `b`, every byte of the run is `b`. -/
theorem CopyRB_loop_self (b : Byte) (n : Nat) :
    ∀ (i : Nat) (vars : ExtractVars) (snk : List Byte),
      i + n ≤ 18 →
      vars.ring_buffer.length = 4096 →
      vars.rb_pos = (4079 + i) % 4096 →
      (∀ j, j ≤ i → 4078 + j < 4096 → vars.ring_buffer.getD (4078 + j) 0 = b) →
      ∃ vars', CopyRB_loop buffer_outfunc 4078 n i vars snk
        = (NO_ERROR, vars', snk ++ List.replicate n b) ∧ vars'.in_pos = vars.in_pos := by
  induction n with
  | zero =>
    intro i vars snk _ _ _ _
    exact ⟨vars, by simp [CopyRB_loop], rfl⟩
  | succ n ih =>
    intro i vars snk hi hlen hpos hcells
    have hi17 : i ≤ 17 := by omega
    have hmod : (4078 + i) % 4096 = 4078 + i := Nat.mod_eq_of_lt (by omega)
    have hb : vars.ring_buffer.getD (4078 + i) 0 = b := hcells i (Nat.le_refl _) (by omega)
    obtain ⟨vars', h1, h2⟩ := ih (i + 1)
      { vars with ring_buffer := vars.ring_buffer.set vars.rb_pos b,
                  rb_pos := (vars.rb_pos + 1) % 4096 } (snk ++ [b]) (by omega)
      (by simp [hlen])
      (by simp only [hpos]; omega)
      (by
        intro j hj hlt
        simp only [getD_set_ring, hpos, hlen]
        by_cases hji : j ≤ i
        · rw [hcells j hji hlt]; simp
        · have : j = i + 1 := by omega
          subst this
          have : (4079 + i) % 4096 = 4078 + (i + 1) := by omega
          simp [this, hlt])
    refine ⟨vars', ?_, by simpa using h2⟩
    simp only [CopyRB_loop, hmod, hb, buffer_outfunc, NO_ERROR, ne_eq, not_true_eq_false,
      if_false]
    simp only [buffer_outfunc, NO_ERROR] at h1
    rw [h1]
    simp [List.replicate_succ]

theorem IfStream.read_ok (s : IfStream) (n : Nat) (hf : s.failbit = false)
    (hn : s.pos + n ≤ s.data.length) :
    s.read n = ((s.data.drop s.pos).take n, { s with pos := s.pos + n }) := by
  simp [IfStream.read, hf, hn]

theorem backref_byte_fields (n : Nat) (h3 : 3 ≤ n) (h18 : n ≤ 18) :
    (238 ||| (((toByte (0xF0 ||| (n - 3))).val &&& 0xf0) <<< 4)) = 4078 ∧
    ((toByte (0xF0 ||| (n - 3))).val &&& 0xf) + 3 = n := by
  interval_cases n <;> decide

theorem IfStream.read_mid (pre mid post : List Byte) (o : Bool) (k m : Nat)
    (h : k + m ≤ mid.length) :
    IfStream.read ⟨pre ++ mid ++ post, pre.length + k, o, false⟩ m =
      ((mid.drop k).take m, ⟨pre ++ mid ++ post, pre.length + k + m, o, false⟩) := by
  have hlen : pre.length + k + m ≤ (pre ++ mid ++ post).length := by
    simp only [List.length_append]; omega
  rw [IfStream.read_ok _ _ rfl hlen]
  simp only [List.append_assoc, List.drop_append, Prod.mk.injEq, and_true]
  rw [List.drop_append_of_le_length (by omega), List.take_append_of_le_length]
  simp only [List.length_drop]; omega

theorem ring_buffer_new_length : ExtractVars.new.ring_buffer.length = 4096 := by
  simp only [ExtractVars.new, List.length_replicate]

theorem ExtractVars.new_eq :
    ∃ rb : List Byte, rb.length = 4096 ∧ ExtractVars.new = ⟨0, 4078, rb⟩ :=
  ⟨List.replicate 4096 0, List.length_replicate _ _, rfl⟩

theorem CopyByte_buffer (ip : Int) (rp : Nat) (rb : List Byte) (stream stream' : IfStream)
    (c : Byte) (snk : List Byte) (hr : stream.read 1 = ([c], stream'))
    (hf : stream'.failbit = false) :
    CopyByte ⟨ip, rp, rb⟩ stream buffer_outfunc snk =
      (NO_ERROR, ⟨ip + 1, (rp + 1) % 4096, rb.set rp c⟩, stream', snk ++ [c]) := by
  simp [CopyByte, hr, hf, IfStream.fail, buffer_outfunc, NO_ERROR]

theorem CopyRB_read {σ : Type} (outfunc : Outfunc σ) (vars : ExtractVars)
    (stream stream' : IfStream) (d0 d1 : Byte) (snk : σ)
    (hr : stream.read 2 = ([d0, d1], stream')) (hf : stream'.failbit = false) :
    CopyRB vars stream outfunc snk =
      ((CopyRB_loop outfunc (d0.val ||| ((d1.val &&& 0xf0) <<< 4)) ((d1.val &&& 0xf) + 3) 0
          { vars with in_pos := vars.in_pos + 2 } snk).1,
       (CopyRB_loop outfunc (d0.val ||| ((d1.val &&& 0xf0) <<< 4)) ((d1.val &&& 0xf) + 3) 0
          { vars with in_pos := vars.in_pos + 2 } snk).2.1,
       stream',
       (CopyRB_loop outfunc (d0.val ||| ((d1.val &&& 0xf0) <<< 4)) ((d1.val &&& 0xf) + 3) 0
          { vars with in_pos := vars.in_pos + 2 } snk).2.2) := by
  simp [CopyRB, hr, hf, IfStream.fail]

theorem extract_loop_zero {σ : Type} (outfunc : Outfunc σ) (m_cmp_size : Int)
    (vars : ExtractVars) (stream : IfStream) (snk : σ) :
    extract_loop outfunc m_cmp_size 0 vars stream snk =
      if vars.in_pos < m_cmp_size then none else some (NO_ERROR, vars, stream, snk) := rfl

theorem extract_loop_succ {σ : Type} (outfunc : Outfunc σ) (m_cmp_size : Int) (fuel : Nat)
    (vars : ExtractVars) (stream : IfStream) (snk : σ) :
    extract_loop outfunc m_cmp_size (fuel + 1) vars stream snk =
    if vars.in_pos < m_cmp_size then
      if (stream.read 1).2.fail then some (READ_SUBFILE, vars, (stream.read 1).2, snk)
      else
        let r := extract_bits outfunc m_cmp_size ((stream.read 1).1.getD 0 0) 8 0
              { vars with in_pos := vars.in_pos + 1 } (stream.read 1).2 snk
        if r.1 ≠ 0 then some r
        else extract_loop outfunc m_cmp_size fuel r.2.1 r.2.2.1 r.2.2.2
    else some (NO_ERROR, vars, stream, snk) := rfl

theorem extract_bits_zero {σ : Type} (outfunc : Outfunc σ) (m_cmp_size : Int) (type_byte : Byte)
    (i : Nat) (vars : ExtractVars) (stream : IfStream) (snk : σ) :
    extract_bits outfunc m_cmp_size type_byte 0 i vars stream snk = (0, vars, stream, snk) := rfl

theorem extract_bits_succ {σ : Type} (outfunc : Outfunc σ) (m_cmp_size : Int) (type_byte : Byte)
    (n i : Nat) (vars : ExtractVars) (stream : IfStream) (snk : σ) :
    extract_bits outfunc m_cmp_size type_byte (n + 1) i vars stream snk =
      if type_byte.val &&& (0x1 <<< i) ≠ 0 then
        after_token outfunc m_cmp_size type_byte n i (CopyByte vars stream outfunc snk)
      else
        after_token outfunc m_cmp_size type_byte n i (CopyRB vars stream outfunc snk) := rfl

/-- C2 (overlapping self-referential back-reference): for every byte b and
every n from 3 to 18, the four compressed bytes 01, b, EE, F0 | (n - 3), stored
anywhere in the archive and decoded with compressed_size 4, give NO_ERROR and
exactly n + 1 copies of b: the literal b, then a run of n bytes read from ring
offset 4078, the cell the literal was written to. -/
theorem overlapping_backreference (b : Byte) (n : Nat) (h3 : 3 ≤ n) (h18 : n ≤ 18)
    (pre post : List Byte) (f : Reader.Subfile)
    (hc : f.m_cmp_size = 4) (ho : f.m_offset = (pre.length : Int)) :
    (extract_to_buffer f
        (IfStream.open (some (pre ++ [0x01, b, 0xEE, toByte (0xF0 ||| (n - 3))] ++ post)))).map
      (fun r => (r.1, r.2.2)) = some (NO_ERROR, List.replicate (n + 1) b) := by
  obtain ⟨hoff, hcnt⟩ := backref_byte_fields n h3 h18
  obtain ⟨rb, hrb, hnew⟩ := ExtractVars.new_eq
  obtain ⟨vars', hrun, hin⟩ := CopyRB_loop_self b n 0
    { in_pos := 4, rb_pos := 4079, ring_buffer := rb.set 4078 b }
    [b] (by omega) (by simp only [List.length_set, hrb]) (by simp)
    (by
      intro j hj _
      have : j = 0 := by omega
      subst this
      simp only [getD_set_ring, hrb]
      simp)
  generalize hx : toByte (0xF0 ||| (n - 3)) = x at *
  have r0 : IfStream.read ⟨pre ++ [0x01, b, 0xEE, x] ++ post, pre.length, true, false⟩ 1 =
      ([1], ⟨pre ++ [0x01, b, 0xEE, x] ++ post, pre.length + 1, true, false⟩) :=
    IfStream.read_mid pre [0x01, b, 0xEE, x] post true 0 1 (by simp)
  have r1 : IfStream.read ⟨pre ++ [0x01, b, 0xEE, x] ++ post, pre.length + 1, true, false⟩ 1 =
      ([b], ⟨pre ++ [0x01, b, 0xEE, x] ++ post, pre.length + 2, true, false⟩) :=
    IfStream.read_mid pre [0x01, b, 0xEE, x] post true 1 1 (by simp)
  have r2 : IfStream.read ⟨pre ++ [0x01, b, 0xEE, x] ++ post, pre.length + 2, true, false⟩ 2 =
      ([0xEE, x], ⟨pre ++ [0x01, b, 0xEE, x] ++ post, pre.length + 4, true, false⟩) :=
    IfStream.read_mid pre [0x01, b, 0xEE, x] post true 2 2 (by simp)
  generalize pre ++ [0x01, b, 0xEE, x] ++ post = d at r0 r1 r2 ⊢
  have c1 : CopyByte ⟨1, 4078, rb⟩ ⟨d, pre.length + 1, true, false⟩ buffer_outfunc [] =
      (NO_ERROR, ⟨2, 4079, rb.set 4078 b⟩, ⟨d, pre.length + 2, true, false⟩, [b]) :=
    CopyByte_buffer 1 4078 rb _ _ b [] r1 rfl
  have c2 : CopyRB ⟨2, 4079, rb.set 4078 b⟩ ⟨d, pre.length + 2, true, false⟩ buffer_outfunc [b] =
      (NO_ERROR, vars', ⟨d, pre.length + 4, true, false⟩, b :: List.replicate n b) := by
    have h := CopyRB_read buffer_outfunc ⟨2, 4079, rb.set 4078 b⟩ _ _ 0xEE x [b] r2 rfl
    have e3 : ((238 : Byte).val) = 238 := by decide
    rw [e3, hoff, hcnt] at h
    have hrun' : CopyRB_loop buffer_outfunc 4078 n 0
        { in_pos := 2 + 2, rb_pos := 4079, ring_buffer := rb.set 4078 b } [b] =
        (NO_ERROR, vars', [b] ++ List.replicate n b) := hrun
    rw [hrun'] at h
    exact h
  have hin' : vars'.in_pos = 4 := hin
  have hbits1 : extract_bits buffer_outfunc 4 1 7 1 ⟨2, 4079, rb.set 4078 b⟩
      ⟨d, pre.length + 2, true, false⟩ [b] =
      (0, vars', ⟨d, pre.length + 4, true, false⟩, b :: List.replicate n b) := by
    rw [extract_bits_succ, if_neg (by decide), c2, after_token]
    simp [NO_ERROR, hin']
  have hbits0 : extract_bits buffer_outfunc 4 1 8 0 ⟨1, 4078, rb⟩
      ⟨d, pre.length + 1, true, false⟩ [] =
      (0, vars', ⟨d, pre.length + 4, true, false⟩, b :: List.replicate n b) := by
    rw [extract_bits_succ, if_pos (by decide), c1, after_token]
    simp only [NO_ERROR, ne_eq, not_true_eq_false, if_false]
    rw [if_neg (by decide)]
    exact hbits1
  have hloop1 : extract_loop buffer_outfunc 4 3 vars' ⟨d, pre.length + 4, true, false⟩
      (b :: List.replicate n b) =
      some (NO_ERROR, vars', ⟨d, pre.length + 4, true, false⟩, b :: List.replicate n b) := by
    rw [extract_loop_succ, if_neg (by rw [hin']; decide)]
  have hloop : extract_loop buffer_outfunc 4 4 ⟨0, 4078, rb⟩ ⟨d, pre.length, true, false⟩ [] =
      some (NO_ERROR, vars', ⟨d, pre.length + 4, true, false⟩, b :: List.replicate n b) := by
    rw [extract_loop_succ, if_pos (show (0 : Int) < 4 by decide), r0]
    simp only [IfStream.fail, Bool.false_eq_true, if_false]
    have hb : extract_bits buffer_outfunc 4 (([1] : List Byte).getD 0 0) 8 0
        { in_pos := (0 : Int) + 1, rb_pos := 4078, ring_buffer := rb }
        ⟨d, pre.length + 1, true, false⟩ [] =
        (0, vars', ⟨d, pre.length + 4, true, false⟩, b :: List.replicate n b) := hbits0
    rw [hb]
    simp only [ne_eq, not_true_eq_false, if_false]
    exact hloop1
  have hnn : ¬ ((pre.length : Int) < 0) := by omega
  have h4 : Int.toNat 4 = 4 := rfl
  simp only [extract_to_buffer, extract, IfStream.open, hc, ho, IfStream.seekg, IfStream.fail,
    Bool.not_true, Bool.false_eq_true, if_false, Int.toNat_ofNat, hnn, h4, hnew, hloop]
  simp [List.replicate_succ]

theorem overlapping_backreference_witness :
    (extract_to_buffer ⟨[], [], 4, 0, 0⟩
        (IfStream.open (some ([] ++ [0x01, 65, 0xEE, toByte (0xF0 ||| (5 - 3))] ++ [])))).map
      (fun r => (r.1, r.2.2)) = some (NO_ERROR, List.replicate (5 + 1) 65) :=
  overlapping_backreference 65 5 (by decide) (by decide) [] [] ⟨[], [], 4, 0, 0⟩ rfl rfl

/-! ## The writer -/

theorem read_source_eq (fuel : Nat) :
    ∀ (rest file_buffer : List Byte), rest.length < fuel →
      read_source fuel rest file_buffer = file_buffer ++ rest := by
  induction fuel with
  | zero => intro rest fb h; omega
  | succ fuel ih =>
    intro rest fb h
    simp only [read_source, List.length_take]
    by_cases hs : min read_size rest.length < read_size
    · rw [if_pos hs]
      have : rest.length ≤ read_size := by omega
      rw [List.take_of_length_le this]
    · rw [if_neg hs]
      have hrs : read_size ≤ rest.length := by omega
      have hpos : 0 < read_size := by decide
      rw [ih _ _ (by simp only [List.length_drop]; omega), List.append_assoc,
        List.take_append_drop]

theorem convert_slashes_length (p : List Byte) : (convert_slashes p).length = p.length := by
  simp [convert_slashes]

theorem OfStream.write_atEnd (s : OfStream) (bytes : List Byte) (h : s.atEnd) :
    s.write bytes = ⟨s.data ++ bytes, s.data.length + bytes.length, false⟩ := by
  obtain ⟨hf, hp⟩ := h
  simp [OfStream.write, hf, hp]

theorem write_subfile_none (s : OfStream) (sf : Subfile) (h : sf.source = none) :
    write_subfile s sf = (FILE_OPEN, s) := by
  simp [write_subfile, h]

theorem write_subfile_unfold (s : OfStream) (sf : Subfile) (c : List Byte)
    (h : sf.source = some c) :
    write_subfile s sf =
      if (s.write (stored_subheader sf)).fail then
        (WRITE_SUBHEADER, s.write (stored_subheader sf))
      else if ((s.write (stored_subheader sf)).write (stored_path sf)).fail then
        (WRITE_SUBPATH, (s.write (stored_subheader sf)).write (stored_path sf))
      else if (((s.write (stored_subheader sf)).write (stored_path sf)).write
          (stored_payload sf)).fail then
        (WRITE_SUBFILE, ((s.write (stored_subheader sf)).write (stored_path sf)).write
          (stored_payload sf))
      else
        (NO_ERROR, ((s.write (stored_subheader sf)).write (stored_path sf)).write
          (stored_payload sf)) := by
  have hrs : read_source (c.length + 1) c [] = c := by
    rw [read_source_eq _ _ _ (Nat.lt_succ_self _)]; rfl
  simp only [write_subfile, h, hrs, stored_subheader, stored_path, stored_payload,
    Subfile.contents, Option.getD, Subfile.prepath, convert_slashes_length]

theorem write_subfile_some (s : OfStream) (sf : Subfile) (c : List Byte) (h : sf.source = some c)
    (hs : s.atEnd) :
    write_subfile s sf =
      (NO_ERROR, ⟨s.data ++ block sf, s.data.length + (block sf).length, false⟩) := by
  rw [write_subfile_unfold s sf c h, OfStream.write_atEnd s _ hs,
    OfStream.write_atEnd _ (stored_path sf) ⟨rfl, by simp⟩,
    OfStream.write_atEnd _ (stored_payload sf) ⟨rfl, by simp [Nat.add_assoc]⟩]
  simp [OfStream.fail, block, Nat.add_assoc]

theorem write_loop_none (subfiles : List Subfile) :
    ∀ (s : OfStream), (∃ sf ∈ subfiles, sf.source = none) → s.atEnd →
      (write_loop subfiles s).1 ≠ 0 := by
  induction subfiles with
  | nil => intro s h; simp at h
  | cons sf rest ih =>
    intro s h hs
    cases hsrc : sf.source with
    | none =>
      simp [write_loop, write_subfile_none s sf hsrc, FILE_OPEN]
    | some c =>
      have hrest : ∃ sf' ∈ rest, sf'.source = none := by
        obtain ⟨sf', hmem, hn⟩ := h
        rcases List.mem_cons.mp hmem with he | hm
        · subst he; rw [hsrc] at hn; cases hn
        · exact ⟨sf', hm, hn⟩
      simp only [write_loop, write_subfile_some s sf c hsrc hs, NO_ERROR, ne_eq,
        not_true_eq_false, if_false]
      exact ih _ hrest ⟨rfl, by simp⟩

theorem write_loop_some (subfiles : List Subfile) :
    ∀ (s : OfStream), (∀ sf ∈ subfiles, sf.source ≠ none) → s.atEnd →
      write_loop subfiles s =
        (NO_ERROR, ⟨s.data ++ (subfiles.map block).flatten,
          s.data.length + ((subfiles.map block).flatten).length, false⟩) := by
  induction subfiles with
  | nil =>
    intro s _ hs
    obtain ⟨hf, hp⟩ := hs
    cases s
    simp_all [write_loop]
  | cons sf rest ih =>
    intro s h hs
    cases hsrc : sf.source with
    | none => exact absurd hsrc (h sf (List.mem_cons_self _ _))
    | some c =>
      simp only [write_loop, write_subfile_some s sf c hsrc hs, NO_ERROR, ne_eq,
        not_true_eq_false, if_false]
      rw [ih _ (fun sf' hm => h sf' (List.mem_cons_of_mem _ hm)) ⟨rfl, by simp⟩]
      simp [NO_ERROR, Nat.add_assoc]

theorem Write32LE_length (v : Nat) : (Write32LE v).length = 4 := rfl

theorem write_unwritable (subfiles : List Subfile) :
    write subfiles false = (FILE_OPEN_OUTPUT, ⟨[], 0, true⟩) := by
  simp [write, OfStream.open, OfStream.fail]

theorem write_start_atEnd (subfiles : List Subfile) : (write_start subfiles).atEnd :=
  ⟨rfl, rfl⟩

theorem write_start_eq (subfiles : List Subfile) :
    (OfStream.open true).write
      ([0, 0, 0, 0] ++ [0x03, 0x0, 0xcd, 0xab] ++ Write32LE (subfiles.length % 4294967296)) =
    write_start subfiles := by
  rw [OfStream.write_atEnd _ _ ⟨rfl, rfl⟩]
  rfl

theorem write_raw (subfiles : List Subfile) :
    write subfiles true =
      if (write_loop subfiles (write_start subfiles)).1 ≠ 0 then
        write_loop subfiles (write_start subfiles)
      else if (((write_loop subfiles (write_start subfiles)).2.seekp 0).write
          (Write32LE (((write_loop subfiles (write_start subfiles)).2.tellp % 4294967296).toNat) ++
            [0x03, 0x0, 0xcd, 0xab] ++ Write32LE (subfiles.length % 4294967296))).fail then
        (WRITE_HEADER, ((write_loop subfiles (write_start subfiles)).2.seekp 0).write
          (Write32LE (((write_loop subfiles (write_start subfiles)).2.tellp % 4294967296).toNat) ++
            [0x03, 0x0, 0xcd, 0xab] ++ Write32LE (subfiles.length % 4294967296)))
      else
        (NO_ERROR, ((write_loop subfiles (write_start subfiles)).2.seekp 0).write
          (Write32LE (((write_loop subfiles (write_start subfiles)).2.tellp % 4294967296).toNat) ++
            [0x03, 0x0, 0xcd, 0xab] ++ Write32LE (subfiles.length % 4294967296))) := by
  have h1 : (OfStream.open true).fail = false := rfl
  have h2 : (write_start subfiles).fail = false := rfl
  simp only [write, h1, write_start_eq, h2, Bool.false_eq_true, if_false]
  rfl

theorem write_all_some (subfiles : List Subfile) (h : ∀ sf ∈ subfiles, sf.source ≠ none) :
    write subfiles true = (NO_ERROR, ⟨archive_bytes subfiles, 12, false⟩) := by
  have hl := write_loop_some subfiles (write_start subfiles) h (write_start_atEnd subfiles)
  have hlen : (write_start subfiles).data.length = 12 := rfl
  have hdata : (write_start subfiles).data =
      [0, 0, 0, 0] ++ [0x03, 0x0, 0xcd, 0xab] ++ Write32LE (subfiles.length % 4294967296) := rfl
  rw [hlen, hdata] at hl
  have e : ((((12 + ((subfiles.map block).flatten).length : Nat) : Int) % 4294967296).toNat)
      = (12 + ((subfiles.map block).flatten).length) % 4294967296 := by
    omega
  rw [write_raw, hl]
  simp only [NO_ERROR, ne_eq, not_true_eq_false, if_false, OfStream.tellp, OfStream.seekp,
    Bool.false_eq_true, e, OfStream.write, OfStream.fail, List.take_zero, List.nil_append,
    archive_bytes, Nat.zero_add]
  congr 2

theorem write_some_none (subfiles : List Subfile) (h : ∃ sf ∈ subfiles, sf.source = none) :
    (write subfiles true).1 ≠ 0 := by
  have hl := write_loop_none subfiles (write_start subfiles) h (write_start_atEnd subfiles)
  rw [write_raw, if_pos hl]
  exact hl

theorem write_ok_iff (subfiles : List Subfile) (writable : Bool) :
    (write subfiles writable).1 = NO_ERROR ↔
      writable = true ∧ ∀ sf ∈ subfiles, sf.source ≠ none := by
  cases writable with
  | false => simp [write_unwritable, FILE_OPEN_OUTPUT, NO_ERROR]
  | true =>
    by_cases h : ∀ sf ∈ subfiles, sf.source ≠ none
    · rw [write_all_some subfiles h]
      exact ⟨fun _ => ⟨rfl, h⟩, fun _ => rfl⟩
    · have h' : ∃ sf ∈ subfiles, sf.source = none := by
        push_neg at h; exact h
      exact ⟨fun h0 => absurd h0 (write_some_none subfiles h'), fun h0 => absurd h0.2 h⟩

theorem write_data (subfiles : List Subfile) (writable : Bool)
    (h : (write subfiles writable).1 = NO_ERROR) :
    (write subfiles writable).2.data = archive_bytes subfiles := by
  obtain ⟨hw, hs⟩ := (write_ok_iff subfiles writable).mp h
  subst hw
  rw [write_all_some subfiles hs]


/-! ## The layout of a written archive -/

theorem Write32LE_mod (v : Nat) : Write32LE (v % 4294967296) = Write32LE v := by
  have e255 : (255 : Nat) = 2 ^ 8 - 1 := by norm_num
  simp only [Write32LE, e255, Nat.and_pow_two_sub_one_eq_mod, Nat.shiftRight_eq_div_pow]
  have h0 : v % 4294967296 % 2 ^ 8 = v % 2 ^ 8 := by omega
  have h1 : v % 4294967296 / 2 ^ 8 % 2 ^ 8 = v / 2 ^ 8 % 2 ^ 8 := by omega
  have h2 : v % 4294967296 / 2 ^ 16 % 2 ^ 8 = v / 2 ^ 16 % 2 ^ 8 := by omega
  have h3 : v % 4294967296 / 2 ^ 24 % 2 ^ 8 = v / 2 ^ 24 % 2 ^ 8 := by omega
  rw [h0, h1, h2, h3]

theorem stored_path_length (sf : Subfile) :
    (stored_path sf).length = 4 * (sf.prepath.length / 4 + 1) := by
  simp only [stored_path, Subfile.prepath, List.length_append, convert_slashes_length,
    List.length_replicate]
  omega

theorem stored_payload_length (sf : Subfile) :
    (stored_payload sf).length = 4 * ((sf.contents.length + 3) / 4) := by
  simp only [stored_payload, List.length_append, List.length_replicate]
  split <;> omega

theorem stored_subheader_length (sf : Subfile) : (stored_subheader sf).length = 16 := rfl

theorem block_length (sf : Subfile) :
    (block sf).length =
      16 + 4 * (sf.prepath.length / 4 + 1) + 4 * ((sf.contents.length + 3) / 4) := by
  simp only [block, List.length_append, stored_subheader_length, stored_path_length,
    stored_payload_length]

theorem block_offset_succ (subfiles : List Subfile) (i : Nat) (hi : i < subfiles.length) :
    block_offset subfiles (i + 1) = block_offset subfiles i + (block subfiles[i]).length := by
  simp only [block_offset, List.take_succ, List.map_append, List.sum_append]
  simp [List.getElem?_eq_getElem hi, Nat.add_assoc]

theorem block_offset_mod (subfiles : List Subfile) (i : Nat) : block_offset subfiles i % 4 = 0 := by
  induction i with
  | zero => simp [block_offset]
  | succ i ih =>
    by_cases hi : i < subfiles.length
    · rw [block_offset_succ _ _ hi, block_length]; omega
    · have : block_offset subfiles (i + 1) = block_offset subfiles i := by
        simp only [block_offset]
        rw [List.take_of_length_le (by omega), List.take_of_length_le (by omega)]
      rw [this]; exact ih

theorem flatten_drop_blocks (subfiles : List Subfile) :
    ∀ i, ((subfiles.map block).flatten).drop (((subfiles.take i).map
        (fun sf => (block sf).length)).sum) = ((subfiles.drop i).map block).flatten := by
  induction subfiles with
  | nil => intro i; simp
  | cons sf rest ih =>
    intro i
    cases i with
    | zero => simp
    | succ i =>
      simp only [List.take_succ_cons, List.map_cons, List.sum_cons, List.flatten_cons,
        List.drop_succ_cons]
      rw [List.drop_append]
      exact ih i

theorem archive_bytes_length (subfiles : List Subfile) :
    (archive_bytes subfiles).length = block_offset subfiles subfiles.length := by
  simp only [archive_bytes, List.length_append, Write32LE_length, List.length_cons,
    List.length_nil, block_offset, List.take_length, List.length_flatten, List.map_map]
  rfl

theorem archive_bytes_drop (subfiles : List Subfile) (i : Nat) :
    (archive_bytes subfiles).drop (block_offset subfiles i) =
      ((subfiles.drop i).map block).flatten := by
  have h12 : (Write32LE ((12 + ((subfiles.map block).flatten).length) % 4294967296) ++
      [0x03, 0x0, 0xcd, 0xab] ++ Write32LE (subfiles.length % 4294967296)).length = 12 := rfl
  have hf := flatten_drop_blocks subfiles i
  unfold archive_bytes block_offset
  generalize ((subfiles.take i).map (fun sf => (block sf).length)).sum = s at hf ⊢
  generalize (Write32LE ((12 + ((subfiles.map block).flatten).length) % 4294967296) ++
      [0x03, 0x0, 0xcd, 0xab] ++ Write32LE (subfiles.length % 4294967296)) = H at h12
  rw [← h12, List.drop_append]
  exact hf

theorem archive_bytes_drop_block (subfiles : List Subfile) (i : Nat) (hi : i < subfiles.length) :
    (archive_bytes subfiles).drop (block_offset subfiles i) =
      block subfiles[i] ++ ((subfiles.drop (i + 1)).map block).flatten := by
  rw [archive_bytes_drop, List.drop_eq_getElem_cons hi]
  rfl

theorem Write32LE_sum (v : Nat) :
    ((Write32LE v).getD 0 0).val + 256 * ((Write32LE v).getD 1 0).val +
      65536 * ((Write32LE v).getD 2 0).val + 16777216 * ((Write32LE v).getD 3 0).val =
      v % 4294967296 := by
  have e255 : (255 : Nat) = 2 ^ 8 - 1 := by norm_num
  simp only [Write32LE, List.getD_cons_zero, List.getD_cons_succ, toByte_val, e255,
    Nat.and_pow_two_sub_one_eq_mod, Nat.shiftRight_eq_div_pow]
  omega

theorem archive_bytes_take4 (subfiles : List Subfile) :
    (archive_bytes subfiles).take 4 = Write32LE ((archive_bytes subfiles).length % 4294967296) := by
  have hl : (archive_bytes subfiles).length = 12 + ((subfiles.map block).flatten).length := by
    simp only [archive_bytes, List.length_append, Write32LE_length, List.length_cons,
      List.length_nil]
  rw [hl]
  simp only [archive_bytes, List.append_assoc]
  rw [List.take_append_of_le_length (by simp [Write32LE_length])]
  rfl

theorem archive_bytes_length_sum (subfiles : List Subfile) :
    (archive_bytes subfiles).length =
      12 + (subfiles.map (fun sf =>
        16 + 4 * (sf.prepath.length / 4 + 1) + 4 * ((sf.contents.length + 3) / 4))).sum := by
  rw [archive_bytes_length, block_offset, List.take_length]
  simp only [block_length]


/-- C7 (header patch): when write returns NO_ERROR and the produced file is
shorter than 2^32 bytes, bytes [0,4) of the file decode, little-endian, to the
byte length of the file, which is 12 plus, for every subfile, 16, the padded
path length and the payload length rounded up to a multiple of 4. -/
theorem write_total_size_field (subfiles : List Subfile) (writable : Bool)
    (hok : (write subfiles writable).1 = NO_ERROR)
    (hlt : (write subfiles writable).2.data.length < 4294967296) :
    Read32LE ((write subfiles writable).2.data.take 4) =
        (write subfiles writable).2.data.length ∧
    ((write subfiles writable).2.data.getD 0 0).val +
        256 * ((write subfiles writable).2.data.getD 1 0).val +
        65536 * ((write subfiles writable).2.data.getD 2 0).val +
        16777216 * ((write subfiles writable).2.data.getD 3 0).val =
        (write subfiles writable).2.data.length ∧
    (write subfiles writable).2.data.length =
      12 + (subfiles.map (fun sf =>
        16 + 4 * (sf.prepath.length / 4 + 1) + 4 * ((sf.contents.length + 3) / 4))).sum := by
  rw [write_data subfiles writable hok] at hlt ⊢
  have ht := archive_bytes_take4 subfiles
  rw [Nat.mod_eq_of_lt hlt] at ht
  refine ⟨?_, ?_, archive_bytes_length_sum subfiles⟩
  · rw [ht, Read32LE_Write32LE, Nat.mod_eq_of_lt hlt]
  · have hs := Write32LE_sum (archive_bytes subfiles).length
    rw [Nat.mod_eq_of_lt hlt, ← ht] at hs
    have hg : ∀ k, k < 4 → ((archive_bytes subfiles).take 4).getD k 0 =
        (archive_bytes subfiles).getD k 0 := by
      intro k hk
      simp only [List.getD_eq_getElem?_getD, List.getElem?_take, hk, if_true]
    rw [hg 0 (by omega), hg 1 (by omega), hg 2 (by omega), hg 3 (by omega)] at hs
    exact hs

set_option maxRecDepth 100000 in
theorem write_total_size_field_witness :
    Read32LE ((write example_files true).2.data.take 4) = 68 ∧
    (write example_files true).2.data.length = 68 :=
  ⟨(write_total_size_field example_files true (by decide) (by decide)).1.trans (by decide),
   by decide⟩

theorem take_drop_append_mid (pre mid post : List Byte) (n : Nat) (h : pre.length = n) :
    ((pre ++ mid ++ post).drop n).take mid.length = mid := by
  subst h
  simp

theorem source_of_ok (subfiles : List Subfile) (writable : Bool)
    (hok : (write subfiles writable).1 = NO_ERROR) (i : Nat) (hi : i < subfiles.length) :
    subfiles[i].source = some subfiles[i].contents := by
  have h := ((write_ok_iff subfiles writable).mp hok).2 subfiles[i] (List.getElem_mem _)
  cases hs : subfiles[i].source with
  | none => exact absurd hs h
  | some c => simp [Subfile.contents, hs]

/-- The bytes of the archive from the start of block `i` on. -/
theorem archive_at_block (subfiles : List Subfile) (i : Nat) (hi : i < subfiles.length) :
    ∃ rest, (archive_bytes subfiles).drop (block_offset subfiles i) =
      Write32LE (subfiles[i].contents.length % 4294967296) ++ (Write32LE 0 ++
        (Write32LE ((stored_path subfiles[i]).length % 4294967296) ++
          (Write32LE (string_crc subfiles[i].prepath) ++
            (stored_path subfiles[i] ++ (subfiles[i].contents ++ rest))))) := by
  refine ⟨List.replicate (if subfiles[i].contents.length % 4 ≠ 0
      then 4 - subfiles[i].contents.length % 4 else 0) 0 ++
      ((subfiles.drop (i + 1)).map block).flatten, ?_⟩
  rw [archive_bytes_drop_block subfiles i hi]
  simp only [block, stored_subheader, stored_payload, List.append_assoc]

theorem drop_add_of_drop {l a b : List Byte} {n : Nat} (h : l.drop n = a ++ b) :
    l.drop (n + a.length) = b := by
  rw [← List.drop_drop, h, List.drop_left]

theorem take_of_drop {l a b : List Byte} {n : Nat} (h : l.drop n = a ++ b) :
    (l.drop n).take a.length = a := by
  rw [h, List.take_left]

/-- The fields of block `i` of a written archive, at their offsets. -/
theorem archive_block_fields (subfiles : List Subfile) (i : Nat) (hi : i < subfiles.length) :
    ((archive_bytes subfiles).drop (block_offset subfiles i)).take 4 =
        Write32LE (subfiles[i].contents.length % 4294967296) ∧
    ((archive_bytes subfiles).drop (block_offset subfiles i + 4)).take 4 = Write32LE 0 ∧
    ((archive_bytes subfiles).drop (block_offset subfiles i + 8)).take 4 =
        Write32LE ((stored_path subfiles[i]).length % 4294967296) ∧
    ((archive_bytes subfiles).drop (block_offset subfiles i + 12)).take 4 =
        Write32LE (string_crc subfiles[i].prepath) ∧
    ((archive_bytes subfiles).drop (block_offset subfiles i + 16)).take
        (stored_path subfiles[i]).length = stored_path subfiles[i] ∧
    ((archive_bytes subfiles).drop (block_offset subfiles i + 16 +
        (stored_path subfiles[i]).length)).take subfiles[i].contents.length =
        subfiles[i].contents := by
  obtain ⟨rest, h0⟩ := archive_at_block subfiles i hi
  have h1 := drop_add_of_drop h0
  have h2 := drop_add_of_drop h1
  have h3 := drop_add_of_drop h2
  have h4 := drop_add_of_drop h3
  have h5 := drop_add_of_drop h4
  simp only [Write32LE_length, Nat.add_assoc, Nat.reduceAdd] at h1 h2 h3 h4 h5
  refine ⟨?_, ?_, ?_, ?_, ?_, ?_⟩
  · exact take_of_drop h0
  · exact take_of_drop h1
  · exact take_of_drop h2
  · exact take_of_drop h3
  · exact take_of_drop h4
  · rw [Nat.add_assoc]; exact take_of_drop h5

/-- C8 (padding invariant): in an archive produced by write, the block of every
subfile starts at a multiple of 4, its stored path_byte_length is a multiple of
4 (and is the number of path bytes stored), its payload starts at a multiple of
4, and the payload bytes on disk up to the next subfile header, or the end of
the file, are a multiple of 4 in number. -/
theorem write_padding_invariant (subfiles : List Subfile) (writable : Bool)
    (hok : (write subfiles writable).1 = NO_ERROR) (i : Nat) (hi : i < subfiles.length) :
    block_offset subfiles i % 4 = 0 ∧
    Read32LE (((write subfiles writable).2.data.drop (block_offset subfiles i + 8)).take 4) =
        (stored_path subfiles[i]).length % 4294967296 ∧
    Read32LE (((write subfiles writable).2.data.drop (block_offset subfiles i + 8)).take 4) % 4
        = 0 ∧
    ((write subfiles writable).2.data.drop (block_offset subfiles i + 16)).take
        (stored_path subfiles[i]).length = stored_path subfiles[i] ∧
    (stored_path subfiles[i]).length % 4 = 0 ∧
    (block_offset subfiles i + 16 + (stored_path subfiles[i]).length) % 4 = 0 ∧
    block_offset subfiles (i + 1) =
        block_offset subfiles i + 16 + (stored_path subfiles[i]).length +
          (stored_payload subfiles[i]).length ∧
    (stored_payload subfiles[i]).length % 4 = 0 ∧
    (block_offset subfiles (i + 1) -
        (block_offset subfiles i + 16 + (stored_path subfiles[i]).length)) % 4 = 0 ∧
    block_offset subfiles subfiles.length = (write subfiles writable).2.data.length := by
  rw [write_data subfiles writable hok]
  obtain ⟨_, _, hp, _, hpath, _⟩ := archive_block_fields subfiles i hi
  have hoff := block_offset_mod subfiles i
  have hpl := stored_path_length subfiles[i]
  have hdl := stored_payload_length subfiles[i]
  have hnext : block_offset subfiles (i + 1) =
      block_offset subfiles i + 16 + (stored_path subfiles[i]).length +
        (stored_payload subfiles[i]).length := by
    rw [block_offset_succ subfiles i hi]
    simp only [block, List.length_append, stored_subheader_length]
    omega
  refine ⟨hoff, ?_, ?_, hpath, by omega, by omega, hnext, by omega, by omega,
    (archive_bytes_length subfiles).symm⟩
  · rw [hp, Read32LE_Write32LE]; omega
  · rw [hp, Read32LE_Write32LE]; omega

set_option maxRecDepth 100000 in
theorem write_padding_invariant_witness :
    block_offset example_files 1 % 4 = 0 ∧
    Read32LE (((write example_files true).2.data.drop (block_offset example_files 1 + 8)).take 4)
      = 8 :=
  ⟨(write_padding_invariant example_files true (by decide) 1 (by decide)).1,
   (write_padding_invariant example_files true (by decide) 1 (by decide)).2.1.trans (by decide)⟩

/-- C10 (the writer never compresses): in an archive produced by write, bytes
[4,8) are 03 00 CD AB, bytes [8,12) are the little-endian subfile count, and in
the block of every subfile the compressed_size field is 0, the
uncompressed_size field is the little-endian length of the source payload, and
the payload is stored unchanged right after the padded path.  (The two 32-bit
fields are given as bytes, as decoded modulo 2^32, and as the count and the
length themselves when these are below 2^32.) -/
theorem write_never_compresses (subfiles : List Subfile) (writable : Bool)
    (hok : (write subfiles writable).1 = NO_ERROR) :
    ((write subfiles writable).2.data.drop 4).take 4 = [0x03, 0x00, 0xCD, 0xAB] ∧
    ((write subfiles writable).2.data.drop 8).take 4 = Write32LE subfiles.length ∧
    Read32LE (((write subfiles writable).2.data.drop 8).take 4) =
        subfiles.length % 4294967296 ∧
    (subfiles.length < 4294967296 →
      Read32LE (((write subfiles writable).2.data.drop 8).take 4) = subfiles.length) ∧
    ∀ (i : Nat) (hi : i < subfiles.length),
      subfiles[i].source = some subfiles[i].contents ∧
      ((write subfiles writable).2.data.drop (block_offset subfiles i + 4)).take 4 =
          [0, 0, 0, 0] ∧
      Read32LE_int (((write subfiles writable).2.data.drop
          (block_offset subfiles i + 4)).take 4) = 0 ∧
      ((write subfiles writable).2.data.drop (block_offset subfiles i)).take 4 =
          Write32LE subfiles[i].contents.length ∧
      Read32LE (((write subfiles writable).2.data.drop (block_offset subfiles i)).take 4) =
          subfiles[i].contents.length % 4294967296 ∧
      (subfiles[i].contents.length < 4294967296 →
        Read32LE (((write subfiles writable).2.data.drop (block_offset subfiles i)).take 4) =
          subfiles[i].contents.length) ∧
      ((write subfiles writable).2.data.drop (block_offset subfiles i + 16)).take
          (stored_path subfiles[i]).length = stored_path subfiles[i] ∧
      ((write subfiles writable).2.data.drop (block_offset subfiles i + 16 +
          (stored_path subfiles[i]).length)).take subfiles[i].contents.length =
          subfiles[i].contents := by
  have hsrc := source_of_ok subfiles writable hok
  rw [write_data subfiles writable hok]
  have h48 : ((archive_bytes subfiles).drop 4).take 4 = [0x03, 0x00, 0xCD, 0xAB] := by
    simp only [archive_bytes, List.append_assoc]
    rw [List.drop_append_of_le_length (by simp [Write32LE_length])]
    rfl
  have h812 : ((archive_bytes subfiles).drop 8).take 4 = Write32LE subfiles.length := by
    have := take_drop_append_mid
      (Write32LE ((12 + ((subfiles.map block).flatten).length) % 4294967296) ++
        [0x03, 0x0, 0xcd, 0xab]) (Write32LE (subfiles.length % 4294967296))
      ((subfiles.map block).flatten) 8 (by simp [Write32LE_length])
    rw [Write32LE_length] at this
    rw [← Write32LE_mod subfiles.length]
    exact this
  refine ⟨h48, h812, ?_, ?_, ?_⟩
  · rw [h812, Read32LE_Write32LE]
  · intro hlt
    rw [h812, Read32LE_Write32LE, Nat.mod_eq_of_lt hlt]
  · intro i hi
    obtain ⟨hsz, hcmp, _, _, hpath, hpay⟩ := archive_block_fields subfiles i hi
    refine ⟨hsrc i hi, ?_, ?_, ?_, ?_, ?_, hpath, hpay⟩
    rotate_left 4
    · intro hlt
      rw [hsz, Read32LE_Write32LE, Nat.mod_mod, Nat.mod_eq_of_lt hlt]
    · rw [hcmp]; rfl
    · rw [hcmp]
      have h0 := Read32LE_int_Write32LE 0 (by omega) []
      rw [List.append_nil] at h0
      exact h0
    · rw [hsz, Write32LE_mod]
    · rw [hsz, Read32LE_Write32LE, Nat.mod_mod]

set_option maxRecDepth 100000 in
theorem write_never_compresses_witness :
    ((write example_files true).2.data.drop 4).take 4 = [0x03, 0x00, 0xCD, 0xAB] ∧
    ((write example_files true).2.data.drop 8).take 4 = [2, 0, 0, 0] :=
  ⟨(write_never_compresses example_files true (by decide)).1,
   (write_never_compresses example_files true (by decide)).2.1⟩


/-! ## The reader on a written archive -/

theorem Reader_loop_step (n : Nat) (stream : IfStream) (m_files : List Reader.Subfile)
    (subheader path : List Byte) (s1 s2 : IfStream)
    (h1 : stream.read 16 = (subheader, s1)) (hf1 : s1.failbit = false)
    (hp : ¬ Read32LE_int (subheader.drop 8) < 0)
    (h2 : s1.read (Read32LE_int (subheader.drop 8)).toNat = (path, s2))
    (hf2 : s2.failbit = false) :
    Reader_loop (n + 1) stream m_files =
      Reader_loop n
        (s2.ignore (toInt32
          ((if (Reader.Subfile.new subheader path (toInt32 s2.tellg)).cmp_size ≠ 0
            then (Reader.Subfile.new subheader path (toInt32 s2.tellg)).cmp_size
            else (Reader.Subfile.new subheader path (toInt32 s2.tellg)).size) +
           (if Int.tmod (if (Reader.Subfile.new subheader path (toInt32 s2.tellg)).cmp_size ≠ 0
              then (Reader.Subfile.new subheader path (toInt32 s2.tellg)).cmp_size
              else (Reader.Subfile.new subheader path (toInt32 s2.tellg)).size) 4 ≠ 0
            then 4 - Int.tmod
              (if (Reader.Subfile.new subheader path (toInt32 s2.tellg)).cmp_size ≠ 0
              then (Reader.Subfile.new subheader path (toInt32 s2.tellg)).cmp_size
              else (Reader.Subfile.new subheader path (toInt32 s2.tellg)).size) 4
            else 0))))
        (m_files ++ [Reader.Subfile.new subheader path (toInt32 s2.tellg)]) := by
  simp only [Reader_loop, h1, h2, IfStream.fail, hf1, hf2, hp, Bool.false_eq_true, if_false]

theorem Reader_loop_zero (stream : IfStream) (m_files : List Reader.Subfile) :
    Reader_loop 0 stream m_files = some (stream, m_files, 0) := rfl

theorem Reader.Subfile.new_cmp_size (a b : List Byte) (o : Int) :
    (Reader.Subfile.new a b o).cmp_size = Read32LE_int (a.drop 4) := rfl

theorem Reader.Subfile.new_size (a b : List Byte) (o : Int) :
    (Reader.Subfile.new a b o).size = Read32LE_int a := rfl

theorem payload_skip (c : Nat) (h : 4 * ((c + 3) / 4) < 2147483648) :
    toInt32 ((c : Int) + (if Int.tmod (c : Int) 4 ≠ 0 then 4 - Int.tmod (c : Int) 4 else 0)) =
      ((4 * ((c + 3) / 4) : Nat) : Int) := by
  have ht : Int.tmod (c : Int) 4 = (c : Int) % 4 :=
    Int.tmod_eq_emod (Int.ofNat_nonneg _) (by decide)
  rw [ht]
  unfold toInt32
  split <;> omega

theorem stored_subheader_fields (sf : Subfile)
    (hp : (stored_path sf).length < 2147483648) (hc : sf.contents.length < 2147483648) :
    Read32LE_int (stored_subheader sf) = (sf.contents.length : Int) ∧
    Read32LE_int ((stored_subheader sf).drop 4) = 0 ∧
    Read32LE_int ((stored_subheader sf).drop 8) = ((stored_path sf).length : Int) := by
  refine ⟨?_, ?_, ?_⟩
  · have := Read32LE_int_Write32LE (sf.contents.length % 4294967296)
      (by omega) (Write32LE 0 ++ (Write32LE ((stored_path sf).length % 4294967296) ++
        Write32LE (string_crc sf.prepath)))
    simp only [stored_subheader, List.append_assoc]
    rw [this]; omega
  · have := Read32LE_int_Write32LE 0
      (by omega) (Write32LE ((stored_path sf).length % 4294967296) ++
        Write32LE (string_crc sf.prepath))
    have hd : (stored_subheader sf).drop 4 = Write32LE 0 ++
        (Write32LE ((stored_path sf).length % 4294967296) ++
          Write32LE (string_crc sf.prepath)) := rfl
    rw [hd, this]; rfl
  · have := Read32LE_int_Write32LE ((stored_path sf).length % 4294967296)
      (by omega) (Write32LE (string_crc sf.prepath))
    have hd : (stored_subheader sf).drop 8 =
        Write32LE ((stored_path sf).length % 4294967296) ++
          Write32LE (string_crc sf.prepath) := rfl
    rw [hd, this]; omega

theorem Reader_loop_blocks (sfs : List Subfile) :
    ∀ (pre : List Byte) (m_files : List Reader.Subfile),
      (∀ sf ∈ sfs, (stored_path sf).length < 2147483648 ∧
        (stored_payload sf).length < 2147483648) →
      Reader_loop sfs.length ⟨pre ++ (sfs.map block).flatten, pre.length, true, false⟩ m_files =
        some (⟨pre ++ (sfs.map block).flatten, (pre ++ (sfs.map block).flatten).length,
          true, false⟩, m_files ++ expected_records pre.length sfs, 0) := by
  induction sfs with
  | nil =>
    intro pre m_files _
    simp [Reader_loop_zero, expected_records]
  | cons sf rest ih =>
    intro pre m_files hb
    obtain ⟨hpl, hdl⟩ := hb sf (List.mem_cons_self _ _)
    have hcl : sf.contents.length < 2147483648 := by
      have := stored_payload_length sf
      omega
    obtain ⟨fsz, fcmp, fpl⟩ := stored_subheader_fields sf hpl hcl
    have hd : pre ++ ((sf :: rest).map block).flatten =
        pre ++ block sf ++ (rest.map block).flatten := by simp
    have r1 : IfStream.read ⟨pre ++ block sf ++ (rest.map block).flatten, pre.length, true, false⟩
        16 = (stored_subheader sf,
          ⟨pre ++ block sf ++ (rest.map block).flatten, pre.length + 16, true, false⟩) := by
      have := IfStream.read_mid pre (block sf) ((rest.map block).flatten) true 0 16
        (by simp only [block, List.length_append, stored_subheader_length]; omega)
      have htake : (block sf).take 16 = stored_subheader sf := by
        simp only [block, List.append_assoc]
        rw [List.take_append_of_le_length (by simp [stored_subheader_length])]
        rw [List.take_of_length_le (by simp [stored_subheader_length])]
      rw [Nat.add_zero, List.drop_zero, htake] at this
      exact this
    have r2 : IfStream.read
        ⟨pre ++ block sf ++ (rest.map block).flatten, pre.length + 16, true, false⟩
        (Read32LE_int ((stored_subheader sf).drop 8)).toNat = (stored_path sf,
          ⟨pre ++ block sf ++ (rest.map block).flatten,
            pre.length + 16 + (stored_path sf).length, true, false⟩) := by
      rw [fpl, Int.toNat_ofNat]
      have := IfStream.read_mid pre (block sf) ((rest.map block).flatten) true 16
        (stored_path sf).length
        (by simp only [block, List.length_append, stored_subheader_length]; omega)
      rw [this]
      have hdrop : (block sf).drop 16 = stored_path sf ++ stored_payload sf := by
        simp only [block, List.append_assoc]
        rw [List.drop_append_of_le_length (by simp [stored_subheader_length])]
        rw [List.drop_of_length_le (by simp [stored_subheader_length])]
        rfl
      rw [hdrop, List.take_left]
    have hstep := Reader_loop_step rest.length _ m_files _ _ _ _ r1 rfl
      (by rw [fpl]; omega) r2 rfl
    rw [List.length_cons, hd, hstep]
    have hnew : (Reader.Subfile.new (stored_subheader sf) (stored_path sf)
        (toInt32 (IfStream.tellg ⟨pre ++ block sf ++ (rest.map block).flatten,
            pre.length + 16 + (stored_path sf).length, true, false⟩))) =
        Reader.Subfile.new (stored_subheader sf) (stored_path sf)
          (toInt32 ((pre.length + 16 + (stored_path sf).length : Nat) : Int)) := rfl
    rw [hnew]
    rw [Reader.Subfile.new_cmp_size, Reader.Subfile.new_size, fcmp, fsz]
    simp only [ne_eq, not_true_eq_false, if_false]
    have hdl' : 4 * ((sf.contents.length + 3) / 4) < 2147483648 := by
      rw [← stored_payload_length]; exact hdl
    rw [payload_skip sf.contents.length hdl', ← stored_payload_length]
    have hig : IfStream.ignore
        ⟨pre ++ block sf ++ (rest.map block).flatten,
          pre.length + 16 + (stored_path sf).length, true, false⟩
        (((stored_payload sf).length : Nat) : Int) =
        ⟨pre ++ block sf ++ (rest.map block).flatten, (pre ++ block sf).length, true, false⟩ := by
      simp only [IfStream.ignore, Bool.false_eq_true, if_false, Int.toNat_ofNat,
        List.length_append, block, stored_subheader_length]
      split
      · rw [IfStream.mk.injEq]
        exact ⟨rfl, by omega, rfl, rfl⟩
      · rw [IfStream.mk.injEq]
        exact ⟨rfl, by omega, rfl, rfl⟩
    rw [hig, ih (pre ++ block sf) _ (fun sf' hm => hb sf' (List.mem_cons_of_mem _ hm))]
    simp [expected_records, List.append_assoc]

theorem expected_records_length (sfs : List Subfile) :
    ∀ base, (expected_records base sfs).length = sfs.length := by
  induction sfs with
  | nil => intro base; rfl
  | cons sf rest ih => intro base; simp [expected_records, ih]

theorem expected_records_get (sfs : List Subfile) :
    ∀ (base i : Nat) (hi : i < sfs.length),
      (expected_records base sfs)[i]? = some (Reader.Subfile.new (stored_subheader sfs[i])
        (stored_path sfs[i])
        (toInt32 ((base + ((sfs.take i).map (fun sf => (block sf).length)).sum + 16 +
          (stored_path sfs[i]).length : Nat) : Int))) := by
  induction sfs with
  | nil => intro base i hi; simp at hi
  | cons sf rest ih =>
    intro base i hi
    cases i with
    | zero => simp [expected_records]
    | succ i =>
      have hi' : i < rest.length := by simpa using hi
      simp only [expected_records, List.getElem?_cons_succ, List.getElem_cons_succ,
        List.take_succ_cons, List.map_cons, List.sum_cons]
      rw [ih (base + (block sf).length) i hi', Nat.add_assoc base]

theorem IfStream.read_ok_fst (s : IfStream) (n : Nat) (hf : s.failbit = false)
    (hn : s.pos + n ≤ s.data.length) :
    (s.read n).1 = (s.data.drop s.pos).take n ∧ (s.read n).2 = { s with pos := s.pos + n } := by
  rw [IfStream.read_ok s n hf hn]
  exact ⟨rfl, rfl⟩

theorem extract_raw_loop_zero {σ : Type} (outfunc : Outfunc σ) (bytes : Int)
    (stream : IfStream) (snk : σ) :
    extract_raw_loop outfunc 0 bytes stream snk =
      if bytes > 0 then none else some (NO_ERROR, stream, snk) := rfl

theorem extract_raw_loop_succ {σ : Type} (outfunc : Outfunc σ) (fuel : Nat) (bytes : Int)
    (stream : IfStream) (snk : σ) :
    extract_raw_loop outfunc (fuel + 1) bytes stream snk =
      if bytes > 0 then
        if bytes ≥ (NSPRE_CHUNK_SIZE : Int) then
          if (stream.read NSPRE_CHUNK_SIZE).2.fail then
            some (READ_SUBFILE, (stream.read NSPRE_CHUNK_SIZE).2, snk)
          else if (outfunc snk (stream.read NSPRE_CHUNK_SIZE).1).1 ≠ 0 then
            some ((outfunc snk (stream.read NSPRE_CHUNK_SIZE).1).1,
              (stream.read NSPRE_CHUNK_SIZE).2, (outfunc snk (stream.read NSPRE_CHUNK_SIZE).1).2)
          else extract_raw_loop outfunc fuel (bytes - NSPRE_CHUNK_SIZE)
            (stream.read NSPRE_CHUNK_SIZE).2 (outfunc snk (stream.read NSPRE_CHUNK_SIZE).1).2
        else
          if (stream.read bytes.toNat).2.fail then
            some (READ_SUBFILE, (stream.read bytes.toNat).2, snk)
          else if (outfunc snk (stream.read bytes.toNat).1).1 ≠ 0 then
            some ((outfunc snk (stream.read bytes.toNat).1).1, (stream.read bytes.toNat).2,
              (outfunc snk (stream.read bytes.toNat).1).2)
          else some (NO_ERROR, (stream.read bytes.toNat).2,
            (outfunc snk (stream.read bytes.toNat).1).2)
      else some (NO_ERROR, stream, snk) := rfl

/-- The raw loop on a stream that holds the `size` bytes it is asked for: it
hands exactly these bytes to the buffer. -/
theorem extract_raw_loop_buffer (fuel : Nat) :
    ∀ (size : Nat) (data : List Byte) (off : Nat) (o : Bool) (snk : List Byte),
      size ≤ fuel → off + size ≤ data.length →
      extract_raw_loop buffer_outfunc fuel (size : Int) ⟨data, off, o, false⟩ snk =
        some (NO_ERROR, ⟨data, off + size, o, false⟩, snk ++ (data.drop off).take size) := by
  induction fuel with
  | zero =>
    intro size data off o snk hs _
    have : size = 0 := by omega
    subst this
    simp [extract_raw_loop_zero]
  | succ fuel ih =>
    intro size data off o snk hs hlen
    rw [extract_raw_loop_succ]
    by_cases h0 : (size : Int) > 0
    · rw [if_pos h0]
      by_cases h1 : (size : Int) ≥ (NSPRE_CHUNK_SIZE : Int)
      · have h1' : 1024 ≤ size := by
          have : ((1024 : Nat) : Int) ≤ (size : Int) := h1
          omega
        obtain ⟨hr1, hr2⟩ := IfStream.read_ok_fst ⟨data, off, o, false⟩ NSPRE_CHUNK_SIZE rfl
          (by show off + 1024 ≤ data.length; omega)
        rw [if_pos h1, hr1, hr2]
        have hsub : (size : Int) - (NSPRE_CHUNK_SIZE : Int) = ((size - 1024 : Nat) : Int) := by
          show (size : Int) - ((1024 : Nat) : Int) = _
          omega
        simp only [buffer_outfunc, NO_ERROR, ne_eq, not_true_eq_false, if_false,
          Bool.false_eq_true, hsub]
        rw [ih (size - 1024) data (off + NSPRE_CHUNK_SIZE) o _ (by omega)
          (by show off + 1024 + (size - 1024) ≤ data.length; omega)]
        have hpos : off + NSPRE_CHUNK_SIZE + (size - 1024) = off + size := by
          show off + 1024 + (size - 1024) = off + size; omega
        have htk : (data.drop off).take NSPRE_CHUNK_SIZE ++
            (data.drop (off + NSPRE_CHUNK_SIZE)).take (size - 1024) =
            (data.drop off).take size := by
          show (data.drop off).take 1024 ++ (data.drop (off + 1024)).take (size - 1024) = _
          rw [← List.drop_drop, ← List.take_add, show 1024 + (size - 1024) = size by omega]
        rw [hpos, List.append_assoc, htk]
        rfl
      · have h1' : size < 1024 := by
          have : ¬ ((1024 : Nat) : Int) ≤ (size : Int) := h1
          omega
        obtain ⟨hr1, hr2⟩ := IfStream.read_ok_fst ⟨data, off, o, false⟩ size rfl hlen
        rw [if_neg h1, Int.toNat_ofNat, hr1, hr2]
        simp [buffer_outfunc, NO_ERROR]
    · have : size = 0 := by omega
      subst this
      rw [if_neg h0]
      simp [NO_ERROR]

theorem Reader_new_of_loop (data header : List Byte) (s0 s1 s2 : IfStream)
    (files : List Reader.Subfile) (e : Int)
    (hopen : IfStream.open (some data) = s0) (hf0 : s0.failbit = false)
    (h1 : s0.read 12 = (header, s1)) (hf : s1.failbit = false)
    (hloop : Reader_loop (Read32LE_int (header.drop 8)).toNat s1 [] = some (s2, files, e)) :
    Reader.new (some data) = some ⟨s2, files, header, Read32LE_int header, e⟩ := by
  unfold Reader.new
  rw [hopen]
  show (if s0.failbit = true then _ else _) = _
  rw [if_neg (by rw [hf0]; decide), h1]
  show (if s1.failbit = true then _ else _) = _
  rw [if_neg (by rw [hf]; decide)]
  show (match Reader_loop (Read32LE_int (header.drop 8)).toNat s1 [] with
    | none => none
    | some (stream, m_files, m_error) => _) = _
  rw [hloop]

theorem Reader_new_archive (subfiles : List Subfile) (hfit : fits_int subfiles) :
    Reader.new (some (archive_bytes subfiles)) =
      some ⟨⟨archive_bytes subfiles, (archive_bytes subfiles).length, true, false⟩,
        expected_records 12 subfiles, (archive_bytes subfiles).take 12,
        Read32LE_int ((archive_bytes subfiles).take 12), 0⟩ := by
  obtain ⟨hcount, hb⟩ := hfit
  generalize hH : Write32LE ((12 + ((subfiles.map block).flatten).length) % 4294967296) ++
      [0x03, 0x0, 0xcd, 0xab] = H8
  have hH8 : H8.length = 8 := by rw [← hH]; rfl
  have harch : archive_bytes subfiles =
      H8 ++ Write32LE (subfiles.length % 4294967296) ++ (subfiles.map block).flatten := by
    rw [← hH]; rfl
  have hlen12 : (H8 ++ Write32LE (subfiles.length % 4294967296)).length = 12 := by
    rw [List.length_append, hH8, Write32LE_length]
  have htake : (archive_bytes subfiles).take 12 =
      H8 ++ Write32LE (subfiles.length % 4294967296) := by
    rw [harch, ← hlen12, List.take_left]
  have h1 : IfStream.read ⟨archive_bytes subfiles, 0, true, false⟩ 12 =
      ((archive_bytes subfiles).take 12, ⟨archive_bytes subfiles, 12, true, false⟩) := by
    rw [IfStream.read_ok _ _ rfl (by
      show 0 + 12 ≤ (archive_bytes subfiles).length
      rw [harch, List.length_append, hlen12]; omega)]
    simp
  have hcnt : Read32LE_int (((archive_bytes subfiles).take 12).drop 8) =
      (subfiles.length : Int) := by
    rw [htake, ← hH8, List.drop_left]
    have := Read32LE_int_Write32LE (subfiles.length % 4294967296) (by omega) []
    rw [List.append_nil] at this
    rw [this]; omega
  have hloop := Reader_loop_blocks subfiles (H8 ++ Write32LE (subfiles.length % 4294967296))
    [] hb
  rw [hlen12, ← harch, List.nil_append] at hloop
  exact Reader_new_of_loop _ _ _ _ _ _ _ rfl rfl h1 rfl (by rw [hcnt, Int.toNat_ofNat]; exact hloop)

theorem extract_raw_record (f : Reader.Subfile) (st : IfStream) (off size : Nat)
    (hc : f.m_cmp_size = 0) (hs : f.m_size = (size : Int)) (ho : f.m_offset = (off : Int))
    (hopen : st.is_open = true) (hfail : st.failbit = false)
    (hlen : off + size ≤ st.data.length) :
    extract_to_buffer f st =
      some (NO_ERROR, ⟨st.data, off + size, true, false⟩, (st.data.drop off).take size) := by
  obtain ⟨data, pos, is_open, failbit⟩ := st
  simp only at hopen hfail hlen
  subst hopen hfail
  have hseek : IfStream.seekg ⟨data, pos, true, false⟩ (off : Int) = ⟨data, off, true, false⟩ := by
    simp [IfStream.seekg]
  have hraw := extract_raw_loop_buffer size size data off true [] (Nat.le_refl _) hlen
  unfold extract_to_buffer extract
  rw [ho, hseek, hc, hs]
  show (if (!true) = true then _ else (if false = true then _ else
    if (0 : Int) = 0 then
      extract_raw_loop buffer_outfunc (Int.toNat (size : Int)) (size : Int)
        ⟨data, off, true, false⟩ []
    else _)) = _
  rw [if_neg (by decide), if_neg (by decide), if_pos rfl, Int.toNat_ofNat, hraw, List.nil_append]

theorem extract_negative_offset (f : Reader.Subfile) (st : IfStream)
    (ho : f.m_offset < 0) (hopen : st.is_open = true) (hfail : st.failbit = false) :
    extract_to_buffer f st = some (READ_SUBFILE, { st with failbit := true }, []) := by
  obtain ⟨data, pos, is_open, failbit⟩ := st
  simp only at hopen hfail
  subst hopen hfail
  have hseek : IfStream.seekg ⟨data, pos, true, false⟩ f.m_offset = ⟨data, pos, true, true⟩ := by
    simp [IfStream.seekg, ho]
  unfold extract_to_buffer extract
  rw [hseek]
  show (if (!true) = true then _ else (if true = true then _ else _)) = _
  rw [if_neg (by decide), if_pos rfl]

theorem block_le_flatten (subfiles : List Subfile) (sf : Subfile) (h : sf ∈ subfiles) :
    (block sf).length ≤ ((subfiles.map block).flatten).length := by
  induction subfiles with
  | nil => simp at h
  | cons a rest ih =>
    simp only [List.map_cons, List.flatten_cons, List.length_append]
    rcases List.mem_cons.mp h with he | hm
    · subst he; omega
    · have := ih hm; omega

theorem count_le_flatten (subfiles : List Subfile) :
    subfiles.length ≤ ((subfiles.map block).flatten).length := by
  induction subfiles with
  | nil => simp
  | cons a rest ih =>
    simp only [List.map_cons, List.flatten_cons, List.length_append, List.length_cons]
    have := block_length a
    omega

theorem archive_bytes_length' (subfiles : List Subfile) :
    (archive_bytes subfiles).length = 12 + ((subfiles.map block).flatten).length := by
  simp only [archive_bytes, List.length_append, Write32LE_length, List.length_cons,
    List.length_nil]

theorem fits_int_of_length (subfiles : List Subfile)
    (h : (archive_bytes subfiles).length < 2147483648) : fits_int subfiles := by
  rw [archive_bytes_length'] at h
  refine ⟨by have := count_le_flatten subfiles; omega, ?_⟩
  intro sf hm
  have h1 := block_le_flatten subfiles sf hm
  have h2 : (block sf).length =
      16 + (stored_path sf).length + (stored_payload sf).length := by
    simp only [block, List.length_append, stored_subheader_length]
  omega

theorem payload_in_range (subfiles : List Subfile) (i : Nat) (hi : i < subfiles.length) :
    block_offset subfiles i + 16 + (stored_path subfiles[i]).length +
      subfiles[i].contents.length ≤ (archive_bytes subfiles).length := by
  obtain ⟨rest, h⟩ := archive_at_block subfiles i hi
  have hl := congrArg List.length h
  simp only [List.length_drop, List.length_append, Write32LE_length] at hl
  omega


/-! ## The raw round trip -/

/-- The record `Reader` holds for subfile `i` of a written archive. -/
theorem archive_record (subfiles : List Subfile) (i : Nat) (hi : i < subfiles.length) :
    (expected_records 12 subfiles)[i]? = some (Reader.Subfile.new (stored_subheader subfiles[i])
      (stored_path subfiles[i])
      (toInt32 ((block_offset subfiles i + 16 + (stored_path subfiles[i]).length : Nat) : Int))) :=
  expected_records_get subfiles 12 i hi

theorem big_payload_length : big_payload.length = 2147483644 :=
  List.length_replicate _ _

theorem contents_mk (c p : List Byte) : Subfile.contents ⟨some c, p⟩ = c := rfl

theorem prepath_mk (c : Option (List Byte)) (p : List Byte) :
    Subfile.prepath ⟨c, p⟩ = p := rfl

theorem big_files_contents :
    ∀ sf ∈ big_files, sf.contents.length < 2147483648 := by
  intro sf hm
  simp only [big_files, List.mem_cons, List.mem_singleton, List.not_mem_nil, or_false] at hm
  rcases hm with h | h <;> subst h
  · rw [contents_mk, big_payload_length]; decide
  · decide

theorem big_files_fit : fits_int big_files := by
  refine ⟨by decide, ?_⟩
  intro sf hm
  simp only [big_files, List.mem_cons, List.mem_singleton, List.not_mem_nil, or_false] at hm
  rw [stored_path_length, stored_payload_length]
  rcases hm with h | h <;> subst h
  · rw [contents_mk, prepath_mk, big_payload_length]
    exact ⟨by decide, by decide⟩
  · exact ⟨by decide, by decide⟩

theorem block_offset_one (a b : Subfile) :
    block_offset [a, b] 1 = 12 + (block a).length := by
  simp [block_offset]

theorem big_files_offset :
    block_offset big_files 1 + 16 + (stored_path big_files[1]).length = 2147483696 := by
  have e1 : big_files[1] = ⟨some [7], []⟩ := rfl
  have h0 : (block ⟨some big_payload, []⟩).length = 2147483664 := by
    rw [block_length, contents_mk, prepath_mk, big_payload_length]
    rfl
  have h1 : block_offset big_files 1 = 12 + (block ⟨some big_payload, []⟩).length :=
    block_offset_one _ _
  rw [h1, h0, e1, stored_path_length, prepath_mk]
  rfl

/-- C1, as stated, fails: two payloads of 2^31 - 4 bytes and of 1 byte are
both shorter than 2^31 bytes and write stores them, but the second payload
then lies beyond offset 2^31, the record Reader builds for it has a negative
offset, and extracting it returns READ_SUBFILE and emits nothing. -/
theorem raw_round_trip_large_archive :
    (∀ sf ∈ big_files, sf.contents.length < 2147483648) ∧
    (write big_files true).1 = NO_ERROR ∧
    ∃ (r : Reader) (f : Reader.Subfile),
      Reader.new (some (write big_files true).2.data) = some r ∧ r.error = 0 ∧
      r.files[1]? = some f ∧ big_files[1]?.map Subfile.contents = some [7] ∧
      f.offset = -2147483600 ∧
      (extract_to_buffer f r.stream).map (fun x => (x.1, x.2.2)) = some (READ_SUBFILE, []) := by
  have hok : (write big_files true).1 = NO_ERROR :=
    (write_ok_iff big_files true).mpr ⟨rfl, by
      intro sf hm
      simp only [big_files, List.mem_cons, List.mem_singleton, List.not_mem_nil, or_false] at hm
      rcases hm with h | h <;> subst h <;> simp⟩
  refine ⟨big_files_contents, hok, ?_⟩
  rw [write_data big_files true hok]
  have hrec := archive_record big_files 1 (by decide)
  rw [big_files_offset] at hrec
  have hoff : toInt32 ((2147483696 : Nat) : Int) = -2147483600 := by
    unfold toInt32; decide
  rw [hoff] at hrec
  refine ⟨_, _, Reader_new_archive big_files big_files_fit, rfl, hrec, rfl, rfl, ?_⟩
  rw [extract_negative_offset _ _ (by show (-2147483600 : Int) < 0; decide) rfl rfl]
  rfl


/-! ## The checksum, the filename and the path checksum -/

theorem after_last_backslash_append (q : List Byte) (c : Byte) :
    after_last_backslash (q ++ [c]) =
      if c = backslash then [] else after_last_backslash q ++ [c] := by
  unfold after_last_backslash
  rw [List.reverse_append]
  by_cases h : c = backslash
  · simp [h, List.takeWhile]
  · simp [h, List.takeWhile]

theorem filename_loop_le (p : List Byte) : ∀ k, filename_loop p k k ≤ k := by
  intro k
  induction k with
  | zero => simp [filename_loop]
  | succ k ih =>
    simp only [filename_loop]
    split
    · exact Nat.le_refl _
    · omega

/-- The loop of `filename`, started at index `k` with `start = k`, finds the
part of the first `k` characters after their last backslash. -/
theorem filename_loop_spec (p : List Byte) :
    ∀ k, k ≤ p.length →
      (p.take k).drop (filename_loop p k k) = after_last_backslash (p.take k) := by
  intro k
  induction k with
  | zero => intro _; simp [filename_loop, after_last_backslash]
  | succ k ih =>
    intro hk
    have hk' : k < p.length := hk
    have htake : p.take (k + 1) = p.take k ++ [p[k]] := by
      rw [List.take_succ, List.getElem?_eq_getElem hk']; rfl
    have hget : p.getD k 0 = p[k] := by
      simp [List.getD_eq_getElem?_getD, List.getElem?_eq_getElem hk']
    rw [htake, after_last_backslash_append]
    simp only [filename_loop, hget]
    by_cases hc : p[k] = backslash
    · rw [if_pos hc, if_pos hc]
      apply List.drop_of_length_le
      simp [List.length_take]
    · rw [if_neg hc, if_neg hc, ← ih (by omega)]
      rw [List.drop_append_of_le_length]
      rw [List.length_take]
      have := filename_loop_le p k
      omega

/-- On a prepath that does not end with a backslash, `filename` returns the
part after the last backslash (the whole prepath when there is none, the empty
string for the empty prepath); the result holds no backslash. -/
theorem filename_eq_after_last_backslash (p : List Byte)
    (h : p.getLast? ≠ some backslash) :
    filename p = after_last_backslash p ∧ backslash ∉ filename p := by
  have hno : ∀ l : List Byte, backslash ∉ after_last_backslash l := by
    intro l
    unfold after_last_backslash
    intro hm
    rw [List.mem_reverse] at hm
    have := List.mem_takeWhile_imp hm
    simp at this
  suffices hf : filename p = after_last_backslash p by
    rw [hf]; exact ⟨rfl, hno p⟩
  rcases List.eq_nil_or_concat p with rfl | ⟨q, c, rfl⟩
  · rfl
  · rw [List.concat_eq_append] at h ⊢
    have hc : c ≠ backslash := by
      intro hc; apply h; simp [hc]
    have hlen : (q ++ [c]).length = q.length + 1 := by simp
    have hget : (q ++ [c]).getD q.length 0 = c := by
      simp [List.getD_eq_getElem?_getD]
    have hspec := filename_loop_spec (q ++ [c]) q.length (by simp)
    have htq : (q ++ [c]).take q.length = q := by simp
    rw [htq] at hspec
    have hle := filename_loop_le (q ++ [c]) q.length
    unfold filename
    rw [if_neg (by rw [hlen]; omega)]
    simp only [hlen, filename_loop, hget, if_neg hc, Nat.add_sub_cancel]
    rw [after_last_backslash_append, if_neg hc, ← hspec,
      List.drop_append_of_le_length hle]

/-- On a prepath that ends with a backslash, `filename` returns that
backslash. -/
theorem filename_of_trailing_backslash (q : List Byte) :
    filename (q ++ [backslash]) = [backslash] := by
  have hlen : (q ++ [backslash]).length = q.length + 1 := by simp
  have hget : (q ++ [backslash]).getD q.length 0 = backslash := by
    simp [List.getD_eq_getElem?_getD]
  unfold filename
  rw [if_neg (by rw [hlen]; omega)]
  simp only [hlen, filename_loop, hget, if_true, Nat.add_sub_cancel]
  simp

theorem convert_slashes_of_no_slash (p : List Byte) (h : slash ∉ p) :
    convert_slashes p = p := by
  unfold convert_slashes
  induction p with
  | nil => rfl
  | cons c rest ih =>
    have hc : c ≠ slash := fun e => h (by rw [e]; exact List.mem_cons_self _ _)
    have hr : slash ∉ rest := fun m => h (List.mem_cons_of_mem _ m)
    rw [List.map_cons, if_neg hc, ih hr]

/-- The path_checksum field of every subfile of a written archive holds the
checksum of the internal path as it was given; for a path without a forward
slash this is the checksum of the path as stored, without its padding. -/
theorem write_path_checksum_field (subfiles : List Subfile) (writable : Bool)
    (hok : (write subfiles writable).1 = NO_ERROR) (i : Nat) (hi : i < subfiles.length) :
    ((write subfiles writable).2.data.drop (block_offset subfiles i + 12)).take 4 =
        Write32LE (string_crc subfiles[i].prepath) ∧
    (slash ∉ subfiles[i].prepath →
      stored_path subfiles[i] =
        subfiles[i].prepath ++ List.replicate (4 - subfiles[i].prepath.length % 4) 0) := by
  rw [write_data subfiles writable hok]
  refine ⟨(archive_block_fields subfiles i hi).2.2.2.1, ?_⟩
  intro h
  rw [stored_path, convert_slashes_of_no_slash _ h]

set_option maxRecDepth 100000 in
/-- C3, as stated, fails: for the reference string "123456789" the standard
CRC-32 is 0xCBF43926, and string_crc returns 0x340BC6D9. -/
theorem string_crc_not_standard :
    crc32_standard (bytesOf "123456789") = 0xCBF43926 ∧
    string_crc (bytesOf "123456789") = 0x340BC6D9 ∧
    string_crc (bytesOf "123456789") ≠ crc32_standard (bytesOf "123456789") := by
  decide

set_option maxRecDepth 100000 in
/-- C3, as amended: for every byte string s, string_crc(s) is the standard
CRC-32 of s (reflected polynomial 0xEDB88320, initial value 0xFFFFFFFF) without
the final XOR, that is the standard CRC-32 XORed with 0xFFFFFFFF; for the
reference string "123456789" it is 0x340BC6D9, the complement of the published
check value 0xCBF43926. -/
theorem string_crc_eq_standard_xor (s : List Byte) :
    string_crc s = crc32_standard s ^^^ 0xFFFFFFFF ∧
    string_crc s = crc32_register s ∧
    string_crc (bytesOf "123456789") = 0x340BC6D9 ∧
    (0x340BC6D9 : Nat) = 0xCBF43926 ^^^ 0xFFFFFFFF := by
  refine ⟨?_, string_crc_eq_register s, by decide, by decide⟩
  rw [crc32_standard, Nat.xor_assoc, Nat.xor_self, Nat.xor_zero]
  exact string_crc_eq_register s

/-- C4, as stated, fails: the checksum of the empty string is not 0, for
string_crc and for buffer_crc with size 0. -/
theorem string_crc_empty_ne_zero :
    string_crc [] ≠ 0 ∧ buffer_crc [] 0 ≠ 0 := by
  decide

/-- C4, as amended: the checksum of the empty string is 0xFFFFFFFF, the start
value: string_crc("") = 0xFFFFFFFF, and buffer_crc with size 0 returns
0xFFFFFFFF for every buffer. -/
theorem string_crc_empty :
    string_crc [] = 0xFFFFFFFF ∧ ∀ buffer : List Byte, buffer_crc buffer 0 = 0xFFFFFFFF :=
  ⟨rfl, fun _ => rfl⟩

/-- C5, the failing input: for the prepath a\ (its last character is a
backslash) filename() returns the one-character string \ where the substring
after the last backslash is empty. -/
theorem filename_trailing_backslash :
    filename (bytesOf "a\\") = bytesOf "\\" ∧
    backslash ∈ filename (bytesOf "a\\") ∧
    filename (bytesOf "a\\") ≠ [] := by
  decide

/-- C6 (filename examples): filename() of a\b\c.txt is c.txt, of x.txt is
x.txt, and of the empty prepath is empty. -/
theorem filename_examples :
    filename (bytesOf "a\\b\\c.txt") = bytesOf "c.txt" ∧
    filename (bytesOf "x.txt") = bytesOf "x.txt" ∧
    filename (bytesOf "") = bytesOf "" := by
  decide

set_option maxRecDepth 100000 in
/-- C9, the failing input: for one subfile with the internal path a/b, write
stores the path a\b (and one zero byte), and the path_checksum field, bytes
[24,28) of the archive, is the checksum of a/b, which differs from the
checksum of the stored path a\b. -/
theorem write_checksum_of_unconverted_path :
    (write [⟨some [], bytesOf "a/b"⟩] true).1 = NO_ERROR ∧
    ((write [⟨some [], bytesOf "a/b"⟩] true).2.data.drop 28).take 4 = bytesOf "a\\b" ++ [0] ∧
    ((write [⟨some [], bytesOf "a/b"⟩] true).2.data.drop 24).take 4 =
      Write32LE (string_crc (bytesOf "a/b")) ∧
    ((write [⟨some [], bytesOf "a/b"⟩] true).2.data.drop 24).take 4 ≠
      Write32LE (string_crc (bytesOf "a\\b")) ∧
    Read32LE (((write [⟨some [], bytesOf "a/b"⟩] true).2.data.drop 24).take 4) = 0xF80BBFE3 ∧
    string_crc (bytesOf "a\\b") = 0xFC1995D6 := by
  decide


theorem Read32LE_sum (b0 b1 b2 b3 : Byte) (rest : List Byte) :
    Read32LE (b0 :: b1 :: b2 :: b3 :: rest) =
      b0.val + 256 * b1.val + 65536 * b2.val + 16777216 * b3.val := by
  have h0 : b0.val < 2 ^ 8 := b0.isLt
  have h1 : b1.val < 2 ^ 8 := b1.isLt
  have h2 : b2.val < 2 ^ 8 := b2.isLt
  have e1 : b0.val ||| (b1.val <<< 8) = 2 ^ 8 * b1.val + b0.val := by
    rw [Nat.or_comm, Nat.shiftLeft_eq, Nat.mul_comm]; exact (Nat.mul_add_lt_is_or h0 _).symm
  have e2 : (2 ^ 8 * b1.val + b0.val) ||| (b2.val <<< 16) =
      2 ^ 16 * b2.val + (2 ^ 8 * b1.val + b0.val) := by
    rw [Nat.or_comm, Nat.shiftLeft_eq, Nat.mul_comm]
    exact (Nat.mul_add_lt_is_or (by omega) _).symm
  have e3 : (2 ^ 16 * b2.val + (2 ^ 8 * b1.val + b0.val)) ||| (b3.val <<< 24) =
      2 ^ 24 * b3.val + (2 ^ 16 * b2.val + (2 ^ 8 * b1.val + b0.val)) := by
    rw [Nat.or_comm, Nat.shiftLeft_eq, Nat.mul_comm]
    exact (Nat.mul_add_lt_is_or (by omega) _).symm
  rw [Read32LE_cons, e1, e2, e3]
  omega

theorem Write32LE_bytes (v : Nat) :
    Write32LE v = [toByte (v % 256), toByte (v / 256 % 256), toByte (v / 65536 % 256),
      toByte (v / 16777216 % 256)] := by
  have e255 : (255 : Nat) = 2 ^ 8 - 1 := by norm_num
  simp only [Write32LE, e255, Nat.and_pow_two_sub_one_eq_mod, Nat.shiftRight_eq_div_pow]

theorem toByte_of_val (b : Byte) (n : Nat) (h : n = b.val) : toByte n = b := by
  apply Fin.ext
  rw [toByte_val, h]
  exact Nat.mod_eq_of_lt b.isLt

theorem Write32LE_Read32LE (b0 b1 b2 b3 : Byte) :
    Write32LE (Read32LE [b0, b1, b2, b3]) = [b0, b1, b2, b3] := by
  have h0 : b0.val < 256 := b0.isLt
  have h1 : b1.val < 256 := b1.isLt
  have h2 : b2.val < 256 := b2.isLt
  have h3 : b3.val < 256 := b3.isLt
  rw [Read32LE_sum, Write32LE_bytes]
  rw [toByte_of_val b0 _ (by omega), toByte_of_val b1 _ (by omega),
    toByte_of_val b2 _ (by omega), toByte_of_val b3 _ (by omega)]

theorem toInt32_mod (n : Int) : toInt32 n % 4294967296 = n % 4294967296 := by
  unfold toInt32; omega

theorem toInt32_of_range (v : Int) (h1 : -2147483648 ≤ v) (h2 : v < 2147483648) :
    toInt32 v = v := by
  unfold toInt32; omega

/-- C11 (32-bit little-endian codec): Write32LE stores the four bytes
(v >> 8i) & 0xFF at positions i = 0..3; Read32LE of four bytes b0..b3 is
b0 + 2^8 b1 + 2^16 b2 + 2^24 b3, below 2^32 as an unsigned value and congruent
to it modulo 2^32 as an int; Read32LE(Write32LE(v)) = v for every 32-bit value
v, unsigned or int; and Write32LE(Read32LE(b)) = b for every 4-byte buffer. -/
theorem codec32_le (v : Nat) (hv : v < 4294967296) (w : Int) (hw1 : -2147483648 ≤ w)
    (hw2 : w < 2147483648) (b0 b1 b2 b3 : Byte) :
    (Write32LE v).length = 4 ∧
    (∀ i, i < 4 → ((Write32LE v).getD i 0).val = (v >>> (8 * i)) &&& 0xFF) ∧
    Read32LE [b0, b1, b2, b3] = b0.val + 2 ^ 8 * b1.val + 2 ^ 16 * b2.val + 2 ^ 24 * b3.val ∧
    Read32LE [b0, b1, b2, b3] < 4294967296 ∧
    Read32LE_int [b0, b1, b2, b3] % 4294967296 =
      ((b0.val + 2 ^ 8 * b1.val + 2 ^ 16 * b2.val + 2 ^ 24 * b3.val : Nat) : Int) ∧
    Read32LE (Write32LE v) = v ∧
    Read32LE_int (Write32LE (w % 4294967296).toNat) = w ∧
    Write32LE (Read32LE [b0, b1, b2, b3]) = [b0, b1, b2, b3] ∧
    Write32LE (Read32LE_int [b0, b1, b2, b3] % 4294967296).toNat = [b0, b1, b2, b3] := by
  have h0 : b0.val < 256 := b0.isLt
  have h1 : b1.val < 256 := b1.isLt
  have h2 : b2.val < 256 := b2.isLt
  have h3 : b3.val < 256 := b3.isLt
  have hsum := Read32LE_sum b0 b1 b2 b3 []
  have hlt : Read32LE [b0, b1, b2, b3] < 4294967296 := by rw [hsum]; omega
  have hint : Read32LE_int [b0, b1, b2, b3] % 4294967296 =
      ((Read32LE [b0, b1, b2, b3] : Nat) : Int) := by
    rw [Read32LE_int, toInt32_mod]; omega
  refine ⟨rfl, ?_, ?_, hlt, ?_, ?_, ?_, Write32LE_Read32LE b0 b1 b2 b3, ?_⟩
  · intro i hi
    have e255 : (255 : Nat) = 2 ^ 8 - 1 := by norm_num
    have hm : ∀ x : Nat, (x &&& 255) % 256 = x &&& 255 := by
      intro x
      rw [e255, Nat.and_pow_two_sub_one_eq_mod]
      exact Nat.mod_eq_of_lt (Nat.mod_lt _ (by norm_num))
    interval_cases i <;> simp [Write32LE, toByte_val, hm]
  · rw [hsum]; norm_num
  · rw [hint, hsum]; norm_num
  · rw [Read32LE_Write32LE, Nat.mod_eq_of_lt hv]
  · have hnn : 0 ≤ w % 4294967296 := Int.emod_nonneg _ (by norm_num)
    have hlt' : w % 4294967296 < 4294967296 := Int.emod_lt_of_pos _ (by norm_num)
    rw [Read32LE_int, Read32LE_Write32LE, Nat.mod_eq_of_lt (by omega), Int.toNat_of_nonneg hnn]
    have := toInt32_mod w
    have h5 := toInt32_of_range w hw1 hw2
    unfold toInt32 at *
    omega
  · rw [hint, Int.toNat_ofNat]
    exact Write32LE_Read32LE b0 b1 b2 b3

theorem codec32_le_witness :
    Read32LE (Write32LE 0x12345678) = 0x12345678 ∧
    Write32LE (Read32LE [0x78, 0x56, 0x34, 0x12]) = [0x78, 0x56, 0x34, 0x12] :=
  ⟨(codec32_le 0x12345678 (by decide) (-2) (by decide) (by decide) 0x78 0x56 0x34 0x12).2.2.2.2.2.1,
   (codec32_le 0x12345678 (by decide) (-2) (by decide) (by decide) 0x78 0x56 0x34 0x12).2.2.2.2.2.2.2.1⟩


theorem Read32LE_lt (buffer : List Byte) : Read32LE buffer < 4294967296 := by
  have h0 : (buffer.getD 0 0).val < 256 := (buffer.getD 0 0).isLt
  have h1 : (buffer.getD 1 0).val < 256 := (buffer.getD 1 0).isLt
  have h2 : (buffer.getD 2 0).val < 256 := (buffer.getD 2 0).isLt
  have h3 : (buffer.getD 3 0).val < 256 := (buffer.getD 3 0).isLt
  have e : Read32LE buffer =
      Read32LE [buffer.getD 0 0, buffer.getD 1 0, buffer.getD 2 0, buffer.getD 3 0] := rfl
  rw [e, Read32LE_sum]
  omega


theorem Reader_loop_length (n : Nat) : ∀ (stream : IfStream) (m_files : List Reader.Subfile)
    (s : IfStream) (files : List Reader.Subfile) (e : Int),
    Reader_loop n stream m_files = some (s, files, e) → e = 0 →
    files.length = m_files.length + n := by
  induction n with
  | zero =>
    intro stream m_files s files e h _
    rw [Reader_loop_zero] at h
    simp only [Option.some.injEq, Prod.mk.injEq] at h
    rw [← h.2.1]; rfl
  | succ n ih =>
    intro stream m_files s files e h he
    rcases hr1 : stream.read 16 with ⟨subheader, s1⟩
    by_cases hf1 : s1.failbit = true
    · simp only [Reader_loop, hr1, IfStream.fail, hf1, if_true, Option.some.injEq,
        Prod.mk.injEq] at h
      rw [← h.2.2] at he
      exact absurd he (by decide)
    · have hf1' : s1.failbit = false := by simpa using hf1
      by_cases hp : Read32LE_int (subheader.drop 8) < 0
      · simp only [Reader_loop, hr1, IfStream.fail, hf1', hp, if_true, Bool.false_eq_true,
          if_false] at h
        exact absurd h (by simp)
      · rcases hr2 : s1.read (Read32LE_int (subheader.drop 8)).toNat with ⟨path, s2⟩
        by_cases hf2 : s2.failbit = true
        · simp only [Reader_loop, hr1, hr2, IfStream.fail, hf1', hf2, hp, if_true,
            Bool.false_eq_true, if_false, Option.some.injEq, Prod.mk.injEq] at h
          rw [← h.2.2] at he
          exact absurd he (by decide)
        · have hf2' : s2.failbit = false := by simpa using hf2
          rw [Reader_loop_step n stream m_files subheader path s1 s2 hr1 hf1' hp hr2 hf2'] at h
          have := ih _ _ _ _ _ h he
          rw [this, List.length_append, List.length_singleton]
          omega

theorem Reader_new_short (data : List Byte) (h : data.length < 12) :
    Reader.new (some data) =
      some ⟨⟨data, data.length, true, true⟩, [], data, 0, READ_HEADER⟩ := by
  have h1 : IfStream.read ⟨data, 0, true, false⟩ 12 = (data, ⟨data, data.length, true, true⟩) := by
    unfold IfStream.read
    rw [if_neg Bool.false_ne_true, if_neg (by simp only [Nat.zero_add]; omega)]
    simp
  unfold Reader.new
  rw [show IfStream.open (some data) = ⟨data, 0, true, false⟩ from rfl]
  show (if (IfStream.mk data 0 true false).failbit = true then _ else _) = _
  rw [if_neg Bool.false_ne_true, h1]
  rfl

theorem Reader_new_cases (data : List Byte) (r : Reader) (h : Reader.new (some data) = some r)
    (he : r.m_error = 0) :
    ∃ s, Reader_loop (Read32LE_int ((data.take 12).drop 8)).toNat ⟨data, 12, true, false⟩ [] =
      some (s, r.m_files, 0) := by
  by_cases hlen : data.length < 12
  · rw [Reader_new_short data hlen] at h
    simp only [Option.some.injEq] at h
    rw [← h] at he
    exact absurd he (show (2 : Int) ≠ 0 by decide)
  · have h1 : IfStream.read ⟨data, 0, true, false⟩ 12 =
        (data.take 12, ⟨data, 12, true, false⟩) := by
      rw [IfStream.read_ok _ _ rfl (by show 0 + 12 ≤ data.length; omega)]
      simp
    rcases hl : Reader_loop (Read32LE_int ((data.take 12).drop 8)).toNat
      ⟨data, 12, true, false⟩ [] with _ | ⟨s2, files, e⟩
    · exfalso
      unfold Reader.new at h
      rw [show IfStream.open (some data) = ⟨data, 0, true, false⟩ from rfl] at h
      change (if (IfStream.mk data 0 true false).failbit = true then _ else _) = _ at h
      rw [if_neg Bool.false_ne_true, h1] at h
      change (if (IfStream.mk data 12 true false).failbit = true then _ else _) = _ at h
      rw [if_neg Bool.false_ne_true] at h
      change (match Reader_loop (Read32LE_int ((data.take 12).drop 8)).toNat
        ⟨data, 12, true, false⟩ [] with
        | none => none
        | some (stream, m_files, m_error) => _) = _ at h
      rw [hl] at h
      exact absurd h (by simp)
    · have := Reader_new_of_loop data (data.take 12) ⟨data, 0, true, false⟩
        ⟨data, 12, true, false⟩ s2 files e rfl rfl h1 rfl hl
      rw [this] at h
      simp only [Option.some.injEq] at h
      rw [← h] at he
      rw [← h]
      exact ⟨s2, by rw [show e = 0 from he]⟩

theorem Reader_new_empty (data : List Byte) (hlen : 12 ≤ data.length)
    (hc : (Read32LE_int ((data.take 12).drop 8)).toNat = 0) :
    Reader.new (some data) =
      some ⟨⟨data, 12, true, false⟩, [], data.take 12, Read32LE_int (data.take 12), 0⟩ := by
  have h1 : IfStream.read ⟨data, 0, true, false⟩ 12 =
      (data.take 12, ⟨data, 12, true, false⟩) := by
    rw [IfStream.read_ok _ _ rfl (by show 0 + 12 ≤ data.length; omega)]
    simp
  refine Reader_new_of_loop data (data.take 12) ⟨data, 0, true, false⟩
    ⟨data, 12, true, false⟩ _ _ _ rfl rfl h1 rfl ?_
  rw [hc]
  rfl

/-- C14 (short header): a readable file of fewer than 12 bytes, the empty file
included, leaves the Reader with error() == READ_HEADER (2) and no record. -/
theorem short_file_read_header (data : List Byte) (h : data.length < 12) :
    ∃ r, Reader.new (some data) = some r ∧ r.error = READ_HEADER ∧ READ_HEADER = 2 ∧
      r.files = [] :=
  ⟨_, Reader_new_short data h, rfl, rfl, rfl⟩

theorem short_file_read_header_witness :
    ∃ r, Reader.new (some []) = some r ∧ r.error = READ_HEADER ∧ READ_HEADER = 2 ∧
      r.files = [] :=
  short_file_read_header [] (by decide)

/-- C13 (header count, as the code has it): when the constructor ends with
error() == 0, the number of records equals the count field of header bytes
[8,12) read as a SIGNED 32-bit integer and taken as 0 when negative; it equals
the unsigned value exactly when that value is below 2^31, and is 0 otherwise. -/
theorem header_count_signed (data : List Byte) (r : Reader)
    (h : Reader.new (some data) = some r) (he : r.error = 0) :
    r.files.length = (Read32LE_int ((data.take 12).drop 8)).toNat ∧
    (Read32LE ((data.take 12).drop 8) < 2147483648 →
      r.files.length = Read32LE ((data.take 12).drop 8)) ∧
    (2147483648 ≤ Read32LE ((data.take 12).drop 8) → r.files.length = 0) := by
  obtain ⟨s, hl⟩ := Reader_new_cases data r h he
  have hlen := Reader_loop_length _ _ _ _ _ _ hl rfl
  have hlen' : r.files.length = (Read32LE_int ((data.take 12).drop 8)).toNat := by
    rw [hlen]; simp
  have hb : Read32LE ((data.take 12).drop 8) < 4294967296 := Read32LE_lt _
  refine ⟨hlen', ?_, ?_⟩
  · intro hlt
    rw [hlen', Read32LE_int, toInt32_of_lt _ hlt]
    simp
  · intro hge
    rw [hlen', Read32LE_int]
    unfold toInt32
    omega

theorem header_count_signed_witness :
    ∃ r, Reader.new (some [12, 0, 0, 0, 3, 0, 0xcd, 0xab, 0, 0, 0, 0]) = some r ∧
      r.files.length = 0 :=
  ⟨_, Reader_new_empty _ (by decide) (by with_unfolding_all decide),
    (header_count_signed [12, 0, 0, 0, 3, 0, 0xcd, 0xab, 0, 0, 0, 0] _
      (Reader_new_empty _ (by decide) (by with_unfolding_all decide)) rfl).1.trans
    (by with_unfolding_all decide)⟩

/-- C13 (counterexample): a 12-byte file whose bytes [8,12) are FF FF FF FF is
opened with error() == 0 and an empty table, while the unsigned count stored in
header bytes [8,12) is 4294967295. -/
theorem header_count_unsigned_fails :
    ∃ r, Reader.new (some [12, 0, 0, 0, 3, 0, 0xcd, 0xab, 0xff, 0xff, 0xff, 0xff]) = some r ∧
      r.error = 0 ∧ r.files.length = 0 ∧
      Read32LE ((([12, 0, 0, 0, 3, 0, 0xcd, 0xab, 0xff, 0xff, 0xff, 0xff] : List Byte).take 12).drop
        8) = 4294967295 ∧
      r.files.length ≠
        Read32LE ((([12, 0, 0, 0, 3, 0, 0xcd, 0xab, 0xff, 0xff, 0xff, 0xff] : List Byte).take
          12).drop 8) :=
  ⟨_, Reader_new_empty _ (by decide) (by with_unfolding_all decide), rfl, rfl, by decide,
    by decide⟩

/-! ## The decoder, step by step -/

theorem CopyByte_eq {σ : Type} (vars : ExtractVars) (stream : IfStream) (outfunc : Outfunc σ)
    (snk : σ) :
    CopyByte vars stream outfunc snk =
      if (stream.read 1).2.fail then (READ_SUBFILE, vars, (stream.read 1).2, snk)
      else if (outfunc snk [(stream.read 1).1.getD 0 0]).1 ≠ 0 then
        ((outfunc snk [(stream.read 1).1.getD 0 0]).1, vars, (stream.read 1).2,
          (outfunc snk [(stream.read 1).1.getD 0 0]).2)
      else
        (NO_ERROR,
          { in_pos := vars.in_pos + 1, rb_pos := (vars.rb_pos + 1) % 4096,
            ring_buffer := vars.ring_buffer.set vars.rb_pos ((stream.read 1).1.getD 0 0) },
          (stream.read 1).2, (outfunc snk [(stream.read 1).1.getD 0 0]).2) := rfl

theorem CopyRB_loop_zero {σ : Type} (outfunc : Outfunc σ) (offset i : Nat) (vars : ExtractVars)
    (snk : σ) : CopyRB_loop outfunc offset 0 i vars snk = (NO_ERROR, vars, snk) := rfl

theorem CopyRB_loop_succ {σ : Type} (outfunc : Outfunc σ) (offset n i : Nat) (vars : ExtractVars)
    (snk : σ) :
    CopyRB_loop outfunc offset (n + 1) i vars snk =
      if (outfunc snk [vars.ring_buffer.getD ((offset + i) % 4096) 0]).1 ≠ 0 then
        ((outfunc snk [vars.ring_buffer.getD ((offset + i) % 4096) 0]).1,
          { in_pos := vars.in_pos, rb_pos := (vars.rb_pos + 1) % 4096,
            ring_buffer := vars.ring_buffer.set vars.rb_pos
              (vars.ring_buffer.getD ((offset + i) % 4096) 0) },
          (outfunc snk [vars.ring_buffer.getD ((offset + i) % 4096) 0]).2)
      else
        CopyRB_loop outfunc offset n (i + 1)
          { in_pos := vars.in_pos, rb_pos := (vars.rb_pos + 1) % 4096,
            ring_buffer := vars.ring_buffer.set vars.rb_pos
              (vars.ring_buffer.getD ((offset + i) % 4096) 0) }
          (outfunc snk [vars.ring_buffer.getD ((offset + i) % 4096) 0]).2 := rfl

theorem CopyRB_eq {σ : Type} (vars : ExtractVars) (stream : IfStream) (outfunc : Outfunc σ)
    (snk : σ) :
    CopyRB vars stream outfunc snk =
      if (stream.read 2).2.fail then (READ_SUBFILE, vars, (stream.read 2).2, snk)
      else
        ((CopyRB_loop outfunc
            (((stream.read 2).1.getD 0 0).val |||
              ((((stream.read 2).1.getD 1 0).val &&& 0xf0) <<< 4))
            ((((stream.read 2).1.getD 1 0).val &&& 0xf) + 3) 0
            { vars with in_pos := vars.in_pos + 2 } snk).1,
         (CopyRB_loop outfunc
            (((stream.read 2).1.getD 0 0).val |||
              ((((stream.read 2).1.getD 1 0).val &&& 0xf0) <<< 4))
            ((((stream.read 2).1.getD 1 0).val &&& 0xf) + 3) 0
            { vars with in_pos := vars.in_pos + 2 } snk).2.1,
         (stream.read 2).2,
         (CopyRB_loop outfunc
            (((stream.read 2).1.getD 0 0).val |||
              ((((stream.read 2).1.getD 1 0).val &&& 0xf0) <<< 4))
            ((((stream.read 2).1.getD 1 0).val &&& 0xf) + 3) 0
            { vars with in_pos := vars.in_pos + 2 } snk).2.2) := rfl

/-- A property of the decoder state that the two token functions keep is kept
by the loop over the bits of a type byte. -/
theorem extract_bits_inv {σ : Type} (outfunc : Outfunc σ) (m_cmp_size : Int)
    (P : Int × ExtractVars × IfStream × σ → Prop)
    (hB : ∀ v st s, P (0, v, st, s) → P (CopyByte v st outfunc s))
    (hR : ∀ v st s, P (0, v, st, s) → P (CopyRB v st outfunc s))
    (type_byte : Byte) (n : Nat) :
    ∀ (i : Nat) (v : ExtractVars) (st : IfStream) (s : σ), P (0, v, st, s) →
      P (extract_bits outfunc m_cmp_size type_byte n i v st s) := by
  have key : ∀ (n : Nat), (∀ (i : Nat) (v : ExtractVars) (st : IfStream) (s : σ),
      P (0, v, st, s) → P (extract_bits outfunc m_cmp_size type_byte n i v st s)) →
      ∀ (i : Nat) (r : Int × ExtractVars × IfStream × σ), P r →
        P (after_token outfunc m_cmp_size type_byte n i r) := by
    intro n ih i r hr
    obtain ⟨c, v, st, s⟩ := r
    unfold after_token
    by_cases hc : c ≠ 0
    · rw [if_pos hc]; exact hr
    · have hc0 : c = 0 := not_not.mp hc
      subst hc0
      rw [if_neg hc]
      by_cases hp : v.in_pos ≥ m_cmp_size
      · rw [if_pos hp]; exact hr
      · rw [if_neg hp]; exact ih _ _ _ _ hr
  induction n with
  | zero =>
    intro i v st s h
    rw [extract_bits_zero]; exact h
  | succ n ih =>
    intro i v st s h
    rw [extract_bits_succ]
    by_cases hb : type_byte.val &&& (0x1 <<< i) ≠ 0
    · rw [if_pos hb]; exact key n ih i _ (hB _ _ _ h)
    · rw [if_neg hb]; exact key n ih i _ (hR _ _ _ h)

/-- A property kept by the tokens and by the read of a type byte holds for what
the compressed loop returns; after a return with code 0 the whole compressed
range is used up. -/
theorem extract_loop_inv {σ : Type} (outfunc : Outfunc σ) (m_cmp_size : Int)
    (P : Int × ExtractVars × IfStream × σ → Prop)
    (hB : ∀ v st s, P (0, v, st, s) → P (CopyByte v st outfunc s))
    (hR : ∀ v st s, P (0, v, st, s) → P (CopyRB v st outfunc s))
    (hT : ∀ v st s, P (0, v, st, s) → v.in_pos < m_cmp_size →
      if (st.read 1).2.fail then P (READ_SUBFILE, v, (st.read 1).2, s)
      else P (0, { v with in_pos := v.in_pos + 1 }, (st.read 1).2, s))
    (fuel : Nat) :
    ∀ (v : ExtractVars) (st : IfStream) (s : σ) (r : Int × ExtractVars × IfStream × σ),
      P (0, v, st, s) → extract_loop outfunc m_cmp_size fuel v st s = some r →
      P r ∧ (r.1 = 0 → ¬ r.2.1.in_pos < m_cmp_size) := by
  induction fuel with
  | zero =>
    intro v st s r h hr
    rw [extract_loop_zero] at hr
    by_cases hlt : v.in_pos < m_cmp_size
    · rw [if_pos hlt] at hr; exact absurd hr (by simp)
    · rw [if_neg hlt] at hr
      simp only [Option.some.injEq] at hr
      subst hr
      exact ⟨h, fun _ => hlt⟩
  | succ fuel ih =>
    intro v st s r h hr
    rw [extract_loop_succ] at hr
    by_cases hlt : v.in_pos < m_cmp_size
    · rw [if_pos hlt] at hr
      have ht := hT v st s h hlt
      by_cases hf : (st.read 1).2.fail = true
      · rw [if_pos hf] at hr ht
        simp only [Option.some.injEq] at hr
        subst hr
        exact ⟨ht, fun h0 => absurd h0 (show READ_SUBFILE ≠ 0 by decide)⟩
      · rw [if_neg hf] at hr ht
        have hb := extract_bits_inv outfunc m_cmp_size P hB hR ((st.read 1).1.getD 0 0) 8 0 _ _ _ ht
        generalize extract_bits outfunc m_cmp_size ((st.read 1).1.getD 0 0) 8 0
          { v with in_pos := v.in_pos + 1 } (st.read 1).2 s = rb at hr hb
        obtain ⟨c, v', st', s'⟩ := rb
        by_cases hc : c ≠ 0
        · change (if c ≠ 0 then some (c, v', st', s') else _) = _ at hr
          rw [if_pos hc] at hr
          simp only [Option.some.injEq] at hr
          subst hr
          exact ⟨hb, fun h0 => absurd h0 hc⟩
        · change (if c ≠ 0 then some (c, v', st', s') else
            extract_loop outfunc m_cmp_size fuel v' st' s') = _ at hr
          rw [if_neg hc] at hr
          have hc0 : c = 0 := not_not.mp hc
          subst hc0
          exact ih _ _ _ _ hb hr
    · rw [if_neg hlt] at hr
      simp only [Option.some.injEq] at hr
      subst hr
      exact ⟨h, fun _ => hlt⟩

/-- The consumed-bytes counter never goes down in a token. -/
theorem CopyByte_in_pos_le {σ : Type} (outfunc : Outfunc σ) (v : ExtractVars) (st : IfStream)
    (s : σ) : v.in_pos ≤ (CopyByte v st outfunc s).2.1.in_pos := by
  rw [CopyByte_eq]
  split
  · exact Int.le_refl _
  · split
    · exact Int.le_refl _
    · show v.in_pos ≤ v.in_pos + 1
      omega

theorem CopyRB_loop_in_pos {σ : Type} (outfunc : Outfunc σ) (offset n : Nat) :
    ∀ (i : Nat) (v : ExtractVars) (s : σ),
      (CopyRB_loop outfunc offset n i v s).2.1.in_pos = v.in_pos := by
  induction n with
  | zero => intro i v s; rfl
  | succ n ih =>
    intro i v s
    rw [CopyRB_loop_succ]
    split
    · rfl
    · rw [ih]

theorem CopyRB_in_pos_le {σ : Type} (outfunc : Outfunc σ) (v : ExtractVars) (st : IfStream)
    (s : σ) : v.in_pos ≤ (CopyRB v st outfunc s).2.1.in_pos := by
  rw [CopyRB_eq]
  split
  · exact Int.le_refl _
  · show v.in_pos ≤ (CopyRB_loop outfunc _ _ 0 { v with in_pos := v.in_pos + 2 } s).2.1.in_pos
    rw [CopyRB_loop_in_pos]
    show v.in_pos ≤ v.in_pos + 2
    omega

theorem extract_bits_in_pos_le {σ : Type} (outfunc : Outfunc σ) (m_cmp_size : Int)
    (type_byte : Byte) (n i : Nat) (v : ExtractVars) (st : IfStream) (s : σ) :
    v.in_pos ≤ (extract_bits outfunc m_cmp_size type_byte n i v st s).2.1.in_pos :=
  extract_bits_inv outfunc m_cmp_size (fun r => v.in_pos ≤ r.2.1.in_pos)
    (fun v' st' s' h => Int.le_trans h (CopyByte_in_pos_le outfunc v' st' s'))
    (fun v' st' s' h => Int.le_trans h (CopyRB_in_pos_le outfunc v' st' s'))
    type_byte n i v st s (Int.le_refl _)

/-- The compressed loop returns: `fuel` iterations are enough when the part of
the compressed range still to be consumed is at most `fuel`. -/
theorem extract_loop_total {σ : Type} (outfunc : Outfunc σ) (m_cmp_size : Int) (fuel : Nat) :
    ∀ (v : ExtractVars) (st : IfStream) (s : σ), m_cmp_size - v.in_pos ≤ (fuel : Int) →
      ∃ r, extract_loop outfunc m_cmp_size fuel v st s = some r := by
  induction fuel with
  | zero =>
    intro v st s h
    rw [extract_loop_zero, if_neg (by simp only [Nat.cast_zero] at h; omega)]
    exact ⟨_, rfl⟩
  | succ fuel ih =>
    intro v st s h
    rw [extract_loop_succ]
    by_cases hlt : v.in_pos < m_cmp_size
    · rw [if_pos hlt]
      by_cases hf : (st.read 1).2.fail = true
      · rw [if_pos hf]; exact ⟨_, rfl⟩
      · rw [if_neg hf]
        have hle := extract_bits_in_pos_le outfunc m_cmp_size ((st.read 1).1.getD 0 0) 8 0
          { v with in_pos := v.in_pos + 1 } (st.read 1).2 s
        generalize extract_bits outfunc m_cmp_size ((st.read 1).1.getD 0 0) 8 0
          { v with in_pos := v.in_pos + 1 } (st.read 1).2 s = rb at hle
        obtain ⟨c, v', st', s'⟩ := rb
        by_cases hc : c ≠ 0
        · show ∃ r, (if c ≠ 0 then some (c, v', st', s') else _) = some r
          rw [if_pos hc]; exact ⟨_, rfl⟩
        · show ∃ r, (if c ≠ 0 then some (c, v', st', s') else
            extract_loop outfunc m_cmp_size fuel v' st' s') = some r
          rw [if_neg hc]
          apply ih
          have hle' : v.in_pos + 1 ≤ v'.in_pos := hle
          push_cast at h
          omega
    · rw [if_neg hlt]; exact ⟨_, rfl⟩

/-- The raw loop returns when `fuel` is at least the number of bytes asked for. -/
theorem extract_raw_loop_total {σ : Type} (outfunc : Outfunc σ) (fuel : Nat) :
    ∀ (bytes : Int) (st : IfStream) (s : σ), bytes ≤ (fuel : Int) →
      ∃ r, extract_raw_loop outfunc fuel bytes st s = some r := by
  induction fuel with
  | zero =>
    intro bytes st s h
    rw [extract_raw_loop_zero, if_neg (by simp only [Nat.cast_zero] at h; omega)]
    exact ⟨_, rfl⟩
  | succ fuel ih =>
    intro bytes st s h
    rw [extract_raw_loop_succ]
    split
    · split
      · split
        · exact ⟨_, rfl⟩
        · split
          · exact ⟨_, rfl⟩
          · apply ih
            have : (NSPRE_CHUNK_SIZE : Int) = 1024 := rfl
            push_cast at h
            omega
      · split
        · exact ⟨_, rfl⟩
        · split <;> exact ⟨_, rfl⟩
    · exact ⟨_, rfl⟩

/-! ## The four ways through extract -/

theorem extract_closed {σ : Type} (f : Reader.Subfile) (stream : IfStream) (outfunc : Outfunc σ)
    (snk : σ) (ho : stream.is_open = false) :
    extract f stream outfunc snk = some (UNINITIALIZED, stream, snk) := by
  unfold extract
  rw [ho]
  rfl

theorem extract_seek_fail {σ : Type} (f : Reader.Subfile) (stream : IfStream)
    (outfunc : Outfunc σ) (snk : σ) (ho : stream.is_open = true)
    (hs : (stream.seekg f.m_offset).failbit = true) :
    extract f stream outfunc snk = some (READ_SUBFILE, stream.seekg f.m_offset, snk) := by
  unfold extract
  rw [ho]
  show (if (!true) = true then _ else
    (if (stream.seekg f.m_offset).failbit = true then _ else _)) = _
  rw [if_neg (by decide), if_pos hs]

theorem extract_raw {σ : Type} (f : Reader.Subfile) (stream : IfStream)
    (outfunc : Outfunc σ) (snk : σ) (ho : stream.is_open = true)
    (hs : (stream.seekg f.m_offset).failbit = false) (hc : f.m_cmp_size = 0) :
    extract f stream outfunc snk =
      extract_raw_loop outfunc f.m_size.toNat f.m_size (stream.seekg f.m_offset) snk := by
  unfold extract
  rw [ho]
  show (if (!true) = true then _ else
    (if (stream.seekg f.m_offset).failbit = true then _ else
      if f.m_cmp_size = 0 then _ else _)) = _
  rw [if_neg (by decide), if_neg (by rw [hs]; exact Bool.false_ne_true), if_pos hc]

theorem extract_compressed {σ : Type} (f : Reader.Subfile) (stream : IfStream)
    (outfunc : Outfunc σ) (snk : σ) (ho : stream.is_open = true)
    (hs : (stream.seekg f.m_offset).failbit = false) (hc : f.m_cmp_size ≠ 0)
    (r : Int × ExtractVars × IfStream × σ)
    (hl : extract_loop outfunc f.m_cmp_size f.m_cmp_size.toNat ExtractVars.new
      (stream.seekg f.m_offset) snk = some r) :
    extract f stream outfunc snk = some (r.1, r.2.2.1, r.2.2.2) := by
  unfold extract
  rw [ho]
  show (if (!true) = true then _ else
    (if (stream.seekg f.m_offset).failbit = true then _ else
      if f.m_cmp_size = 0 then _ else
        match extract_loop outfunc f.m_cmp_size f.m_cmp_size.toNat ExtractVars.new
          (stream.seekg f.m_offset) snk with
        | none => none
        | some (err, _, stream, snk) => some (err, stream, snk))) = _
  rw [if_neg (by decide), if_neg (by rw [hs]; exact Bool.false_ne_true), if_neg hc, hl]

/-- Extraction always returns: the fuel given to the two loops is enough. -/
theorem extract_total {σ : Type} (f : Reader.Subfile) (stream : IfStream) (outfunc : Outfunc σ)
    (snk : σ) : ∃ r, extract f stream outfunc snk = some r := by
  by_cases ho : stream.is_open = true
  · by_cases hs : (stream.seekg f.m_offset).failbit = true
    · exact ⟨_, extract_seek_fail f stream outfunc snk ho hs⟩
    · have hs' : (stream.seekg f.m_offset).failbit = false := by simpa using hs
      by_cases hc : f.m_cmp_size = 0
      · rw [extract_raw f stream outfunc snk ho hs' hc]
        exact extract_raw_loop_total outfunc _ _ _ _ (Int.self_le_toNat _)
      · obtain ⟨r, hr⟩ := extract_loop_total outfunc f.m_cmp_size f.m_cmp_size.toNat
          ExtractVars.new (stream.seekg f.m_offset) snk (by
            have h0 : ExtractVars.new.in_pos = 0 := rfl
            rw [h0]
            have := Int.self_le_toNat f.m_cmp_size
            omega)
        exact ⟨_, extract_compressed f stream outfunc snk ho hs' hc r hr⟩
  · have ho' : stream.is_open = false := by simpa using ho
    exact ⟨_, extract_closed f stream outfunc snk ho'⟩

/-! ## Sink errors -/

theorem Final_of_zero (code : Int) (log : List (List Byte × Int)) (h : Final 0 log) :
    Final code log := by
  intro k hk hne
  exact absurd (h k hk hne).2.symm hne

theorem Final_append (log : List (List Byte × Int)) (d : List Byte) (e : Int)
    (h : Final 0 log) : Final e (log ++ [(d, e)]) := by
  intro k hk hne
  rw [List.length_append, List.length_singleton] at hk ⊢
  by_cases hlt : k < log.length
  · rw [List.getD_append _ _ _ _ hlt] at hne
    exact absurd (h k hlt hne).2.symm hne
  · have hk' : k = log.length := by omega
    subst hk'
    refine ⟨rfl, ?_⟩
    rw [List.getD_append_right _ _ _ _ (Nat.le_refl _), Nat.sub_self]
    rfl

theorem Final_append_code (log : List (List Byte × Int)) (d : List Byte) (e c : Int)
    (h : Final 0 log) (hc : c = e) : Final c (log ++ [(d, e)]) := by
  subst hc; exact Final_append log d c h

theorem CopyByte_final {σ : Type} (outfunc : Outfunc σ) (v : ExtractVars) (st : IfStream)
    (s : σ × List (List Byte × Int)) (h : Final 0 s.2) :
    Final (CopyByte v st (logged outfunc) s).1 (CopyByte v st (logged outfunc) s).2.2.2.2 := by
  rw [CopyByte_eq]
  split
  · exact Final_of_zero _ _ h
  · split
    · exact Final_append _ _ _ h
    · rename_i hz
      exact Final_append_code _ _ _ _ h (not_not.mp hz).symm

theorem CopyRB_loop_final {σ : Type} (outfunc : Outfunc σ) (offset n : Nat) :
    ∀ (i : Nat) (v : ExtractVars) (s : σ × List (List Byte × Int)), Final 0 s.2 →
      Final (CopyRB_loop (logged outfunc) offset n i v s).1
        (CopyRB_loop (logged outfunc) offset n i v s).2.2.2 := by
  induction n with
  | zero => intro i v s h; exact h
  | succ n ih =>
    intro i v s h
    rw [CopyRB_loop_succ]
    split
    · exact Final_append _ _ _ h
    · rename_i hz
      exact ih _ _ _ (Final_append_code _ _ _ _ h (not_not.mp hz).symm)

theorem CopyRB_final {σ : Type} (outfunc : Outfunc σ) (v : ExtractVars) (st : IfStream)
    (s : σ × List (List Byte × Int)) (h : Final 0 s.2) :
    Final (CopyRB v st (logged outfunc) s).1 (CopyRB v st (logged outfunc) s).2.2.2.2 := by
  rw [CopyRB_eq]
  split
  · exact Final_of_zero _ _ h
  · exact CopyRB_loop_final outfunc _ _ 0 _ s h

theorem extract_raw_loop_final {σ : Type} (outfunc : Outfunc σ) (fuel : Nat) :
    ∀ (bytes : Int) (st : IfStream) (s : σ × List (List Byte × Int))
      (r : Int × IfStream × σ × List (List Byte × Int)), Final 0 s.2 →
      extract_raw_loop (logged outfunc) fuel bytes st s = some r → Final r.1 r.2.2.2 := by
  induction fuel with
  | zero =>
    intro bytes st s r h hr
    rw [extract_raw_loop_zero] at hr
    split at hr
    · exact absurd hr (by simp)
    · simp only [Option.some.injEq] at hr
      subst hr; exact h
  | succ fuel ih =>
    intro bytes st s r h hr
    rw [extract_raw_loop_succ] at hr
    split at hr
    · split at hr
      · split at hr
        · simp only [Option.some.injEq] at hr
          subst hr; exact Final_of_zero _ _ h
        · split at hr
          · simp only [Option.some.injEq] at hr
            subst hr; exact Final_append _ _ _ h
          · rename_i hz
            exact ih _ _ _ _ (Final_append_code _ _ _ _ h (not_not.mp hz).symm) hr
      · split at hr
        · simp only [Option.some.injEq] at hr
          subst hr; exact Final_of_zero _ _ h
        · split at hr
          · simp only [Option.some.injEq] at hr
            subst hr; exact Final_append _ _ _ h
          · rename_i hz
            simp only [Option.some.injEq] at hr
            subst hr
            exact Final_append_code _ _ _ _ h (not_not.mp hz).symm
    · simp only [Option.some.injEq] at hr
      subst hr; exact h

theorem extract_final {σ : Type} (f : Reader.Subfile) (stream : IfStream) (outfunc : Outfunc σ)
    (s : σ × List (List Byte × Int)) (r : Int × IfStream × σ × List (List Byte × Int))
    (h : Final 0 s.2) (hr : extract f stream (logged outfunc) s = some r) :
    Final r.1 r.2.2.2 := by
  by_cases ho : stream.is_open = true
  · by_cases hs : (stream.seekg f.m_offset).failbit = true
    · rw [extract_seek_fail f stream _ s ho hs] at hr
      simp only [Option.some.injEq] at hr
      subst hr; exact Final_of_zero _ _ h
    · have hs' : (stream.seekg f.m_offset).failbit = false := by simpa using hs
      by_cases hc : f.m_cmp_size = 0
      · rw [extract_raw f stream _ s ho hs' hc] at hr
        exact extract_raw_loop_final outfunc _ _ _ _ _ h hr
      · obtain ⟨rl, hrl⟩ := extract_loop_total (logged outfunc) f.m_cmp_size f.m_cmp_size.toNat
          ExtractVars.new (stream.seekg f.m_offset) s (by
            have h0 : ExtractVars.new.in_pos = 0 := rfl
            rw [h0]
            have := Int.self_le_toNat f.m_cmp_size
            omega)
        rw [extract_compressed f stream _ s ho hs' hc rl hrl] at hr
        simp only [Option.some.injEq] at hr
        subst hr
        have := (extract_loop_inv (logged outfunc) f.m_cmp_size
          (fun r => Final r.1 r.2.2.2.2)
          (fun v st s h => CopyByte_final outfunc v st s h)
          (fun v st s h => CopyRB_final outfunc v st s h)
          (fun v st s h _ => by
            split
            · exact Final_of_zero _ _ h
            · exact h)
          _ _ _ _ rl h hrl).1
        exact this
  · have ho' : stream.is_open = false := by simpa using ho
    rw [extract_closed f stream _ s ho'] at hr
    simp only [Option.some.injEq] at hr
    subst hr; exact Final_of_zero _ _ h

/-! ## The recording sink does not change a decode -/

theorem CopyByte_logged {σ : Type} (outfunc : Outfunc σ) (v : ExtractVars) (st : IfStream)
    (s : σ × List (List Byte × Int)) :
    ((CopyByte v st (logged outfunc) s).1, (CopyByte v st (logged outfunc) s).2.1,
      (CopyByte v st (logged outfunc) s).2.2.1, (CopyByte v st (logged outfunc) s).2.2.2.1) =
      CopyByte v st outfunc s.1 := by
  simp only [CopyByte_eq, logged]
  split_ifs <;> rfl

theorem CopyRB_loop_logged {σ : Type} (outfunc : Outfunc σ) (offset n : Nat) :
    ∀ (i : Nat) (v : ExtractVars) (s : σ × List (List Byte × Int)),
      ((CopyRB_loop (logged outfunc) offset n i v s).1,
        (CopyRB_loop (logged outfunc) offset n i v s).2.1,
        (CopyRB_loop (logged outfunc) offset n i v s).2.2.1) =
        CopyRB_loop outfunc offset n i v s.1 := by
  induction n with
  | zero => intro i v s; rfl
  | succ n ih =>
    intro i v s
    rw [CopyRB_loop_succ, CopyRB_loop_succ]
    by_cases h : (outfunc s.1 [v.ring_buffer.getD ((offset + i) % 4096) 0]).1 ≠ 0
    · rw [if_pos h, if_pos (show (logged outfunc s
        [v.ring_buffer.getD ((offset + i) % 4096) 0]).1 ≠ 0 from h)]
      rfl
    · rw [if_neg h, if_neg (show ¬ (logged outfunc s
        [v.ring_buffer.getD ((offset + i) % 4096) 0]).1 ≠ 0 from h)]
      exact ih _ _ _

theorem CopyRB_logged {σ : Type} (outfunc : Outfunc σ) (v : ExtractVars) (st : IfStream)
    (s : σ × List (List Byte × Int)) :
    ((CopyRB v st (logged outfunc) s).1, (CopyRB v st (logged outfunc) s).2.1,
      (CopyRB v st (logged outfunc) s).2.2.1, (CopyRB v st (logged outfunc) s).2.2.2.1) =
      CopyRB v st outfunc s.1 := by
  rw [CopyRB_eq, CopyRB_eq]
  by_cases h : (st.read 2).2.fail = true
  · rw [if_pos h, if_pos h]
  · rw [if_neg h, if_neg h]
    have := CopyRB_loop_logged outfunc
      (((st.read 2).1.getD 0 0).val ||| ((((st.read 2).1.getD 1 0).val &&& 0xf0) <<< 4))
      ((((st.read 2).1.getD 1 0).val &&& 0xf) + 3) 0 { v with in_pos := v.in_pos + 2 } s
    rw [← this]

theorem extract_bits_logged {σ : Type} (outfunc : Outfunc σ) (m_cmp_size : Int)
    (type_byte : Byte) (n : Nat) :
    ∀ (i : Nat) (v : ExtractVars) (st : IfStream) (s : σ × List (List Byte × Int)),
      ((extract_bits (logged outfunc) m_cmp_size type_byte n i v st s).1,
        (extract_bits (logged outfunc) m_cmp_size type_byte n i v st s).2.1,
        (extract_bits (logged outfunc) m_cmp_size type_byte n i v st s).2.2.1,
        (extract_bits (logged outfunc) m_cmp_size type_byte n i v st s).2.2.2.1) =
        extract_bits outfunc m_cmp_size type_byte n i v st s.1 := by
  have key : ∀ (n : Nat), (∀ (i : Nat) (v : ExtractVars) (st : IfStream)
      (s : σ × List (List Byte × Int)),
      ((extract_bits (logged outfunc) m_cmp_size type_byte n i v st s).1,
        (extract_bits (logged outfunc) m_cmp_size type_byte n i v st s).2.1,
        (extract_bits (logged outfunc) m_cmp_size type_byte n i v st s).2.2.1,
        (extract_bits (logged outfunc) m_cmp_size type_byte n i v st s).2.2.2.1) =
        extract_bits outfunc m_cmp_size type_byte n i v st s.1) →
      ∀ (i : Nat) (rl : Int × ExtractVars × IfStream × σ × List (List Byte × Int))
        (r : Int × ExtractVars × IfStream × σ),
        (rl.1, rl.2.1, rl.2.2.1, rl.2.2.2.1) = r →
        ((after_token (logged outfunc) m_cmp_size type_byte n i rl).1,
          (after_token (logged outfunc) m_cmp_size type_byte n i rl).2.1,
          (after_token (logged outfunc) m_cmp_size type_byte n i rl).2.2.1,
          (after_token (logged outfunc) m_cmp_size type_byte n i rl).2.2.2.1) =
          after_token outfunc m_cmp_size type_byte n i r := by
    intro n ih i rl r h
    obtain ⟨c, v, st, s, l⟩ := rl
    subst h
    unfold after_token
    by_cases hc : c ≠ 0
    · rw [if_pos hc, if_pos hc]
    · rw [if_neg hc, if_neg hc]
      by_cases hp : v.in_pos ≥ m_cmp_size
      · rw [if_pos hp, if_pos hp]
      · rw [if_neg hp, if_neg hp]
        exact ih _ _ _ _
  induction n with
  | zero => intro i v st s; rfl
  | succ n ih =>
    intro i v st s
    rw [extract_bits_succ, extract_bits_succ]
    by_cases hb : type_byte.val &&& (0x1 <<< i) ≠ 0
    · rw [if_pos hb, if_pos hb]
      exact key n ih i _ _ (CopyByte_logged outfunc v st s)
    · rw [if_neg hb, if_neg hb]
      exact key n ih i _ _ (CopyRB_logged outfunc v st s)

theorem extract_loop_logged {σ : Type} (outfunc : Outfunc σ) (m_cmp_size : Int) (fuel : Nat) :
    ∀ (v : ExtractVars) (st : IfStream) (s : σ × List (List Byte × Int)),
      (extract_loop (logged outfunc) m_cmp_size fuel v st s).map
        (fun r => (r.1, r.2.1, r.2.2.1, r.2.2.2.1)) =
        extract_loop outfunc m_cmp_size fuel v st s.1 := by
  induction fuel with
  | zero =>
    intro v st s
    rw [extract_loop_zero, extract_loop_zero]
    split <;> rfl
  | succ fuel ih =>
    intro v st s
    rw [extract_loop_succ, extract_loop_succ]
    by_cases hlt : v.in_pos < m_cmp_size
    · rw [if_pos hlt, if_pos hlt]
      by_cases hf : (st.read 1).2.fail = true
      · rw [if_pos hf, if_pos hf]; rfl
      · rw [if_neg hf, if_neg hf]
        have hb := extract_bits_logged outfunc m_cmp_size ((st.read 1).1.getD 0 0) 8 0
          { v with in_pos := v.in_pos + 1 } (st.read 1).2 s
        generalize extract_bits (logged outfunc) m_cmp_size ((st.read 1).1.getD 0 0) 8 0
          { v with in_pos := v.in_pos + 1 } (st.read 1).2 s = rl at hb
        generalize extract_bits outfunc m_cmp_size ((st.read 1).1.getD 0 0) 8 0
          { v with in_pos := v.in_pos + 1 } (st.read 1).2 s.1 = r at hb
        obtain ⟨c, v', st', s', l'⟩ := rl
        subst hb
        by_cases hc : c ≠ 0
        · show Option.map _ (if c ≠ 0 then some (c, v', st', s', l') else _) =
            (if c ≠ 0 then some (c, v', st', s') else _)
          rw [if_pos hc, if_pos hc]; rfl
        · show Option.map _ (if c ≠ 0 then some (c, v', st', s', l') else
            extract_loop (logged outfunc) m_cmp_size fuel v' st' (s', l')) =
            (if c ≠ 0 then some (c, v', st', s') else
              extract_loop outfunc m_cmp_size fuel v' st' s')
          rw [if_neg hc, if_neg hc]
          exact ih _ _ _
    · rw [if_neg hlt, if_neg hlt]; rfl

theorem extract_raw_loop_logged {σ : Type} (outfunc : Outfunc σ) (fuel : Nat) :
    ∀ (bytes : Int) (st : IfStream) (s : σ × List (List Byte × Int)),
      (extract_raw_loop (logged outfunc) fuel bytes st s).map
        (fun r => (r.1, r.2.1, r.2.2.1)) =
        extract_raw_loop outfunc fuel bytes st s.1 := by
  induction fuel with
  | zero =>
    intro bytes st s
    rw [extract_raw_loop_zero, extract_raw_loop_zero]
    split <;> rfl
  | succ fuel ih =>
    intro bytes st s
    rw [extract_raw_loop_succ, extract_raw_loop_succ]
    by_cases h0 : bytes > 0
    · rw [if_pos h0, if_pos h0]
      by_cases h1 : bytes ≥ (NSPRE_CHUNK_SIZE : Int)
      · rw [if_pos h1, if_pos h1]
        by_cases hf : (st.read NSPRE_CHUNK_SIZE).2.fail = true
        · rw [if_pos hf, if_pos hf]; rfl
        · rw [if_neg hf, if_neg hf]
          by_cases he : (outfunc s.1 (st.read NSPRE_CHUNK_SIZE).1).1 ≠ 0
          · rw [if_pos he, if_pos (show (logged outfunc s (st.read NSPRE_CHUNK_SIZE).1).1 ≠ 0
              from he)]
            rfl
          · rw [if_neg he, if_neg (show ¬ (logged outfunc s (st.read NSPRE_CHUNK_SIZE).1).1 ≠ 0
              from he)]
            exact ih _ _ _
      · rw [if_neg h1, if_neg h1]
        by_cases hf : (st.read bytes.toNat).2.fail = true
        · rw [if_pos hf, if_pos hf]; rfl
        · rw [if_neg hf, if_neg hf]
          by_cases he : (outfunc s.1 (st.read bytes.toNat).1).1 ≠ 0
          · rw [if_pos he, if_pos (show (logged outfunc s (st.read bytes.toNat).1).1 ≠ 0
              from he)]
            rfl
          · rw [if_neg he, if_neg (show ¬ (logged outfunc s (st.read bytes.toNat).1).1 ≠ 0
              from he)]
            rfl
    · rw [if_neg h0, if_neg h0]; rfl

/-- With the recording sink in place of `outfunc` extraction returns the same
code and leaves the stream and the state of `outfunc` the same. -/
theorem extract_logged {σ : Type} (f : Reader.Subfile) (stream : IfStream) (outfunc : Outfunc σ)
    (s : σ × List (List Byte × Int)) :
    (extract f stream (logged outfunc) s).map (fun r => (r.1, r.2.1, r.2.2.1)) =
      extract f stream outfunc s.1 := by
  by_cases ho : stream.is_open = true
  · by_cases hs : (stream.seekg f.m_offset).failbit = true
    · rw [extract_seek_fail f stream _ s ho hs, extract_seek_fail f stream _ s.1 ho hs]; rfl
    · have hs' : (stream.seekg f.m_offset).failbit = false := by simpa using hs
      by_cases hc : f.m_cmp_size = 0
      · rw [extract_raw f stream _ s ho hs' hc, extract_raw f stream _ s.1 ho hs' hc]
        exact extract_raw_loop_logged outfunc _ _ _ _
      · have hsim := extract_loop_logged outfunc f.m_cmp_size f.m_cmp_size.toNat
          ExtractVars.new (stream.seekg f.m_offset) s
        obtain ⟨rl, hrl⟩ := extract_loop_total (logged outfunc) f.m_cmp_size f.m_cmp_size.toNat
          ExtractVars.new (stream.seekg f.m_offset) s (by
            have h0 : ExtractVars.new.in_pos = 0 := rfl
            rw [h0]
            have := Int.self_le_toNat f.m_cmp_size
            omega)
        rw [hrl] at hsim
        rw [extract_compressed f stream _ s ho hs' hc rl hrl,
          extract_compressed f stream _ s.1 ho hs' hc _ hsim.symm]
        rfl
  · have ho' : stream.is_open = false := by simpa using ho
    rw [extract_closed f stream _ s ho', extract_closed f stream _ s.1 ho']; rfl

/-! ## The ring buffer -/

theorem RingOK_new : RingOK ExtractVars.new := ⟨by decide, ring_buffer_new_length⟩

theorem RingOK_push (v : ExtractVars) (b : Byte) (ip : Int) (h : RingOK v) :
    RingOK { in_pos := ip, rb_pos := (v.rb_pos + 1) % 4096,
             ring_buffer := v.ring_buffer.set v.rb_pos b } :=
  ⟨Nat.mod_lt _ (by decide), by rw [List.length_set]; exact h.2⟩

theorem CopyByte_ring {σ : Type} (outfunc : Outfunc σ) (v : ExtractVars) (st : IfStream)
    (s : σ) (h : RingOK v) : RingOK (CopyByte v st outfunc s).2.1 := by
  rw [CopyByte_eq]
  split
  · exact h
  · split
    · exact h
    · exact RingOK_push v _ _ h

theorem CopyRB_loop_ring {σ : Type} (outfunc : Outfunc σ) (offset n : Nat) :
    ∀ (i : Nat) (v : ExtractVars) (s : σ), RingOK v →
      RingOK (CopyRB_loop outfunc offset n i v s).2.1 := by
  induction n with
  | zero => intro i v s h; exact h
  | succ n ih =>
    intro i v s h
    rw [CopyRB_loop_succ]
    split
    · exact RingOK_push v _ _ h
    · exact ih _ _ _ (RingOK_push v _ _ h)

theorem CopyRB_ring {σ : Type} (outfunc : Outfunc σ) (v : ExtractVars) (st : IfStream)
    (s : σ) (h : RingOK v) : RingOK (CopyRB v st outfunc s).2.1 := by
  rw [CopyRB_eq]
  split
  · exact h
  · exact CopyRB_loop_ring outfunc _ _ 0 _ s ⟨h.1, h.2⟩

/-- C18 (decoder index safety): the ring buffer keeps its 4096 cells and the
write cursor stays in [0, 4096) from the initial state through every literal,
every step of every back-reference (whatever its offset and length), every
group of tokens and the whole compressed loop, for every input, every
compressed_size and every sink; in such a state the write index rb_pos and
every read index (ref_offset + i) mod 4096 lie inside the ring buffer. -/
theorem decoder_index_safety {σ : Type} (outfunc : Outfunc σ) (m_cmp_size : Int) (fuel : Nat)
    (stream : IfStream) (snk : σ) :
    RingOK ExtractVars.new ∧
    (∀ v, RingOK v → v.rb_pos < v.ring_buffer.length ∧
      ∀ offset i : Nat, (offset + i) % 4096 < v.ring_buffer.length) ∧
    (∀ v st s, RingOK v → RingOK (CopyByte v st outfunc s).2.1) ∧
    (∀ offset n i v s, RingOK v → RingOK (CopyRB_loop outfunc offset n i v s).2.1) ∧
    (∀ v st s, RingOK v → RingOK (CopyRB v st outfunc s).2.1) ∧
    (∀ type_byte n i v st s, RingOK v →
      RingOK (extract_bits outfunc m_cmp_size type_byte n i v st s).2.1) ∧
    (∀ r, extract_loop outfunc m_cmp_size fuel ExtractVars.new stream snk = some r →
      RingOK r.2.1) := by
  refine ⟨RingOK_new, ?_, fun v st s h => CopyByte_ring outfunc v st s h,
    fun offset n i v s h => CopyRB_loop_ring outfunc offset n i v s h,
    fun v st s h => CopyRB_ring outfunc v st s h, ?_, ?_⟩
  · intro v h
    refine ⟨by rw [h.2]; exact h.1, fun offset i => ?_⟩
    rw [h.2]
    exact Nat.mod_lt _ (by decide)
  · intro type_byte n i v st s h
    exact extract_bits_inv outfunc m_cmp_size (fun r => RingOK r.2.1)
      (fun v st s h => CopyByte_ring outfunc v st s h)
      (fun v st s h => CopyRB_ring outfunc v st s h) type_byte n i v st s h
  · intro r hr
    exact (extract_loop_inv outfunc m_cmp_size (fun r => RingOK r.2.1)
      (fun v st s h => CopyByte_ring outfunc v st s h)
      (fun v st s h => CopyRB_ring outfunc v st s h)
      (fun v st s h _ => by split <;> exact h)
      fuel _ _ _ r RingOK_new hr).1

/-! ## The sliding window -/

theorem Window_new : Window ExtractVars.new [] := by
  refine ⟨ring_buffer_new_length, rfl, fun k hk => absurd hk (Nat.not_lt_zero k), ?_⟩
  intro j hj _
  show (List.replicate 4096 (0 : Byte)).getD j 0 = 0
  rw [List.getD_eq_getElem?_getD, List.getElem?_replicate]
  split <;> rfl

theorem Window_push (v : ExtractVars) (out : List Byte) (b : Byte) (ip : Int)
    (h : Window v out) :
    Window { in_pos := ip, rb_pos := (v.rb_pos + 1) % 4096,
             ring_buffer := v.ring_buffer.set v.rb_pos b } (out ++ [b]) := by
  obtain ⟨hlen, hpos, hcell, hzero⟩ := h
  have hrp : v.rb_pos < v.ring_buffer.length := by
    rw [hlen, hpos]; exact Nat.mod_lt _ (by decide)
  refine ⟨by rw [List.length_set]; exact hlen, ?_, ?_, ?_⟩
  · show (v.rb_pos + 1) % 4096 = (4078 + (out ++ [b]).length) % 4096
    rw [List.length_append, List.length_singleton, hpos]
    omega
  · intro k hk hwin
    rw [List.length_append, List.length_singleton] at hk hwin
    show (v.ring_buffer.set v.rb_pos b).getD ((4078 + k) % 4096) 0 = (out ++ [b]).getD k 0
    rw [getD_set_ring]
    by_cases hkN : k = out.length
    · subst hkN
      rw [if_pos ⟨hpos, hrp⟩, List.getD_append_right _ _ _ _ (Nat.le_refl _), Nat.sub_self]
      rfl
    · have hlt : k < out.length := by omega
      rw [if_neg (by rw [hpos]; intro hc; have := hc.1; omega),
        List.getD_append _ _ _ _ hlt]
      exact hcell k hlt (by omega)
  · intro j hj hno
    show (v.ring_buffer.set v.rb_pos b).getD j 0 = 0
    rw [getD_set_ring]
    have hne : ¬ (v.rb_pos = j ∧ v.rb_pos < v.ring_buffer.length) := by
      intro hc
      have := hno out.length (by rw [List.length_append, List.length_singleton]; omega)
      rw [← hpos] at this
      exact this hc.1
    rw [if_neg hne]
    exact hzero j hj (fun k hk => hno k (by
      rw [List.length_append, List.length_singleton]; omega))

theorem CopyByte_window (v : ExtractVars) (st : IfStream) (out : List Byte)
    (h : Window v out) :
    Window (CopyByte v st buffer_outfunc out).2.1 (CopyByte v st buffer_outfunc out).2.2.2 := by
  rw [CopyByte_eq]
  split
  · exact h
  · split
    · rename_i hne
      exact absurd rfl hne
    · exact Window_push v out _ _ h

theorem CopyRB_loop_window (offset n : Nat) :
    ∀ (i : Nat) (v : ExtractVars) (out : List Byte), Window v out →
      Window (CopyRB_loop buffer_outfunc offset n i v out).2.1
        (CopyRB_loop buffer_outfunc offset n i v out).2.2 := by
  induction n with
  | zero => intro i v out h; exact h
  | succ n ih =>
    intro i v out h
    rw [CopyRB_loop_succ]
    split
    · rename_i hne
      exact absurd rfl hne
    · exact ih _ _ _ (Window_push v out _ _ h)

theorem CopyRB_window (v : ExtractVars) (st : IfStream) (out : List Byte)
    (h : Window v out) :
    Window (CopyRB v st buffer_outfunc out).2.1 (CopyRB v st buffer_outfunc out).2.2.2 := by
  rw [CopyRB_eq]
  split
  · exact h
  · exact CopyRB_loop_window _ _ 0 _ out h

theorem Window_cell (v : ExtractVars) (out : List Byte) (h : Window v out) (j : Nat)
    (hj : j < 4096) :
    v.ring_buffer.getD j 0 = 0 ∨
      ∃ k, k < out.length ∧ out.length ≤ k + 4096 ∧ v.ring_buffer.getD j 0 = out.getD k 0 := by
  obtain ⟨_, _, hcell, hzero⟩ := h
  by_cases hex : ∃ k, k < out.length ∧ out.length ≤ k + 4096 ∧ (4078 + k) % 4096 = j
  · obtain ⟨k, hk, hwin, hkj⟩ := hex
    exact Or.inr ⟨k, hk, hwin, by rw [← hkj]; exact hcell k hk hwin⟩
  · refine Or.inl (hzero j hj (fun k hk hkj => hex ?_))
    refine ⟨k + 4096 * ((out.length - 1 - k) / 4096), ?_, ?_, ?_⟩
    · have := Nat.div_mul_le_self (out.length - 1 - k) 4096
      omega
    · have := Nat.div_add_mod (out.length - 1 - k) 4096
      have := Nat.mod_lt (out.length - 1 - k) (show 0 < 4096 by decide)
      omega
    · rw [← Nat.add_assoc, Nat.add_mul_mod_self_left]
      exact hkj

/-- C19 (sliding window): with the bytes out[0..N) emitted so far into a
buffer, the write cursor is (4078 + N) mod 4096, the cell (4078 + k) mod 4096
holds out[k] for every k with max(0, N - 4096) <= k < N, and every cell not
yet written holds 0.  This holds in the initial state and is kept by a
literal, by every step of a back-reference, by a back-reference, by a group of
tokens and by the whole compressed loop; hence every cell a back-reference can
read holds 0 or one of the last 4096 bytes of the output. -/
theorem sliding_window (m_cmp_size : Int) (fuel : Nat) (stream : IfStream) :
    (∀ v out, Window v out ↔
      (v.ring_buffer.length = 4096 ∧ v.rb_pos = (4078 + out.length) % 4096 ∧
        (∀ k, k < out.length → out.length ≤ k + 4096 →
          v.ring_buffer.getD ((4078 + k) % 4096) 0 = out.getD k 0) ∧
        (∀ j, j < 4096 → (∀ k, k < out.length → (4078 + k) % 4096 ≠ j) →
          v.ring_buffer.getD j 0 = 0))) ∧
    Window ExtractVars.new [] ∧
    (∀ v st out, Window v out →
      Window (CopyByte v st buffer_outfunc out).2.1 (CopyByte v st buffer_outfunc out).2.2.2) ∧
    (∀ offset n i v out, Window v out →
      Window (CopyRB_loop buffer_outfunc offset n i v out).2.1
        (CopyRB_loop buffer_outfunc offset n i v out).2.2) ∧
    (∀ v st out, Window v out →
      Window (CopyRB v st buffer_outfunc out).2.1 (CopyRB v st buffer_outfunc out).2.2.2) ∧
    (∀ type_byte n i v st out, Window v out →
      Window (extract_bits buffer_outfunc m_cmp_size type_byte n i v st out).2.1
        (extract_bits buffer_outfunc m_cmp_size type_byte n i v st out).2.2.2) ∧
    (∀ r, extract_loop buffer_outfunc m_cmp_size fuel ExtractVars.new stream [] = some r →
      Window r.2.1 r.2.2.2) ∧
    (∀ v out, Window v out → ∀ j, j < 4096 →
      v.ring_buffer.getD j 0 = 0 ∨
        ∃ k, k < out.length ∧ out.length ≤ k + 4096 ∧
          v.ring_buffer.getD j 0 = out.getD k 0) := by
  refine ⟨fun v out => Iff.rfl, Window_new, CopyByte_window, CopyRB_loop_window, CopyRB_window,
    ?_, ?_, Window_cell⟩
  · intro type_byte n i v st out h
    exact extract_bits_inv buffer_outfunc m_cmp_size (fun r => Window r.2.1 r.2.2.2)
      CopyByte_window CopyRB_window type_byte n i v st out h
  · intro r hr
    exact (extract_loop_inv buffer_outfunc m_cmp_size (fun r => Window r.2.1 r.2.2.2)
      CopyByte_window CopyRB_window
      (fun v st s h _ => by
        split
        · exact h
        · exact ⟨h.1, h.2.1, h.2.2.1, h.2.2.2⟩)
      fuel _ _ _ r Window_new hr).1

/-! ## Short reads -/

theorem IfStream.read_good (st : IfStream) (n : Nat) (hn : n ≠ 0)
    (h : (st.read n).2.failbit = false) :
    st.failbit = false ∧ st.pos + n ≤ st.data.length ∧
      (st.read n).2 = { st with pos := st.pos + n } ∧
      (st.read n).1 = (st.data.drop st.pos).take n := by
  unfold IfStream.read at h ⊢
  by_cases hf : st.failbit = true
  · rw [if_pos hf] at h
    rw [hf] at h
    exact Bool.noConfusion h
  · have hf' : st.failbit = false := by simpa using hf
    rw [if_neg hf] at h ⊢
    by_cases hle : n = 0 ∨ st.pos + n ≤ st.data.length
    · rw [if_pos hle]
      exact ⟨hf', hle.resolve_left hn, rfl, rfl⟩
    · rw [if_neg hle] at h
      exact Bool.noConfusion h

theorem IfStream.read_short (st : IfStream) (n : Nat) (hn : n ≠ 0)
    (h : st.data.length < st.pos + n) : (st.read n).2.failbit = true := by
  by_cases hf : (st.read n).2.failbit = true
  · exact hf
  · have := (IfStream.read_good st n hn (by simpa using hf)).2.1
    omega

theorem CopyRB_loop_code {σ : Type} (outfunc : Outfunc σ) (hsink : ∀ s d, (outfunc s d).1 = 0)
    (offset n : Nat) :
    ∀ (i : Nat) (v : ExtractVars) (s : σ), (CopyRB_loop outfunc offset n i v s).1 = 0 := by
  induction n with
  | zero => intro i v s; rfl
  | succ n ih =>
    intro i v s
    rw [CopyRB_loop_succ, if_neg (by rw [hsink]; exact fun h => h rfl)]
    exact ih _ _ _

theorem extract_raw_loop_short {σ : Type} (outfunc : Outfunc σ)
    (hsink : ∀ s d, (outfunc s d).1 = 0) (fuel : Nat) :
    ∀ (bytes : Int) (st : IfStream) (s : σ), 0 < bytes → bytes ≤ (fuel : Int) →
      (st.data.length : Int) < (st.pos : Int) + bytes →
      ∃ st1 s1, extract_raw_loop outfunc fuel bytes st s = some (READ_SUBFILE, st1, s1) := by
  induction fuel with
  | zero =>
    intro bytes st s h0 hle _
    simp only [Nat.cast_zero] at hle
    omega
  | succ fuel ih =>
    intro bytes st s h0 hle hshort
    have hchunk : (NSPRE_CHUNK_SIZE : Int) = 1024 := rfl
    rw [extract_raw_loop_succ, if_pos h0]
    by_cases h1 : bytes ≥ (NSPRE_CHUNK_SIZE : Int)
    · rw [if_pos h1]
      by_cases hf : (st.read NSPRE_CHUNK_SIZE).2.fail = true
      · rw [if_pos hf]; exact ⟨_, _, rfl⟩
      · rw [if_neg hf, if_neg (by rw [hsink]; exact fun h => h rfl)]
        obtain ⟨_, hlen, hst, _⟩ := IfStream.read_good st NSPRE_CHUNK_SIZE (by decide)
          (by simpa using hf)
        have hl : st.pos + 1024 ≤ st.data.length := hlen
        apply ih
        · omega
        · push_cast at hle; omega
        · rw [hst]
          show (st.data.length : Int) < ((st.pos + NSPRE_CHUNK_SIZE : Nat) : Int) + _
          push_cast
          omega
    · rw [if_neg h1]
      have hfail : (st.read bytes.toNat).2.fail = true :=
        IfStream.read_short st bytes.toNat (by omega) (by omega)
      rw [if_pos hfail]; exact ⟨_, _, rfl⟩

theorem extract_loop_short {σ : Type} (outfunc : Outfunc σ)
    (hsink : ∀ s d, (outfunc s d).1 = 0) (m_cmp_size off : Int) (data : List Byte)
    (hshort : (data.length : Int) < off + m_cmp_size) (fuel : Nat) (v : ExtractVars)
    (st : IfStream) (s : σ) (r : Int × ExtractVars × IfStream × σ)
    (hd0 : st.data = data) (hp0 : (st.pos : Int) = off + v.in_pos)
    (hlt0 : v.in_pos < m_cmp_size)
    (hr : extract_loop outfunc m_cmp_size fuel v st s = some r) : r.1 = READ_SUBFILE := by
  have hinv := extract_loop_inv outfunc m_cmp_size
    (fun r => (r.1 = 0 → r.2.2.1.data = data ∧ (r.2.2.1.pos : Int) = off + r.2.1.in_pos ∧
        r.2.1.in_pos < m_cmp_size) ∧ (r.1 ≠ 0 → r.1 = READ_SUBFILE))
    (by
      intro v st s h
      have h1 : st.data = data ∧ (st.pos : Int) = off + v.in_pos ∧ v.in_pos < m_cmp_size :=
        h.1 rfl
      obtain ⟨hd, hp, hlt⟩ := h1
      rw [CopyByte_eq]
      by_cases hf : (st.read 1).2.fail = true
      · rw [if_pos hf]
        exact ⟨fun h0 => absurd h0 (show READ_SUBFILE ≠ 0 by decide), fun _ => rfl⟩
      · rw [if_neg hf, if_neg (by rw [hsink]; exact fun h => h rfl)]
        obtain ⟨_, hlen, hst, _⟩ := IfStream.read_good st 1 (by decide) (by simpa using hf)
        refine ⟨fun _ => ?_, fun h0 => absurd rfl h0⟩
        rw [hst]
        refine ⟨hd, ?_, ?_⟩
        · show ((st.pos + 1 : Nat) : Int) = off + (v.in_pos + 1)
          push_cast; omega
        · show v.in_pos + 1 < m_cmp_size
          rw [hd] at hlen
          omega)
    (by
      intro v st s h
      have h1 : st.data = data ∧ (st.pos : Int) = off + v.in_pos ∧ v.in_pos < m_cmp_size :=
        h.1 rfl
      obtain ⟨hd, hp, hlt⟩ := h1
      rw [CopyRB_eq]
      by_cases hf : (st.read 2).2.fail = true
      · rw [if_pos hf]
        exact ⟨fun h0 => absurd h0 (show READ_SUBFILE ≠ 0 by decide), fun _ => rfl⟩
      · rw [if_neg hf]
        obtain ⟨_, hlen, hst, _⟩ := IfStream.read_good st 2 (by decide) (by simpa using hf)
        refine ⟨fun _ => ?_, fun h0 => absurd (CopyRB_loop_code outfunc hsink _ _ _ _ _) h0⟩
        rw [hst]
        refine ⟨hd, ?_, ?_⟩
        · show ((st.pos + 2 : Nat) : Int) = off + (CopyRB_loop outfunc _ _ 0
            { v with in_pos := v.in_pos + 2 } s).2.1.in_pos
          rw [CopyRB_loop_in_pos]
          show ((st.pos + 2 : Nat) : Int) = off + (v.in_pos + 2)
          push_cast; omega
        · show (CopyRB_loop outfunc _ _ 0 { v with in_pos := v.in_pos + 2 } s).2.1.in_pos <
            m_cmp_size
          rw [CopyRB_loop_in_pos]
          show v.in_pos + 2 < m_cmp_size
          rw [hd] at hlen
          omega)
    (by
      intro v st s h _
      have h1 : st.data = data ∧ (st.pos : Int) = off + v.in_pos ∧ v.in_pos < m_cmp_size :=
        h.1 rfl
      obtain ⟨hd, hp, hlt⟩ := h1
      by_cases hf : (st.read 1).2.fail = true
      · rw [if_pos hf]
        exact ⟨fun h0 => absurd h0 (show READ_SUBFILE ≠ 0 by decide), fun _ => rfl⟩
      · rw [if_neg hf]
        obtain ⟨_, hlen, hst, _⟩ := IfStream.read_good st 1 (by decide) (by simpa using hf)
        refine ⟨fun _ => ?_, fun h0 => absurd rfl h0⟩
        rw [hst]
        refine ⟨hd, ?_, ?_⟩
        · show ((st.pos + 1 : Nat) : Int) = off + (v.in_pos + 1)
          push_cast; omega
        · show v.in_pos + 1 < m_cmp_size
          rw [hd] at hlen
          omega)
    fuel v st s r ⟨fun _ => ⟨hd0, hp0, hlt0⟩, fun h0 => absurd rfl h0⟩ hr
  by_cases hc : r.1 = 0
  · exact absurd (hinv.1.1 hc).2.2 (hinv.2 hc)
  · exact hinv.1.2 hc

/-- C17 (no silent truncation): with a sink that always succeeds, extraction
from an open stream that holds fewer than uncompressed_size bytes from
payload_offset (raw record, uncompressed_size > 0), or fewer than
compressed_size bytes from payload_offset (compressed record,
compressed_size > 0), returns READ_SUBFILE (256), which is not NO_ERROR. -/
theorem short_read_is_error {σ : Type} (f : Reader.Subfile) (stream : IfStream)
    (outfunc : Outfunc σ) (snk : σ) (hopen : stream.is_open = true)
    (hsink : ∀ s d, (outfunc s d).1 = 0)
    (hshort : (f.m_cmp_size = 0 ∧ 0 < f.m_size ∧
        (stream.data.length : Int) - f.m_offset < f.m_size) ∨
      (0 < f.m_cmp_size ∧ (stream.data.length : Int) - f.m_offset < f.m_cmp_size)) :
    ∃ stream1 snk1, extract f stream outfunc snk = some (READ_SUBFILE, stream1, snk1) ∧
      READ_SUBFILE = 256 ∧ READ_SUBFILE ≠ NO_ERROR := by
  by_cases hs : (stream.seekg f.m_offset).failbit = true
  · exact ⟨_, _, extract_seek_fail f stream outfunc snk hopen hs, rfl, by decide⟩
  · have hs' : (stream.seekg f.m_offset).failbit = false := by simpa using hs
    have hseek : stream.failbit = false ∧ 0 ≤ f.m_offset ∧
        stream.seekg f.m_offset = { stream with pos := f.m_offset.toNat } := by
      unfold IfStream.seekg at hs' ⊢
      by_cases hf : stream.failbit = true
      · rw [if_pos hf, hf] at hs'; exact Bool.noConfusion hs'
      · rw [if_neg hf] at hs' ⊢
        by_cases hn : f.m_offset < 0
        · rw [if_pos hn] at hs'; exact Bool.noConfusion hs'
        · rw [if_neg hn]; exact ⟨by simpa using hf, by omega, rfl⟩
    obtain ⟨_, hoff, hst⟩ := hseek
    rcases hshort with ⟨hc, hsz, hlen⟩ | ⟨hc, hlen⟩
    · rw [extract_raw f stream outfunc snk hopen hs' hc]
      obtain ⟨st1, s1, h⟩ := extract_raw_loop_short outfunc hsink f.m_size.toNat f.m_size
        (stream.seekg f.m_offset) snk hsz (Int.self_le_toNat _) (by
          rw [hst]
          show (stream.data.length : Int) < ((f.m_offset.toNat : Nat) : Int) + f.m_size
          rw [Int.toNat_of_nonneg hoff]; omega)
      exact ⟨st1, s1, h, rfl, by decide⟩
    · obtain ⟨r, hr⟩ := extract_loop_total outfunc f.m_cmp_size f.m_cmp_size.toNat
        ExtractVars.new (stream.seekg f.m_offset) snk (by
          have h0 : ExtractVars.new.in_pos = 0 := rfl
          rw [h0]
          have := Int.self_le_toNat f.m_cmp_size
          omega)
      have hcode := extract_loop_short outfunc hsink f.m_cmp_size f.m_offset stream.data
        (by omega) f.m_cmp_size.toNat ExtractVars.new (stream.seekg f.m_offset) snk r
        (by rw [hst]) (by
          rw [hst]
          show ((f.m_offset.toNat : Nat) : Int) = f.m_offset + 0
          rw [Int.toNat_of_nonneg hoff]; omega) hc hr
      rw [extract_compressed f stream outfunc snk hopen hs' (by omega) r hr, hcode]
      exact ⟨_, _, rfl, rfl, by decide⟩

theorem short_read_is_error_witness :
    ∃ stream1 snk1,
      extract ⟨[], [], 0, 5, 0⟩ ⟨[1, 2, 3], 0, true, false⟩ buffer_outfunc [] =
        some (READ_SUBFILE, stream1, snk1) ∧ READ_SUBFILE = 256 ∧ READ_SUBFILE ≠ NO_ERROR :=
  short_read_is_error ⟨[], [], 0, 5, 0⟩ ⟨[1, 2, 3], 0, true, false⟩ buffer_outfunc [] rfl
    (fun _ _ => rfl) (Or.inl ⟨rfl, by decide, by decide⟩)

/-! ## Raw extraction, chunk by chunk -/

theorem extract_raw_loop_chunks {σ : Type} (outfunc : Outfunc σ)
    (hsink : ∀ s d, (outfunc s d).1 = 0) (fuel : Nat) :
    ∀ (size : Nat) (data : List Byte) (off : Nat) (o : Bool) (s : σ)
      (log : List (List Byte × Int)),
      size ≤ fuel → off + size ≤ data.length →
      ∃ s1 log1,
        extract_raw_loop (logged outfunc) fuel (size : Int) ⟨data, off, o, false⟩ (s, log) =
          some (NO_ERROR, ⟨data, off + size, o, false⟩, (s1, log ++ log1)) ∧
        (∀ e ∈ log1, 1 ≤ e.1.length ∧ e.1.length ≤ 1024 ∧ e.2 = 0) ∧
        (log1.map Prod.fst).flatten = (data.drop off).take size ∧
        (size = 0 → log1 = []) := by
  induction fuel with
  | zero =>
    intro size data off o s log hs _
    have : size = 0 := by omega
    subst this
    exact ⟨s, [], by simp [extract_raw_loop_zero], by simp, by simp, fun _ => rfl⟩
  | succ fuel ih =>
    intro size data off o s log hs hlen
    rw [extract_raw_loop_succ]
    by_cases h0 : (size : Int) > 0
    · rw [if_pos h0]
      by_cases h1 : (size : Int) ≥ (NSPRE_CHUNK_SIZE : Int)
      · have h1' : 1024 ≤ size := by
          have : ((1024 : Nat) : Int) ≤ (size : Int) := h1
          omega
        obtain ⟨hr1, hr2⟩ := IfStream.read_ok_fst ⟨data, off, o, false⟩ NSPRE_CHUNK_SIZE rfl
          (by show off + 1024 ≤ data.length; omega)
        rw [if_pos h1, hr1, hr2]
        have hsub : (size : Int) - (NSPRE_CHUNK_SIZE : Int) = ((size - 1024 : Nat) : Int) := by
          show (size : Int) - ((1024 : Nat) : Int) = _
          omega
        have hz : (logged outfunc (s, log) ((data.drop off).take NSPRE_CHUNK_SIZE)).1 = 0 :=
          hsink _ _
        rw [if_neg Bool.false_ne_true, if_neg (fun h => h hz), hsub]
        obtain ⟨s1, log1, he, hch, hcat, _⟩ := ih (size - 1024) data (off + NSPRE_CHUNK_SIZE) o
          (outfunc s ((data.drop off).take NSPRE_CHUNK_SIZE)).2
          (log ++ [((data.drop off).take NSPRE_CHUNK_SIZE,
            (outfunc s ((data.drop off).take NSPRE_CHUNK_SIZE)).1)]) (by omega)
          (by show off + 1024 + (size - 1024) ≤ data.length; omega)
        have hpos : off + NSPRE_CHUNK_SIZE + (size - 1024) = off + size := by
          show off + 1024 + (size - 1024) = off + size; omega
        have htk : (data.drop off).take NSPRE_CHUNK_SIZE ++
            (data.drop (off + NSPRE_CHUNK_SIZE)).take (size - 1024) =
            (data.drop off).take size := by
          show (data.drop off).take 1024 ++ (data.drop (off + 1024)).take (size - 1024) = _
          rw [← List.drop_drop, ← List.take_add, show 1024 + (size - 1024) = size by omega]
        have hl : ((data.drop off).take NSPRE_CHUNK_SIZE).length = 1024 := by
          rw [List.length_take, List.length_drop]
          show min 1024 (data.length - off) = 1024
          omega
        refine ⟨s1, ((data.drop off).take NSPRE_CHUNK_SIZE,
            (outfunc s ((data.drop off).take NSPRE_CHUNK_SIZE)).1) :: log1, ?_, ?_, ?_, ?_⟩
        · rw [hpos, List.append_assoc] at he
          exact he
        · intro e hmem
          rcases List.mem_cons.mp hmem with h | h
          · subst h
            exact ⟨by show 1 ≤ ((data.drop off).take NSPRE_CHUNK_SIZE).length; omega,
              by show ((data.drop off).take NSPRE_CHUNK_SIZE).length ≤ 1024; omega, hsink _ _⟩
          · exact hch e h
        · rw [List.map_cons, List.flatten_cons, hcat]
          exact htk
        · intro h; omega
      · have h1' : size < 1024 := by
          have : ¬ ((1024 : Nat) : Int) ≤ (size : Int) := h1
          omega
        obtain ⟨hr1, hr2⟩ := IfStream.read_ok_fst ⟨data, off, o, false⟩ size rfl hlen
        rw [if_neg h1, Int.toNat_ofNat, hr1, hr2]
        have hz : (logged outfunc (s, log) ((data.drop off).take size)).1 = 0 := hsink _ _
        rw [if_neg Bool.false_ne_true, if_neg (fun h => h hz)]
        refine ⟨(outfunc s ((data.drop off).take size)).2,
          [((data.drop off).take size, (outfunc s ((data.drop off).take size)).1)], rfl, ?_, ?_, ?_⟩
        · intro e he
          rw [List.mem_singleton] at he
          subst he
          have hl : ((data.drop off).take size).length = size := by
            rw [List.length_take, List.length_drop]; omega
          exact ⟨by show 1 ≤ ((data.drop off).take size).length; omega,
            by show ((data.drop off).take size).length ≤ 1024; omega, hsink _ _⟩
        · simp
        · intro h; omega
    · have : size = 0 := by omega
      subst this
      rw [if_neg h0]
      exact ⟨s, [], by simp [NO_ERROR], by simp, by simp, fun _ => rfl⟩

/-- C16 (raw-mode extraction): for a record with compressed_size == 0 and
0 <= uncompressed_size, read from an open stream in good state that holds at
least payload_offset + uncompressed_size bytes, with a sink that always
returns 0: extract returns NO_ERROR, every chunk passed to the sink has a
length from 1 to 1024, the chunks put together are exactly the
uncompressed_size bytes of the source starting at payload_offset, and the sink
is not called at all when uncompressed_size is 0. -/
theorem raw_extraction {σ : Type} (f : Reader.Subfile) (stream : IfStream)
    (outfunc : Outfunc σ) (s0 : σ) (hc : f.m_cmp_size = 0) (hsz : 0 ≤ f.m_size)
    (hoff : 0 ≤ f.m_offset) (hlen : f.m_offset + f.m_size ≤ (stream.data.length : Int))
    (hopen : stream.is_open = true) (hgood : stream.failbit = false)
    (hsink : ∀ s d, (outfunc s d).1 = 0) :
    ∃ stream1 s1 log,
      extract f stream (logged outfunc) (s0, []) = some (NO_ERROR, stream1, (s1, log)) ∧
      extract f stream outfunc s0 = some (NO_ERROR, stream1, s1) ∧
      (∀ e ∈ log, 1 ≤ e.1.length ∧ e.1.length ≤ 1024 ∧ e.2 = 0) ∧
      (log.map Prod.fst).flatten =
        (stream.data.drop f.m_offset.toNat).take f.m_size.toNat ∧
      (f.m_size = 0 → log = []) := by
  obtain ⟨data, pos, is_open, failbit⟩ := stream
  simp only at hopen hgood hlen
  subst hopen hgood
  have hseek : IfStream.seekg ⟨data, pos, true, false⟩ f.m_offset =
      ⟨data, f.m_offset.toNat, true, false⟩ := by
    unfold IfStream.seekg
    rw [if_neg Bool.false_ne_true, if_neg (by omega)]
  obtain ⟨s1, log1, he, hch, hcat, hzero⟩ := extract_raw_loop_chunks outfunc hsink f.m_size.toNat
    f.m_size.toNat data f.m_offset.toNat true s0 [] (Nat.le_refl _) (by omega)
  rw [Int.toNat_of_nonneg hsz, List.nil_append] at he
  have hlog : extract f ⟨data, pos, true, false⟩ (logged outfunc) (s0, []) =
      some (NO_ERROR, ⟨data, f.m_offset.toNat + f.m_size.toNat, true, false⟩, (s1, log1)) := by
    rw [extract_raw f _ (logged outfunc) (s0, []) rfl (by rw [hseek]) hc, hseek]
    exact he
  have hsim := extract_logged f ⟨data, pos, true, false⟩ outfunc (s0, [])
  rw [hlog] at hsim
  exact ⟨_, s1, log1, hlog, hsim.symm, hch, hcat, fun h => hzero (by omega)⟩

theorem raw_extraction_witness :
    ∃ stream1 s1 log,
      extract ⟨[], [], 0, 3, 1⟩ ⟨[9, 1, 2, 3, 7], 0, true, false⟩ (logged buffer_outfunc)
        ([], []) = some (NO_ERROR, stream1, (s1, log)) ∧
      extract ⟨[], [], 0, 3, 1⟩ ⟨[9, 1, 2, 3, 7], 0, true, false⟩ buffer_outfunc [] =
        some (NO_ERROR, stream1, s1) ∧
      (∀ e ∈ log, 1 ≤ e.1.length ∧ e.1.length ≤ 1024 ∧ e.2 = 0) ∧
      (log.map Prod.fst).flatten = [1, 2, 3] ∧
      ((3 : Int) = 0 → log = []) :=
  raw_extraction ⟨[], [], 0, 3, 1⟩ ⟨[9, 1, 2, 3, 7], 0, true, false⟩ buffer_outfunc []
    rfl (by decide) (by decide) (by decide) rfl rfl (fun _ _ => rfl)

/-- C20 (stop-early rule, failing input): an archive with one record of
compressed_size 1 whose single compressed byte, at payload_offset 28, is the
type byte FF, followed by the padding bytes 41 00 00.  The reader opens it
with error() == 0; the decoder reads the type byte, the counter reaches
compressed_size, and the first token is read all the same: the byte 41 at
payload_offset + compressed_size is read and emitted as a literal, and extract
returns NO_ERROR with the stream at position 30. -/
theorem stop_early_type_byte_last :
    ∃ (r : Reader) (f : Reader.Subfile),
      Reader.new (some type_byte_last_archive) = some r ∧
      r.error = 0 ∧ r.files = [f] ∧ f.cmp_size = 1 ∧ f.offset = 28 ∧
      extract_to_buffer f r.stream =
        some (NO_ERROR, ⟨type_byte_last_archive, 30, true, false⟩, [0x41]) := by
  refine ⟨⟨⟨type_byte_last_archive, 32, true, false⟩,
    [⟨[], [4, 0, 0, 0, 1, 0, 0, 0, 0, 0, 0, 0, 0, 0, 0, 0], 1, 4, 28⟩],
    [32, 0, 0, 0, 3, 0, 0xcd, 0xab, 1, 0, 0, 0], 32, 0⟩,
    ⟨[], [4, 0, 0, 0, 1, 0, 0, 0, 0, 0, 0, 0, 0, 0, 0, 0], 1, 4, 28⟩, ?_, rfl, rfl, rfl, rfl, ?_⟩
  · with_unfolding_all decide
  · with_unfolding_all decide

/-! ## The reader on any well-formed archive -/

theorem RawBlock.bytes_length (b : RawBlock) :
    b.bytes.length = b.subheader.length + b.path.length + b.payload.length + b.padding.length := by
  simp only [RawBlock.bytes, List.length_append]

theorem span_skip (c : Nat) (h : c + (if c % 4 = 0 then 0 else 4 - c % 4) < 2147483648) :
    toInt32 ((c : Int) + (if Int.tmod (c : Int) 4 ≠ 0 then 4 - Int.tmod (c : Int) 4 else 0)) =
      ((c + (if c % 4 = 0 then 0 else 4 - c % 4) : Nat) : Int) := by
  have ht : Int.tmod (c : Int) 4 = (c : Int) % 4 :=
    Int.tmod_eq_emod (Int.ofNat_nonneg _) (by decide)
  rw [ht]
  unfold toInt32
  split at h <;> split <;> omega

theorem Reader_loop_raw (bs : List RawBlock) :
    ∀ (pre : List Byte) (m_files : List Reader.Subfile),
      (∀ b ∈ bs, b.wf ∧ b.payload_span + b.pad < 2147483648) →
      Reader_loop bs.length
          ⟨pre ++ (bs.map RawBlock.bytes).flatten, pre.length, true, false⟩ m_files =
        some (⟨pre ++ (bs.map RawBlock.bytes).flatten,
          (pre ++ (bs.map RawBlock.bytes).flatten).length, true, false⟩,
          m_files ++ raw_records pre.length bs, 0) := by
  induction bs with
  | nil =>
    intro pre m_files _
    simp [Reader_loop_zero, raw_records]
  | cons b rest ih =>
    intro pre m_files hb
    obtain ⟨⟨h16, hpl, hdl, hpad, hsz, hcmp, hps⟩, hsum⟩ := hb b (List.mem_cons_self _ _)
    have fpl : Read32LE_int (b.subheader.drop 8) = (b.path.length : Int) := by
      rw [Read32LE_int, show Read32LE (b.subheader.drop 8) = b.path_size from rfl,
        toInt32_of_lt _ hps, hpl]
    have fsz : Read32LE_int b.subheader = (b.size : Int) := by
      rw [Read32LE_int, show Read32LE b.subheader = b.size from rfl, toInt32_of_lt _ hsz]
    have fcmp : Read32LE_int (b.subheader.drop 4) = (b.cmp_size : Int) := by
      rw [Read32LE_int, show Read32LE (b.subheader.drop 4) = b.cmp_size from rfl,
        toInt32_of_lt _ hcmp]
    have hd : pre ++ ((b :: rest).map RawBlock.bytes).flatten =
        pre ++ b.bytes ++ (rest.map RawBlock.bytes).flatten := by simp
    have hbl := RawBlock.bytes_length b
    have r1 : IfStream.read
        ⟨pre ++ b.bytes ++ (rest.map RawBlock.bytes).flatten, pre.length, true, false⟩
        16 = (b.subheader,
          ⟨pre ++ b.bytes ++ (rest.map RawBlock.bytes).flatten, pre.length + 16, true, false⟩) := by
      have := IfStream.read_mid pre b.bytes ((rest.map RawBlock.bytes).flatten) true 0 16
        (by omega)
      have htake : b.bytes.take 16 = b.subheader := by
        simp only [RawBlock.bytes, List.append_assoc]
        rw [← h16, List.take_left]
      rw [Nat.add_zero, List.drop_zero, htake] at this
      exact this
    have r2 : IfStream.read
        ⟨pre ++ b.bytes ++ (rest.map RawBlock.bytes).flatten, pre.length + 16, true, false⟩
        (Read32LE_int (b.subheader.drop 8)).toNat = (b.path,
          ⟨pre ++ b.bytes ++ (rest.map RawBlock.bytes).flatten,
            pre.length + 16 + b.path.length, true, false⟩) := by
      rw [fpl, Int.toNat_ofNat]
      have := IfStream.read_mid pre b.bytes ((rest.map RawBlock.bytes).flatten) true 16
        b.path.length (by omega)
      rw [this]
      have hdrop : b.bytes.drop 16 = b.path ++ (b.payload ++ b.padding) := by
        simp only [RawBlock.bytes, List.append_assoc]
        rw [← h16, List.drop_left]
      rw [hdrop, List.take_left]
    have hstep := Reader_loop_step rest.length _ m_files _ _ _ _ r1 rfl
      (by rw [fpl]; omega) r2 rfl
    rw [List.length_cons, hd, hstep]
    have hnew : (Reader.Subfile.new b.subheader b.path
        (toInt32 (IfStream.tellg ⟨pre ++ b.bytes ++ (rest.map RawBlock.bytes).flatten,
            pre.length + 16 + b.path.length, true, false⟩))) =
        Reader.Subfile.new b.subheader b.path
          (toInt32 ((pre.length + 16 + b.path.length : Nat) : Int)) := rfl
    rw [hnew]
    rw [Reader.Subfile.new_cmp_size, Reader.Subfile.new_size, fcmp, fsz]
    have hspan : (if (b.cmp_size : Int) ≠ 0 then (b.cmp_size : Int) else (b.size : Int)) =
        ((b.payload_span : Nat) : Int) := by
      unfold RawBlock.payload_span
      by_cases h0 : b.cmp_size = 0
      · rw [h0]; simp
      · rw [if_pos h0, if_pos (by exact_mod_cast h0)]
    rw [hspan, span_skip b.payload_span hsum]
    have hpad' : (if b.payload_span % 4 = 0 then 0 else 4 - b.payload_span % 4) = b.pad := rfl
    rw [hpad']
    have hig : IfStream.ignore
        ⟨pre ++ b.bytes ++ (rest.map RawBlock.bytes).flatten,
          pre.length + 16 + b.path.length, true, false⟩
        ((b.payload_span + b.pad : Nat) : Int) =
        ⟨pre ++ b.bytes ++ (rest.map RawBlock.bytes).flatten, (pre ++ b.bytes).length,
          true, false⟩ := by
      simp only [IfStream.ignore, Bool.false_eq_true, if_false, Int.toNat_ofNat,
        List.length_append]
      split
      · rw [IfStream.mk.injEq]
        exact ⟨rfl, by omega, rfl, rfl⟩
      · rw [IfStream.mk.injEq]
        exact ⟨rfl, by omega, rfl, rfl⟩
    rw [hig, ih (pre ++ b.bytes) _ (fun b' hm => hb b' (List.mem_cons_of_mem _ hm))]
    simp [raw_records, List.append_assoc]

theorem raw_records_length (bs : List RawBlock) :
    ∀ base, (raw_records base bs).length = bs.length := by
  induction bs with
  | nil => intro base; rfl
  | cons b rest ih => intro base; simp [raw_records, ih]

theorem raw_records_get (bs : List RawBlock) :
    ∀ (base i : Nat) (b : RawBlock), bs[i]? = some b →
      (raw_records base bs)[i]? = some (Reader.Subfile.new b.subheader b.path
        (toInt32 ((base + ((bs.take i).map (fun b => b.bytes.length)).sum + 16 +
          b.path.length : Nat) : Int))) := by
  induction bs with
  | nil => intro base i b hi; simp at hi
  | cons b0 rest ih =>
    intro base i b hi
    cases i with
    | zero =>
      simp only [List.getElem?_cons_zero, Option.some.injEq] at hi
      subst hi
      simp [raw_records]
    | succ i =>
      rw [List.getElem?_cons_succ] at hi
      simp only [raw_records, List.getElem?_cons_succ, List.take_succ_cons, List.map_cons,
        List.sum_cons]
      rw [ih (base + b0.bytes.length) i b hi, Nat.add_assoc base]

theorem raw_block_le_flatten (bs : List RawBlock) :
    ∀ (i : Nat) (b : RawBlock), bs[i]? = some b →
      ((bs.take i).map (fun b => b.bytes.length)).sum + b.bytes.length ≤
        ((bs.map RawBlock.bytes).flatten).length := by
  induction bs with
  | nil => intro i b hi; simp at hi
  | cons b0 rest ih =>
    intro i b hi
    simp only [List.map_cons, List.flatten_cons, List.length_append]
    cases i with
    | zero =>
      simp only [List.getElem?_cons_zero, Option.some.injEq] at hi
      subst hi
      simp
    | succ i =>
      rw [List.getElem?_cons_succ] at hi
      have := ih i b hi
      simp only [List.take_succ_cons, List.map_cons, List.sum_cons]
      omega

theorem raw_count_le_flatten (bs : List RawBlock) (h : ∀ b ∈ bs, b.wf) :
    bs.length ≤ ((bs.map RawBlock.bytes).flatten).length := by
  induction bs with
  | nil => simp
  | cons b rest ih =>
    have hb := (h b (List.mem_cons_self _ _)).1
    have := ih (fun b' hm => h b' (List.mem_cons_of_mem _ hm))
    have hl := RawBlock.bytes_length b
    simp only [List.map_cons, List.flatten_cons, List.length_append, List.length_cons]
    omega

theorem raw_offset_of_get (bs : List RawBlock) (i : Nat) (b : RawBlock) (h : bs[i]? = some b) :
    raw_offset bs i =
      12 + ((bs.take i).map (fun b => b.bytes.length)).sum + 16 + b.path.length := by
  unfold raw_offset
  rw [List.getD_eq_getElem?_getD, h]
  rfl

/-- The reader on a header followed by well-formed blocks none of which has a
payload span that overflows with its padding. -/
theorem Reader_new_raw (header : List Byte) (blocks : List RawBlock)
    (hh : header.length = 12) (hcount : Read32LE (header.drop 8) = blocks.length)
    (hn : blocks.length < 2147483648)
    (hwf : ∀ b ∈ blocks, b.wf ∧ b.payload_span + b.pad < 2147483648) :
    Reader.new (some (raw_archive header blocks)) =
      some ⟨⟨raw_archive header blocks, (raw_archive header blocks).length, true, false⟩,
        raw_records 12 blocks, header, Read32LE_int header, 0⟩ := by
  have h1 : IfStream.read ⟨raw_archive header blocks, 0, true, false⟩ 12 =
      (header, ⟨raw_archive header blocks, 12, true, false⟩) := by
    rw [IfStream.read_ok _ _ rfl (by
      show 0 + 12 ≤ (raw_archive header blocks).length
      unfold raw_archive
      rw [List.length_append, hh]; omega)]
    have ht : (raw_archive header blocks).take 12 = header := by
      unfold raw_archive
      rw [← hh, List.take_left]
    show ((List.drop 0 (raw_archive header blocks)).take 12,
      (⟨raw_archive header blocks, 0 + 12, true, false⟩ : IfStream)) = _
    rw [List.drop_zero, ht]
  have hcnt : (Read32LE_int (header.drop 8)).toNat = blocks.length := by
    rw [Read32LE_int, hcount, toInt32_of_lt _ hn, Int.toNat_ofNat]
  have hloop := Reader_loop_raw blocks header [] hwf
  rw [hh, List.nil_append] at hloop
  exact Reader_new_of_loop _ _ ⟨_, 0, true, false⟩ ⟨_, 12, true, false⟩ _ _ _ rfl rfl h1 rfl
    (by rw [hcnt]; exact hloop)

theorem RawBlock.payload_mk (a b c d : List Byte) : (RawBlock.mk a b c d).payload = c := rfl

theorem big_blocks_wf : ∀ b ∈ big_blocks, b.wf ∧ b.payload_span + b.pad < 2147483648 := by
  intro b hm
  simp only [big_blocks, List.mem_cons, List.mem_singleton, List.not_mem_nil, or_false] at hm
  rcases hm with h | h <;> subst h
  · refine ⟨⟨rfl, rfl, ?_, rfl, by decide, by decide, by decide⟩, by decide⟩
    rw [RawBlock.payload_mk, big_payload_length]
    decide
  · exact ⟨⟨rfl, rfl, by decide, by decide, by decide, by decide, by decide⟩, by decide⟩

theorem raw_sum_take_one (a b : RawBlock) :
    (([a, b].take 1).map (fun b => b.bytes.length)).sum = a.bytes.length := by
  simp

theorem big_blocks_offset : raw_offset big_blocks 1 = 2147483688 := by
  rw [raw_offset_of_get big_blocks 1 ⟨[1, 0, 0, 0, 0, 0, 0, 0, 0, 0, 0, 0, 0, 0, 0, 0], [], [7],
    [0, 0, 0]⟩ rfl]
  have h0 : (RawBlock.bytes ⟨[0xfc, 0xff, 0xff, 0x7f, 0, 0, 0, 0, 0, 0, 0, 0, 0, 0, 0, 0], [],
      big_payload, []⟩).length = 2147483660 := by
    rw [RawBlock.bytes_length, RawBlock.payload_mk, big_payload_length]
    simp
  have h1 : ((big_blocks.take 1).map (fun b => b.bytes.length)).sum =
      (RawBlock.bytes ⟨[0xfc, 0xff, 0xff, 0x7f, 0, 0, 0, 0, 0, 0, 0, 0, 0, 0, 0, 0], [],
        big_payload, []⟩).length := raw_sum_take_one _ _
  rw [h1, h0]
  simp

/-- C12, as stated, fails: a header with count 2 followed by two blocks whose
size fields are all below 2^31 (payloads of 2^31 - 4 bytes and of 1 byte).
Open succeeds with error() == 0, but the second block lies beyond offset 2^31:
the absolute position just after its path bytes is 2147483688, and offset()
of its record is -2147483608. -/
theorem reader_parse_layout_large_archive :
    (∀ b ∈ big_blocks, b.wf) ∧
    Read32LE (([0, 0, 0, 0, 3, 0, 0xcd, 0xab, 2, 0, 0, 0] : List Byte).drop 8) =
      big_blocks.length ∧
    ∃ (r : Reader) (f : Reader.Subfile),
      Reader.new (some (raw_archive [0, 0, 0, 0, 3, 0, 0xcd, 0xab, 2, 0, 0, 0] big_blocks)) =
        some r ∧
      r.error = 0 ∧ r.files[1]? = some f ∧ raw_offset big_blocks 1 = 2147483688 ∧
      f.offset = -2147483608 ∧ f.offset ≠ (raw_offset big_blocks 1 : Int) := by
  have hrec := raw_records_get big_blocks 12 1
    ⟨[1, 0, 0, 0, 0, 0, 0, 0, 0, 0, 0, 0, 0, 0, 0, 0], [], [7], [0, 0, 0]⟩ rfl
  have hoff := raw_offset_of_get big_blocks 1
    ⟨[1, 0, 0, 0, 0, 0, 0, 0, 0, 0, 0, 0, 0, 0, 0, 0], [], [7], [0, 0, 0]⟩ rfl
  rw [← hoff, big_blocks_offset] at hrec
  have hwrap : toInt32 ((2147483688 : Nat) : Int) = -2147483608 := by
    unfold toInt32; decide
  rw [hwrap] at hrec
  refine ⟨fun b hb => (big_blocks_wf b hb).1, by decide, _, _,
    Reader_new_raw _ big_blocks rfl (by decide) (by decide) big_blocks_wf, rfl, hrec,
    big_blocks_offset, rfl, ?_⟩
  rw [big_blocks_offset]
  decide

/-! ## The size fields and the decoder -/

/-- In compressed mode `extract` does not look at `m_size`, `m_prepath` or
`m_subheader`: two records with the same nonzero `m_cmp_size` and the same
`m_offset` are extracted alike. -/
theorem extract_compressed_congr {σ : Type} (f g : Reader.Subfile) (stream : IfStream)
    (outfunc : Outfunc σ) (snk : σ) (hc : f.m_cmp_size = g.m_cmp_size)
    (hnz : f.m_cmp_size ≠ 0) (ho : f.m_offset = g.m_offset) :
    extract f stream outfunc snk = extract g stream outfunc snk := by
  have hnz' : g.m_cmp_size ≠ 0 := by rw [← hc]; exact hnz
  by_cases hopen : stream.is_open = true
  · by_cases hs : (stream.seekg f.m_offset).failbit = true
    · rw [extract_seek_fail f stream outfunc snk hopen hs,
        extract_seek_fail g stream outfunc snk hopen (by rw [← ho]; exact hs), ho]
    · have hs' : (stream.seekg f.m_offset).failbit = false := by simpa using hs
      obtain ⟨r, hr⟩ := extract_loop_total outfunc f.m_cmp_size f.m_cmp_size.toNat
        ExtractVars.new (stream.seekg f.m_offset) snk (by
          have h0 : ExtractVars.new.in_pos = 0 := rfl
          rw [h0]
          have := Int.self_le_toNat f.m_cmp_size
          omega)
      rw [extract_compressed f stream outfunc snk hopen hs' hnz r hr,
        extract_compressed g stream outfunc snk hopen (by rw [← ho]; exact hs') hnz' r
          (by rw [← hc, ← ho]; exact hr)]
  · have hopen' : stream.is_open = false := by simpa using hopen
    rw [extract_closed f stream outfunc snk hopen', extract_closed g stream outfunc snk hopen']

/-- C24 (stored sizes are not verified): two records with the same nonzero
compressed_size and the same payload_offset, read from the same byte source
with the same sink, give the same result of extract (the code returned, the
stream and the sink afterwards, hence the bytes emitted), whatever their
uncompressed_size fields are; and the number of bytes emitted need not be
uncompressed_size: the compressed bytes 01 41 decode to the one byte 41 under
a record whose uncompressed_size is 7. -/
theorem sizes_not_verified {σ : Type} (f g : Reader.Subfile) (stream : IfStream)
    (outfunc : Outfunc σ) (snk : σ) (hc : f.m_cmp_size = g.m_cmp_size)
    (hnz : f.m_cmp_size ≠ 0) (ho : f.m_offset = g.m_offset) :
    extract f stream outfunc snk = extract g stream outfunc snk ∧
    extract f stream (logged outfunc) (snk, []) = extract g stream (logged outfunc) (snk, []) ∧
    extract_to_buffer ⟨[], [], 2, 7, 0⟩ ⟨[0x01, 0x41], 0, true, false⟩ =
      some (NO_ERROR, ⟨[0x01, 0x41], 2, true, false⟩, [0x41]) :=
  ⟨extract_compressed_congr f g stream outfunc snk hc hnz ho,
    extract_compressed_congr f g stream (logged outfunc) (snk, []) hc hnz ho,
    by with_unfolding_all decide⟩

theorem sizes_not_verified_witness :
    extract (⟨[], [], 2, 7, 0⟩ : Reader.Subfile) ⟨[0x01, 0x41], 0, true, false⟩ buffer_outfunc [] =
      extract (⟨[], [], 2, 1, 0⟩ : Reader.Subfile) ⟨[0x01, 0x41], 0, true, false⟩
        buffer_outfunc [] :=
  (sizes_not_verified ⟨[], [], 2, 7, 0⟩ ⟨[], [], 2, 1, 0⟩ ⟨[0x01, 0x41], 0, true, false⟩
    buffer_outfunc [] rfl (by decide) rfl).1

/-! ## The stored path -/

theorem getLast?_append_replicate_zero (p : List Byte) (n : Nat) (hn : 0 < n) :
    (p ++ List.replicate n (0 : Byte)).getLast? = some 0 := by
  obtain ⟨m, rfl⟩ : ∃ m, n = m + 1 := ⟨n - 1, by omega⟩
  rw [List.replicate_succ', ← List.append_assoc, List.getLast?_append]
  rfl

/-- C23 (path padding is strict): in an archive produced by write, the path
bytes stored for a subfile with an internal path of L bytes are the path with
every forward slash replaced by a backslash, followed by exactly 4 - (L mod 4)
zero bytes, between 1 and 4 of them (4 when L is a multiple of 4); the number
of path bytes stored is the least multiple of 4 strictly greater than L, the
path_byte_length field holds it (modulo 2^32), and the last stored path byte
is 0. -/
theorem write_path_padding (subfiles : List Subfile) (writable : Bool)
    (hok : (write subfiles writable).1 = NO_ERROR) (i : Nat) (hi : i < subfiles.length) :
    ((write subfiles writable).2.data.drop (block_offset subfiles i + 16)).take
        (4 * (subfiles[i].prepath.length / 4 + 1)) =
      convert_slashes subfiles[i].prepath ++
        List.replicate (4 - subfiles[i].prepath.length % 4) 0 ∧
    1 ≤ 4 - subfiles[i].prepath.length % 4 ∧ 4 - subfiles[i].prepath.length % 4 ≤ 4 ∧
    (subfiles[i].prepath.length % 4 = 0 → 4 - subfiles[i].prepath.length % 4 = 4) ∧
    (convert_slashes subfiles[i].prepath ++
        List.replicate (4 - subfiles[i].prepath.length % 4) 0).length =
      4 * (subfiles[i].prepath.length / 4 + 1) ∧
    subfiles[i].prepath.length < 4 * (subfiles[i].prepath.length / 4 + 1) ∧
    (∀ m, m % 4 = 0 → subfiles[i].prepath.length < m →
      4 * (subfiles[i].prepath.length / 4 + 1) ≤ m) ∧
    Read32LE (((write subfiles writable).2.data.drop (block_offset subfiles i + 8)).take 4) =
      (4 * (subfiles[i].prepath.length / 4 + 1)) % 4294967296 ∧
    (((write subfiles writable).2.data.drop (block_offset subfiles i + 16)).take
        (4 * (subfiles[i].prepath.length / 4 + 1))).getLast? = some 0 := by
  rw [write_data subfiles writable hok]
  obtain ⟨_, _, h8, _, h16, _⟩ := archive_block_fields subfiles i hi
  have hlen := stored_path_length subfiles[i]
  rw [hlen] at h8 h16
  have hst : stored_path subfiles[i] = convert_slashes subfiles[i].prepath ++
      List.replicate (4 - subfiles[i].prepath.length % 4) 0 := rfl
  refine ⟨by rw [h16, hst], by omega, by omega, by omega, by rw [← hst, hlen], by omega,
    fun m hm hlt => by omega, ?_, ?_⟩
  · rw [h8, Read32LE_Write32LE, Nat.mod_mod]
  · rw [h16, hst]
    exact getLast?_append_replicate_zero _ _ (by omega)

set_option maxRecDepth 100000 in
theorem write_path_padding_witness :
    ((write example_files true).2.data.drop (block_offset example_files 0 + 16)).take
        (4 * (example_files[0].prepath.length / 4 + 1)) = bytesOf "a\\b.txt" ++ [0] ∧
    (((write example_files true).2.data.drop (block_offset example_files 0 + 16)).take
        (4 * (example_files[0].prepath.length / 4 + 1))).getLast? = some 0 :=
  ⟨(write_path_padding example_files true (by decide) 0 (by decide)).1.trans (by decide),
   (write_path_padding example_files true (by decide) 0 (by decide)).2.2.2.2.2.2.2.2⟩

/-! ## One back-reference -/

theorem CopyRB_loop_run {σ : Type} (outfunc : Outfunc σ) (hsink : ∀ s d, (outfunc s d).1 = 0)
    (offset p : Nat) (rb : List Byte) (n : Nat) :
    ∀ (i : Nat) (ip : Int) (s : σ) (log : List (List Byte × Int)),
      ∃ s1, CopyRB_loop (logged outfunc) offset n i
          ⟨ip, (p + i) % 4096, ring_after offset p rb i⟩ (s, log) =
        (NO_ERROR, ⟨ip, (p + i + n) % 4096, ring_after offset p rb (i + n)⟩,
          (s1, log ++ (List.range' i n).map
            (fun k => ([(ring_after offset p rb k).getD ((offset + k) % 4096) 0], 0)))) := by
  induction n with
  | zero =>
    intro i ip s log
    exact ⟨s, by simp [CopyRB_loop_zero]⟩
  | succ n ih =>
    intro i ip s log
    have hz : (logged outfunc (s, log)
        [(ring_after offset p rb i).getD ((offset + i) % 4096) 0]).1 = 0 := hsink _ _
    rw [CopyRB_loop_succ, if_neg (fun h => h hz)]
    have hcur : ((p + i) % 4096 + 1) % 4096 = (p + (i + 1)) % 4096 := by omega
    obtain ⟨s1, h1⟩ := ih (i + 1) ip
      (outfunc s [(ring_after offset p rb i).getD ((offset + i) % 4096) 0]).2
      (log ++ [([(ring_after offset p rb i).getD ((offset + i) % 4096) 0],
        (outfunc s [(ring_after offset p rb i).getD ((offset + i) % 4096) 0]).1)])
    have e1 : p + (i + 1) + n = p + i + (n + 1) := by omega
    have e2 : i + 1 + n = i + (n + 1) := by omega
    refine ⟨s1, Eq.trans ?_ (h1.trans ?_)⟩
    · rw [← hcur]; rfl
    · rw [hsink, List.range'_succ, List.map_cons, List.append_assoc, List.singleton_append,
        e1, e2]

theorem backref_fields_range (d0 d1 : Byte) :
    d0.val ||| ((d1.val &&& 0xF0) <<< 4) < 4096 ∧
    3 ≤ (d1.val &&& 0x0F) + 3 ∧ (d1.val &&& 0x0F) + 3 ≤ 18 := by
  have h0 : d0.val < 2 ^ 12 := Nat.lt_of_lt_of_le d0.isLt (by decide)
  have h1 : d1.val &&& 0xF0 ≤ 0xF0 := Nat.and_le_right
  have h2 : (d1.val &&& 0xF0) <<< 4 < 2 ^ 12 := by
    rw [Nat.shiftLeft_eq]; omega
  have h3 : d1.val &&& 0x0F ≤ 0x0F := Nat.and_le_right
  exact ⟨Nat.or_lt_two_pow h0 h2, by omega, by omega⟩

/-- C21 (back-reference token): for input bytes d0, d1 read from the stream, a
ring buffer of 4096 cells with its cursor inside and a sink that always
returns 0, CopyRB consumes exactly 2 input bytes, uses ref_offset =
d0 | ((d1 & 0xF0) << 4), which is below 4096, and run_length = (d1 & 0x0F) + 3,
which lies between 3 and 18, makes exactly run_length calls of the sink, the
i-th with the one byte that cell (ref_offset + i) mod 4096 holds after the i
earlier writes of the run, writes these bytes at the cursor and leaves the
cursor advanced by run_length modulo 4096. -/
theorem backreference_token {σ : Type} (outfunc : Outfunc σ)
    (hsink : ∀ s d, (outfunc s d).1 = 0) (d0 d1 : Byte) (vars : ExtractVars)
    (hring : RingOK vars) (stream stream1 : IfStream) (s0 : σ)
    (hread : stream.read 2 = ([d0, d1], stream1)) (hok : stream1.failbit = false) :
    d0.val ||| ((d1.val &&& 0xF0) <<< 4) < 4096 ∧
    3 ≤ (d1.val &&& 0x0F) + 3 ∧ (d1.val &&& 0x0F) + 3 ≤ 18 ∧
    stream1.pos = stream.pos + 2 ∧
    ∃ s1 log,
      CopyRB vars stream (logged outfunc) (s0, []) =
        (NO_ERROR,
          ⟨vars.in_pos + 2, (vars.rb_pos + ((d1.val &&& 0x0F) + 3)) % 4096,
            ring_after (d0.val ||| ((d1.val &&& 0xF0) <<< 4)) vars.rb_pos vars.ring_buffer
              ((d1.val &&& 0x0F) + 3)⟩,
          stream1, (s1, log)) ∧
      CopyRB vars stream outfunc s0 =
        (NO_ERROR,
          ⟨vars.in_pos + 2, (vars.rb_pos + ((d1.val &&& 0x0F) + 3)) % 4096,
            ring_after (d0.val ||| ((d1.val &&& 0xF0) <<< 4)) vars.rb_pos vars.ring_buffer
              ((d1.val &&& 0x0F) + 3)⟩,
          stream1, s1) ∧
      log.length = (d1.val &&& 0x0F) + 3 ∧
      ∀ i, i < (d1.val &&& 0x0F) + 3 →
        log.getD i ([], 0) =
          ([(ring_after (d0.val ||| ((d1.val &&& 0xF0) <<< 4)) vars.rb_pos vars.ring_buffer
              i).getD (((d0.val ||| ((d1.val &&& 0xF0) <<< 4)) + i) % 4096) 0], 0) := by
  obtain ⟨hoff, h3, h18⟩ := backref_fields_range d0 d1
  have hst : (stream.read 2).2 = stream1 := by rw [hread]
  obtain ⟨_, _, hpos, _⟩ := IfStream.read_good stream 2 (by decide) (by rw [hst]; exact hok)
  refine ⟨hoff, h3, h18, by rw [← hst, hpos], ?_⟩
  obtain ⟨s1, hrun⟩ := CopyRB_loop_run outfunc hsink (d0.val ||| ((d1.val &&& 0xF0) <<< 4))
    vars.rb_pos vars.ring_buffer ((d1.val &&& 0x0F) + 3) 0 (vars.in_pos + 2) s0 []
  have hp : vars.rb_pos % 4096 = vars.rb_pos := Nat.mod_eq_of_lt hring.1
  simp only [Nat.add_zero, Nat.zero_add, List.nil_append] at hrun
  rw [hp] at hrun
  have hlog : CopyRB vars stream (logged outfunc) (s0, []) =
      (NO_ERROR,
        ⟨vars.in_pos + 2, (vars.rb_pos + ((d1.val &&& 0x0F) + 3)) % 4096,
          ring_after (d0.val ||| ((d1.val &&& 0xF0) <<< 4)) vars.rb_pos vars.ring_buffer
            ((d1.val &&& 0x0F) + 3)⟩,
        stream1, (s1, (List.range' 0 ((d1.val &&& 0x0F) + 3)).map
          (fun k => ([(ring_after (d0.val ||| ((d1.val &&& 0xF0) <<< 4)) vars.rb_pos
            vars.ring_buffer k).getD (((d0.val ||| ((d1.val &&& 0xF0) <<< 4)) + k) % 4096) 0],
            0)))) := by
    rw [CopyRB_eq, hread, if_neg (by show ¬ stream1.failbit = true; rw [hok]; exact Bool.false_ne_true)]
    show ((CopyRB_loop (logged outfunc) (d0.val ||| ((d1.val &&& 0xF0) <<< 4))
        ((d1.val &&& 0x0F) + 3) 0 ⟨vars.in_pos + 2, vars.rb_pos, vars.ring_buffer⟩ (s0, [])).1,
      (CopyRB_loop (logged outfunc) (d0.val ||| ((d1.val &&& 0xF0) <<< 4))
        ((d1.val &&& 0x0F) + 3) 0 ⟨vars.in_pos + 2, vars.rb_pos, vars.ring_buffer⟩ (s0, [])).2.1,
      stream1,
      (CopyRB_loop (logged outfunc) (d0.val ||| ((d1.val &&& 0xF0) <<< 4))
        ((d1.val &&& 0x0F) + 3) 0 ⟨vars.in_pos + 2, vars.rb_pos, vars.ring_buffer⟩
        (s0, [])).2.2) = _
    rw [show ring_after (d0.val ||| ((d1.val &&& 0xF0) <<< 4)) vars.rb_pos vars.ring_buffer 0 =
      vars.ring_buffer from rfl] at hrun
    rw [hrun]
  have hsim := CopyRB_logged outfunc vars stream (s0, [])
  rw [hlog] at hsim
  refine ⟨s1, _, hlog, hsim.symm, by simp, ?_⟩
  intro i hi
  rw [List.getD_eq_getElem?_getD, List.getElem?_map, List.getElem?_range' _ _ hi]
  simp

theorem backreference_token_witness :
    (0xEE : Byte).val ||| (((0xF0 : Byte).val &&& 0xF0) <<< 4) < 4096 ∧
    3 ≤ ((0xF0 : Byte).val &&& 0x0F) + 3 ∧ ((0xF0 : Byte).val &&& 0x0F) + 3 ≤ 18 ∧
    (2 : Nat) = 0 + 2 ∧
    ∃ s1 log,
      CopyRB ExtractVars.new ⟨[0xEE, 0xF0], 0, true, false⟩ (logged buffer_outfunc) ([], []) =
        (NO_ERROR,
          ⟨ExtractVars.new.in_pos + 2,
            (ExtractVars.new.rb_pos + (((0xF0 : Byte).val &&& 0x0F) + 3)) % 4096,
            ring_after ((0xEE : Byte).val ||| (((0xF0 : Byte).val &&& 0xF0) <<< 4))
              ExtractVars.new.rb_pos ExtractVars.new.ring_buffer
              (((0xF0 : Byte).val &&& 0x0F) + 3)⟩,
          ⟨[0xEE, 0xF0], 2, true, false⟩, (s1, log)) ∧
      CopyRB ExtractVars.new ⟨[0xEE, 0xF0], 0, true, false⟩ buffer_outfunc [] =
        (NO_ERROR,
          ⟨ExtractVars.new.in_pos + 2,
            (ExtractVars.new.rb_pos + (((0xF0 : Byte).val &&& 0x0F) + 3)) % 4096,
            ring_after ((0xEE : Byte).val ||| (((0xF0 : Byte).val &&& 0xF0) <<< 4))
              ExtractVars.new.rb_pos ExtractVars.new.ring_buffer
              (((0xF0 : Byte).val &&& 0x0F) + 3)⟩,
          ⟨[0xEE, 0xF0], 2, true, false⟩, s1) ∧
      log.length = ((0xF0 : Byte).val &&& 0x0F) + 3 ∧
      ∀ i, i < ((0xF0 : Byte).val &&& 0x0F) + 3 →
        log.getD i ([], 0) =
          ([(ring_after ((0xEE : Byte).val ||| (((0xF0 : Byte).val &&& 0xF0) <<< 4))
              ExtractVars.new.rb_pos ExtractVars.new.ring_buffer
              i).getD ((((0xEE : Byte).val ||| (((0xF0 : Byte).val &&& 0xF0) <<< 4)) + i) % 4096)
              0], 0) :=
  backreference_token buffer_outfunc (fun _ _ => rfl) 0xEE 0xF0 ExtractVars.new RingOK_new
    ⟨[0xEE, 0xF0], 0, true, false⟩ ⟨[0xEE, 0xF0], 2, true, false⟩ [] rfl rfl

/-! ## The tokens of a group -/

theorem mask_test_iff (n i : Nat) : n &&& (0x1 <<< i) ≠ 0 ↔ n.testBit i = true := by
  rw [Nat.one_shiftLeft, Nat.and_two_pow]
  cases h : n.testBit i
  · simp
  · simp

theorem run_tokens_nil {σ : Type} (outfunc : Outfunc σ) (v : ExtractVars) (st : IfStream)
    (s : σ) : run_tokens outfunc [] v st s = (NO_ERROR, v, st, s) := rfl

theorem run_tokens_cons {σ : Type} (outfunc : Outfunc σ) (lit : Bool) (rest : List Bool)
    (v : ExtractVars) (st : IfStream) (s : σ) :
    run_tokens outfunc (lit :: rest) v st s =
      if (if lit then CopyByte v st outfunc s else CopyRB v st outfunc s).1 ≠ 0 then
        (if lit then CopyByte v st outfunc s else CopyRB v st outfunc s)
      else
        run_tokens outfunc rest
          (if lit then CopyByte v st outfunc s else CopyRB v st outfunc s).2.1
          (if lit then CopyByte v st outfunc s else CopyRB v st outfunc s).2.2.1
          (if lit then CopyByte v st outfunc s else CopyRB v st outfunc s).2.2.2 := rfl

/-- A literal that returns 0 has taken one byte from the stream. -/
theorem CopyByte_consumed {σ : Type} (outfunc : Outfunc σ) (v : ExtractVars) (st : IfStream)
    (s : σ) (h : (CopyByte v st outfunc s).1 = 0) :
    (CopyByte v st outfunc s).2.1.in_pos = v.in_pos + 1 ∧
    (CopyByte v st outfunc s).2.2.1.pos = st.pos + 1 := by
  rw [CopyByte_eq] at h ⊢
  by_cases hf : (st.read 1).2.fail = true
  · rw [if_pos hf] at h
    exact absurd h (show READ_SUBFILE ≠ 0 by decide)
  · rw [if_neg hf] at h ⊢
    by_cases he : (outfunc s [(st.read 1).1.getD 0 0]).1 ≠ 0
    · rw [if_pos he] at h
      exact absurd h he
    · rw [if_neg he]
      obtain ⟨_, _, hst, _⟩ := IfStream.read_good st 1 (by decide) (by simpa using hf)
      exact ⟨rfl, by show (st.read 1).2.pos = _; rw [hst]⟩

/-- A lookup that returns 0 has taken two bytes from the stream. -/
theorem CopyRB_consumed {σ : Type} (outfunc : Outfunc σ) (v : ExtractVars) (st : IfStream)
    (s : σ) (h : (CopyRB v st outfunc s).1 = 0) :
    (CopyRB v st outfunc s).2.1.in_pos = v.in_pos + 2 ∧
    (CopyRB v st outfunc s).2.2.1.pos = st.pos + 2 := by
  rw [CopyRB_eq] at h ⊢
  by_cases hf : (st.read 2).2.fail = true
  · rw [if_pos hf] at h
    exact absurd h (show READ_SUBFILE ≠ 0 by decide)
  · rw [if_neg hf]
    obtain ⟨_, _, hst, _⟩ := IfStream.read_good st 2 (by decide) (by simpa using hf)
    refine ⟨?_, by show (st.read 2).2.pos = _; rw [hst]⟩
    show (CopyRB_loop outfunc _ _ 0 { v with in_pos := v.in_pos + 2 } s).2.1.in_pos = _
    rw [CopyRB_loop_in_pos]

theorem run_tokens_consumed {σ : Type} (outfunc : Outfunc σ) (l : List Bool) :
    ∀ (v : ExtractVars) (st : IfStream) (s : σ), (run_tokens outfunc l v st s).1 = 0 →
      (run_tokens outfunc l v st s).2.1.in_pos = v.in_pos + (tokens_size l : Nat) ∧
      (run_tokens outfunc l v st s).2.2.1.pos = st.pos + tokens_size l := by
  induction l with
  | nil =>
    intro v st s _
    exact ⟨by show v.in_pos = v.in_pos + ((0 : Nat) : Int); simp, rfl⟩
  | cons lit rest ih =>
    intro v st s h
    rw [run_tokens_cons] at h ⊢
    by_cases hc : (if lit then CopyByte v st outfunc s else CopyRB v st outfunc s).1 ≠ 0
    · rw [if_pos hc] at h
      exact absurd h hc
    · rw [if_neg hc] at h ⊢
      have hc0 := not_not.mp hc
      obtain ⟨h1, h2⟩ := ih _ _ _ h
      rw [h1, h2]
      cases lit with
      | true =>
        obtain ⟨e1, e2⟩ := CopyByte_consumed outfunc v st s hc0
        have hsz : tokens_size (true :: rest) = 1 + tokens_size rest := by
          simp [tokens_size]
        rw [hsz]
        show (CopyByte v st outfunc s).2.1.in_pos + _ = _ ∧
          (CopyByte v st outfunc s).2.2.1.pos + _ = _
        rw [e1, e2]
        push_cast
        omega
      | false =>
        obtain ⟨e1, e2⟩ := CopyRB_consumed outfunc v st s hc0
        have hsz : tokens_size (false :: rest) = 2 + tokens_size rest := by
          simp [tokens_size]
        rw [hsz]
        show (CopyRB v st outfunc s).2.1.in_pos + _ = _ ∧
          (CopyRB v st outfunc s).2.2.1.pos + _ = _
        rw [e1, e2]
        push_cast
        omega

theorem tokens_size_pos (lit : Bool) (rest : List Bool) : 1 ≤ tokens_size (lit :: rest) := by
  cases lit with
  | true => simp [tokens_size]
  | false => simp [tokens_size]; omega

/-- The loop over the bits of a type byte decodes the tokens the bits select,
as long as no token fails and the counter stays inside the compressed range. -/
theorem extract_bits_eq_run {σ : Type} (outfunc : Outfunc σ) (m_cmp_size : Int)
    (type_byte : Byte) (n : Nat) :
    ∀ (i : Nat) (v : ExtractVars) (st : IfStream) (s : σ),
      (run_tokens outfunc ((List.range' i n).map (fun k => type_byte.val.testBit k)) v st s).1
        = 0 →
      (run_tokens outfunc ((List.range' i n).map (fun k => type_byte.val.testBit k))
        v st s).2.1.in_pos ≤ m_cmp_size →
      extract_bits outfunc m_cmp_size type_byte n i v st s =
        run_tokens outfunc ((List.range' i n).map (fun k => type_byte.val.testBit k)) v st s := by
  induction n with
  | zero => intro i v st s _ _; rfl
  | succ n ih =>
    intro i v st s hok hin
    rw [List.range'_succ, List.map_cons] at hok hin ⊢
    rw [run_tokens_cons] at hok hin ⊢
    rw [extract_bits_succ]
    have hsel : (if type_byte.val &&& (0x1 <<< i) ≠ 0 then
          after_token outfunc m_cmp_size type_byte n i (CopyByte v st outfunc s)
        else after_token outfunc m_cmp_size type_byte n i (CopyRB v st outfunc s)) =
        after_token outfunc m_cmp_size type_byte n i
          (if type_byte.val.testBit i then CopyByte v st outfunc s
            else CopyRB v st outfunc s) := by
      by_cases hb : type_byte.val.testBit i = true
      · rw [if_pos ((mask_test_iff _ _).mpr hb), if_pos hb]
      · rw [if_neg (fun h => hb ((mask_test_iff _ _).mp h)), if_neg hb]
    rw [hsel]
    generalize (if type_byte.val.testBit i then CopyByte v st outfunc s
      else CopyRB v st outfunc s) = r at hok hin ⊢
    obtain ⟨c, v1, st1, s1⟩ := r
    by_cases hc : c ≠ 0
    · rw [if_pos hc] at hok
      exact absurd hok hc
    · have hc0 : c = 0 := not_not.mp hc
      subst hc0
      rw [if_neg hc] at hok hin ⊢
      unfold after_token
      rw [if_neg hc]
      cases n with
      | zero =>
        split <;> rfl
      | succ m =>
        have hcons := (run_tokens_consumed outfunc _ v1 st1 s1 hok).1
        rw [List.range'_succ, List.map_cons] at hcons hin
        have hpos := tokens_size_pos (type_byte.val.testBit (i + 1))
          ((List.range' (i + 1 + 1) m).map (fun k => type_byte.val.testBit k))
        have hlt : ¬ v1.in_pos ≥ m_cmp_size := by
          rw [hcons] at hin
          omega
        rw [if_neg hlt]
        exact ih (i + 1) v1 st1 s1 hok (by
          rw [List.range'_succ, List.map_cons]; exact hin)

/-- A run of literals copies the bytes it reads to the buffer. -/
theorem run_tokens_literals (lits : List Byte) :
    ∀ (pre post : List Byte) (o : Bool) (ip : Int) (rp : Nat) (rb out : List Byte),
      ∃ rp1 rb1,
        run_tokens buffer_outfunc (List.replicate lits.length true) ⟨ip, rp, rb⟩
            ⟨pre ++ lits ++ post, pre.length, o, false⟩ out =
          (NO_ERROR, ⟨ip + (lits.length : Nat), rp1, rb1⟩,
            ⟨pre ++ lits ++ post, pre.length + lits.length, o, false⟩, out ++ lits) := by
  induction lits with
  | nil =>
    intro pre post o ip rp rb out
    exact ⟨rp, rb, by simp [run_tokens_nil]⟩
  | cons c rest ih =>
    intro pre post o ip rp rb out
    have r1 : IfStream.read ⟨pre ++ (c :: rest) ++ post, pre.length, o, false⟩ 1 =
        ([c], ⟨pre ++ (c :: rest) ++ post, pre.length + 1, o, false⟩) :=
      IfStream.read_mid pre (c :: rest) post o 0 1 (by simp)
    have c1 := CopyByte_buffer ip rp rb _ _ c out r1 rfl
    have hd : pre ++ (c :: rest) ++ post = (pre ++ [c]) ++ rest ++ post := by simp
    obtain ⟨rp1, rb1, h⟩ := ih (pre ++ [c]) post o (ip + 1) ((rp + 1) % 4096) (rb.set rp c)
      (out ++ [c])
    refine ⟨rp1, rb1, ?_⟩
    rw [List.length_cons, List.replicate_succ, run_tokens_cons]
    show (if (CopyByte ⟨ip, rp, rb⟩ ⟨pre ++ (c :: rest) ++ post, pre.length, o, false⟩
        buffer_outfunc out).1 ≠ 0 then _ else _) = _
    rw [c1]
    show run_tokens buffer_outfunc (List.replicate rest.length true)
      ⟨ip + 1, (rp + 1) % 4096, rb.set rp c⟩
      ⟨pre ++ (c :: rest) ++ post, pre.length + 1, o, false⟩ (out ++ [c]) = _
    rw [hd]
    have hl : (pre ++ [c]).length = pre.length + 1 := by simp
    rw [hl] at h
    rw [h]
    have e3 : out ++ [c] ++ rest = out ++ c :: rest := by simp
    have e1 : ip + 1 + (rest.length : Nat) = ip + ((rest.length + 1 : Nat) : Int) := by
      push_cast; omega
    have e2 : pre.length + 1 + rest.length = pre.length + (rest.length + 1) := by omega
    rw [e1, e2, e3]

theorem group_tokens_eq (type_byte : Byte) :
    group_tokens type_byte = (List.range' 0 8).map (fun k => type_byte.val.testBit k) := by
  unfold group_tokens
  rw [List.range_eq_range']

/-- A compressed range that is one group of eight literals: the eight bytes
after the type byte FF are the output. -/
theorem extract_literal_group (bs pre post : List Byte) (hlen : bs.length = 8)
    (f : Reader.Subfile) (hc : f.m_cmp_size = 9) (ho : f.m_offset = (pre.length : Int))
    (p0 : Nat) :
    extract_to_buffer f ⟨pre ++ (0xFF :: bs) ++ post, p0, true, false⟩ =
      some (NO_ERROR, ⟨pre ++ (0xFF :: bs) ++ post, pre.length + 9, true, false⟩, bs) := by
  obtain ⟨rb, hrb, hnew⟩ := ExtractVars.new_eq
  have hd : pre ++ (0xFF :: bs) ++ post = (pre ++ [0xFF]) ++ bs ++ post := by simp
  have r0 : IfStream.read ⟨pre ++ (0xFF :: bs) ++ post, pre.length, true, false⟩ 1 =
      ([0xFF], ⟨pre ++ (0xFF :: bs) ++ post, pre.length + 1, true, false⟩) :=
    IfStream.read_mid pre (0xFF :: bs) post true 0 1 (by simp)
  obtain ⟨rp1, rb1, hrun⟩ := run_tokens_literals bs (pre ++ [0xFF]) post true 1 4078 rb []
  have hl : (pre ++ [(0xFF : Byte)]).length = pre.length + 1 := by simp
  rw [hl, ← hd, hlen, List.nil_append] at hrun
  have hg : group_tokens 0xFF = List.replicate 8 true := by decide
  generalize pre ++ (0xFF :: bs) ++ post = d at r0 hrun ⊢
  have hbits : extract_bits buffer_outfunc 9 0xFF 8 0 ⟨1, 4078, rb⟩
      ⟨d, pre.length + 1, true, false⟩ [] =
      (NO_ERROR, ⟨1 + ((8 : Nat) : Int), rp1, rb1⟩, ⟨d, pre.length + 1 + 8, true, false⟩, bs) := by
    have h := extract_bits_eq_run buffer_outfunc 9 0xFF 8 0 ⟨1, 4078, rb⟩
      ⟨d, pre.length + 1, true, false⟩ []
    rw [← group_tokens_eq, hg, hrun] at h
    exact h rfl (by show (1 : Int) + ((8 : Nat) : Int) ≤ 9; decide)
  have hloop1 : extract_loop buffer_outfunc 9 8 ⟨1 + ((8 : Nat) : Int), rp1, rb1⟩
      ⟨d, pre.length + 1 + 8, true, false⟩ bs =
      some (NO_ERROR, ⟨1 + ((8 : Nat) : Int), rp1, rb1⟩,
        ⟨d, pre.length + 1 + 8, true, false⟩, bs) := by
    rw [extract_loop_succ, if_neg (by show ¬ ((1 : Int) + ((8 : Nat) : Int) < 9); decide)]
  have hloop : extract_loop buffer_outfunc 9 9 ⟨0, 4078, rb⟩ ⟨d, pre.length, true, false⟩ [] =
      some (NO_ERROR, ⟨1 + ((8 : Nat) : Int), rp1, rb1⟩,
        ⟨d, pre.length + 1 + 8, true, false⟩, bs) := by
    rw [extract_loop_succ, if_pos (show (0 : Int) < 9 by decide), r0]
    simp only [IfStream.fail, Bool.false_eq_true, if_false]
    have hb : extract_bits buffer_outfunc 9 (([0xFF] : List Byte).getD 0 0) 8 0
        { in_pos := (0 : Int) + 1, rb_pos := 4078, ring_buffer := rb }
        ⟨d, pre.length + 1, true, false⟩ [] =
        (NO_ERROR, ⟨1 + ((8 : Nat) : Int), rp1, rb1⟩,
          ⟨d, pre.length + 1 + 8, true, false⟩, bs) := hbits
    rw [hb]
    simp only [NO_ERROR, ne_eq, not_true_eq_false, if_false]
    exact hloop1
  have hseek : IfStream.seekg ⟨d, p0, true, false⟩ f.m_offset = ⟨d, pre.length, true, false⟩ := by
    rw [ho]
    simp [IfStream.seekg]
  have h9 : f.m_cmp_size.toNat = 9 := by rw [hc]; rfl
  unfold extract_to_buffer
  rw [extract_compressed f ⟨d, p0, true, false⟩ buffer_outfunc [] rfl (by rw [hseek])
    (by rw [hc]; decide) _ (by rw [hseek, hc, hnew]; exact hloop)]

/-- C22 (type-byte bit order): in a group whose tokens all decode without
error and which lies inside the compressed range (the counter after the group
is at most compressed_size), the loop over the bits decodes the eight tokens
that bits 0 to 7 of the type byte select, bit 0 (the least significant)
first, a set bit by CopyByte (a literal, 1 input byte) and a clear bit by
CopyRB (a lookup, 2 input bytes); the group takes 1 byte for each set bit and
2 for each clear bit.  For the type byte 1F these are 5 literals followed by 3
lookups, 12 input bytes with the type byte; a group with type byte FF that is
the whole compressed range emits its 8 following bytes unchanged. -/
theorem type_byte_bit_order {σ : Type} (outfunc : Outfunc σ) (m_cmp_size : Int)
    (type_byte : Byte) (vars : ExtractVars) (stream : IfStream) (snk : σ)
    (hok : (run_tokens outfunc (group_tokens type_byte) vars stream snk).1 = 0)
    (hin : (run_tokens outfunc (group_tokens type_byte) vars stream snk).2.1.in_pos ≤
      m_cmp_size) :
    extract_bits outfunc m_cmp_size type_byte 8 0 vars stream snk =
      run_tokens outfunc (group_tokens type_byte) vars stream snk ∧
    (group_tokens type_byte).length = 8 ∧
    (∀ i, i < 8 →
      ((group_tokens type_byte).getD i false = true ↔ type_byte.val / 2 ^ i % 2 = 1)) ∧
    (extract_bits outfunc m_cmp_size type_byte 8 0 vars stream snk).2.1.in_pos =
      vars.in_pos + (tokens_size (group_tokens type_byte) : Nat) ∧
    (extract_bits outfunc m_cmp_size type_byte 8 0 vars stream snk).2.2.1.pos =
      stream.pos + tokens_size (group_tokens type_byte) ∧
    group_tokens 0x1F = [true, true, true, true, true, false, false, false] ∧
    1 + tokens_size (group_tokens 0x1F) = 12 ∧
    group_tokens 0xFF = [true, true, true, true, true, true, true, true] ∧
    (∀ (bs pre post : List Byte) (f : Reader.Subfile) (p0 : Nat), bs.length = 8 →
      f.m_cmp_size = 9 → f.m_offset = (pre.length : Int) →
      extract_to_buffer f ⟨pre ++ (0xFF :: bs) ++ post, p0, true, false⟩ =
        some (NO_ERROR, ⟨pre ++ (0xFF :: bs) ++ post, pre.length + 9, true, false⟩, bs)) := by
  have heq : extract_bits outfunc m_cmp_size type_byte 8 0 vars stream snk =
      run_tokens outfunc (group_tokens type_byte) vars stream snk := by
    rw [group_tokens_eq] at hok hin ⊢
    exact extract_bits_eq_run outfunc m_cmp_size type_byte 8 0 vars stream snk hok hin
  obtain ⟨h1, h2⟩ := run_tokens_consumed outfunc (group_tokens type_byte) vars stream snk hok
  refine ⟨heq, by simp [group_tokens], ?_, by rw [heq, h1], by rw [heq, h2], by decide,
    by decide, by decide, ?_⟩
  · intro i hi
    have hget : (group_tokens type_byte).getD i false = type_byte.val.testBit i := by
      unfold group_tokens
      rw [List.getD_eq_getElem?_getD, List.getElem?_map, List.getElem?_range hi]
      rfl
    rw [hget, Nat.testBit_to_div_mod]
    simp
  · intro bs pre post f p0 hlen hc ho
    exact extract_literal_group bs pre post hlen f hc ho p0

theorem type_byte_bit_order_witness :
    extract_bits buffer_outfunc 9 0xFF 8 0 { ExtractVars.new with in_pos := 1 }
        ⟨[0xFF, 1, 2, 3, 4, 5, 6, 7, 8], 1, true, false⟩ [] =
      run_tokens buffer_outfunc (group_tokens 0xFF) { ExtractVars.new with in_pos := 1 }
        ⟨[0xFF, 1, 2, 3, 4, 5, 6, 7, 8], 1, true, false⟩ [] ∧
    (run_tokens buffer_outfunc (group_tokens 0xFF) { ExtractVars.new with in_pos := 1 }
        ⟨[0xFF, 1, 2, 3, 4, 5, 6, 7, 8], 1, true, false⟩ []).2.2.2 = [1, 2, 3, 4, 5, 6, 7, 8] :=
  ⟨(type_byte_bit_order buffer_outfunc 9 0xFF { ExtractVars.new with in_pos := 1 }
      ⟨[0xFF, 1, 2, 3, 4, 5, 6, 7, 8], 1, true, false⟩ [] (by decide) (by decide)).1,
    by decide⟩

/-! ## The reader when the last skip may overflow -/

theorem IfStream.ignore_fields (s : IfStream) (n : Int) :
    (s.ignore n).data = s.data ∧ (s.ignore n).is_open = s.is_open ∧
      (s.ignore n).failbit = s.failbit := by
  unfold IfStream.ignore
  by_cases h1 : s.failbit = true
  · rw [if_pos h1]; exact ⟨rfl, rfl, rfl⟩
  · rw [if_neg h1]
    by_cases h2 : n ≤ 0
    · rw [if_pos h2]; exact ⟨rfl, rfl, rfl⟩
    · rw [if_neg h2]; exact ⟨rfl, rfl, rfl⟩

/-- One more iteration of the loop of the constructor, on a well-formed block
that starts at the stream position: the record is appended, whatever the skip
after it does. -/
theorem Reader_loop_last (b : RawBlock) (hwf : b.wf) (pre post : List Byte)
    (m_files : List Reader.Subfile) :
    ∃ s : IfStream,
      Reader_loop 1 ⟨pre ++ b.bytes ++ post, pre.length, true, false⟩ m_files =
        some (s, m_files ++ [Reader.Subfile.new b.subheader b.path
          (toInt32 ((pre.length + 16 + b.path.length : Nat) : Int))], 0) ∧
      s.data = pre ++ b.bytes ++ post ∧ s.is_open = true ∧ s.failbit = false := by
  obtain ⟨h16, hpl, hdl, hpad, hsz, hcmp, hps⟩ := hwf
  have fpl : Read32LE_int (b.subheader.drop 8) = (b.path.length : Int) := by
    rw [Read32LE_int, show Read32LE (b.subheader.drop 8) = b.path_size from rfl,
      toInt32_of_lt _ hps, hpl]
  have hbl := RawBlock.bytes_length b
  have r1 : IfStream.read ⟨pre ++ b.bytes ++ post, pre.length, true, false⟩ 16 =
      (b.subheader, ⟨pre ++ b.bytes ++ post, pre.length + 16, true, false⟩) := by
    have := IfStream.read_mid pre b.bytes post true 0 16 (by omega)
    have htake : b.bytes.take 16 = b.subheader := by
      simp only [RawBlock.bytes, List.append_assoc]
      rw [← h16, List.take_left]
    rw [Nat.add_zero, List.drop_zero, htake] at this
    exact this
  have r2 : IfStream.read ⟨pre ++ b.bytes ++ post, pre.length + 16, true, false⟩
      (Read32LE_int (b.subheader.drop 8)).toNat = (b.path,
        ⟨pre ++ b.bytes ++ post, pre.length + 16 + b.path.length, true, false⟩) := by
    rw [fpl, Int.toNat_ofNat]
    have := IfStream.read_mid pre b.bytes post true 16 b.path.length (by omega)
    rw [this]
    have hdrop : b.bytes.drop 16 = b.path ++ (b.payload ++ b.padding) := by
      simp only [RawBlock.bytes, List.append_assoc]
      rw [← h16, List.drop_left]
    rw [hdrop, List.take_left]
  have hstep := Reader_loop_step 0 _ m_files _ _ _ _ r1 rfl (by rw [fpl]; omega) r2 rfl
  rw [hstep, Reader_loop_zero]
  have hnew : (Reader.Subfile.new b.subheader b.path
      (toInt32 (IfStream.tellg ⟨pre ++ b.bytes ++ post,
          pre.length + 16 + b.path.length, true, false⟩))) =
      Reader.Subfile.new b.subheader b.path
        (toInt32 ((pre.length + 16 + b.path.length : Nat) : Int)) := rfl
  rw [hnew]
  exact ⟨_, rfl, (IfStream.ignore_fields _ _).1, (IfStream.ignore_fields _ _).2.1,
    (IfStream.ignore_fields _ _).2.2⟩

/-- One iteration of the loop of the constructor, on a well-formed block whose
payload span and padding have a sum that fits an `int`: the record is appended
and the stream is left at the start of the next block. -/
theorem Reader_loop_cons (n : Nat) (b : RawBlock) (hwf : b.wf)
    (hsum : b.payload_span + b.pad < 2147483648) (pre post : List Byte)
    (m_files : List Reader.Subfile) :
    Reader_loop (n + 1) ⟨pre ++ b.bytes ++ post, pre.length, true, false⟩ m_files =
      Reader_loop n ⟨pre ++ b.bytes ++ post, (pre ++ b.bytes).length, true, false⟩
        (m_files ++ [Reader.Subfile.new b.subheader b.path
          (toInt32 ((pre.length + 16 + b.path.length : Nat) : Int))]) := by
  obtain ⟨h16, hpl, hdl, hpad, hsz, hcmp, hps⟩ := hwf
  have fpl : Read32LE_int (b.subheader.drop 8) = (b.path.length : Int) := by
    rw [Read32LE_int, show Read32LE (b.subheader.drop 8) = b.path_size from rfl,
      toInt32_of_lt _ hps, hpl]
  have fsz : Read32LE_int b.subheader = (b.size : Int) := by
    rw [Read32LE_int, show Read32LE b.subheader = b.size from rfl, toInt32_of_lt _ hsz]
  have fcmp : Read32LE_int (b.subheader.drop 4) = (b.cmp_size : Int) := by
    rw [Read32LE_int, show Read32LE (b.subheader.drop 4) = b.cmp_size from rfl,
      toInt32_of_lt _ hcmp]
  have hbl := RawBlock.bytes_length b
  have r1 : IfStream.read ⟨pre ++ b.bytes ++ post, pre.length, true, false⟩ 16 =
      (b.subheader, ⟨pre ++ b.bytes ++ post, pre.length + 16, true, false⟩) := by
    have := IfStream.read_mid pre b.bytes post true 0 16 (by omega)
    have htake : b.bytes.take 16 = b.subheader := by
      simp only [RawBlock.bytes, List.append_assoc]
      rw [← h16, List.take_left]
    rw [Nat.add_zero, List.drop_zero, htake] at this
    exact this
  have r2 : IfStream.read ⟨pre ++ b.bytes ++ post, pre.length + 16, true, false⟩
      (Read32LE_int (b.subheader.drop 8)).toNat = (b.path,
        ⟨pre ++ b.bytes ++ post, pre.length + 16 + b.path.length, true, false⟩) := by
    rw [fpl, Int.toNat_ofNat]
    have := IfStream.read_mid pre b.bytes post true 16 b.path.length (by omega)
    rw [this]
    have hdrop : b.bytes.drop 16 = b.path ++ (b.payload ++ b.padding) := by
      simp only [RawBlock.bytes, List.append_assoc]
      rw [← h16, List.drop_left]
    rw [hdrop, List.take_left]
  have hstep := Reader_loop_step n _ m_files _ _ _ _ r1 rfl (by rw [fpl]; omega) r2 rfl
  rw [hstep]
  have hnew : (Reader.Subfile.new b.subheader b.path
      (toInt32 (IfStream.tellg ⟨pre ++ b.bytes ++ post,
          pre.length + 16 + b.path.length, true, false⟩))) =
      Reader.Subfile.new b.subheader b.path
        (toInt32 ((pre.length + 16 + b.path.length : Nat) : Int)) := rfl
  rw [hnew]
  rw [Reader.Subfile.new_cmp_size, Reader.Subfile.new_size, fcmp, fsz]
  have hspan : (if (b.cmp_size : Int) ≠ 0 then (b.cmp_size : Int) else (b.size : Int)) =
      ((b.payload_span : Nat) : Int) := by
    unfold RawBlock.payload_span
    by_cases h0 : b.cmp_size = 0
    · rw [h0]; simp
    · rw [if_pos h0, if_pos (by exact_mod_cast h0)]
  rw [hspan, span_skip b.payload_span hsum]
  have hpad' : (if b.payload_span % 4 = 0 then 0 else 4 - b.payload_span % 4) = b.pad := rfl
  rw [hpad']
  have hig : IfStream.ignore
      ⟨pre ++ b.bytes ++ post, pre.length + 16 + b.path.length, true, false⟩
      ((b.payload_span + b.pad : Nat) : Int) =
      ⟨pre ++ b.bytes ++ post, (pre ++ b.bytes).length, true, false⟩ := by
    simp only [IfStream.ignore, Bool.false_eq_true, if_false, Int.toNat_ofNat,
      List.length_append]
    split
    · rw [IfStream.mk.injEq]
      exact ⟨rfl, by omega, rfl, rfl⟩
    · rw [IfStream.mk.injEq]
      exact ⟨rfl, by omega, rfl, rfl⟩
  rw [hig]

/-- The loop of the constructor on well-formed blocks, when in every block but
the last the sum of payload span and padding fits an `int`. -/
theorem Reader_loop_raw_last (bs : List RawBlock) :
    ∀ (pre : List Byte) (m_files : List Reader.Subfile),
      (∀ b ∈ bs, b.wf) → (∀ b ∈ bs.dropLast, b.payload_span + b.pad < 2147483648) →
      ∃ s : IfStream,
        Reader_loop bs.length
            ⟨pre ++ (bs.map RawBlock.bytes).flatten, pre.length, true, false⟩ m_files =
          some (s, m_files ++ raw_records pre.length bs, 0) ∧
        s.data = pre ++ (bs.map RawBlock.bytes).flatten ∧ s.is_open = true ∧
        s.failbit = false := by
  induction bs with
  | nil =>
    intro pre m_files _ _
    exact ⟨⟨pre, pre.length, true, false⟩, by simp [Reader_loop_zero, raw_records], by simp,
      rfl, rfl⟩
  | cons b rest ih =>
    intro pre m_files hwf hskip
    cases rest with
    | nil =>
      obtain ⟨s, hs, hd, ho, hf⟩ := Reader_loop_last b (hwf b (List.mem_singleton.mpr rfl))
        pre [] m_files
      rw [List.append_nil] at hs hd
      exact ⟨s, by simpa [raw_records] using hs, by simpa using hd, ho, hf⟩
    | cons c rest =>
      have hmem : b ∈ (b :: c :: rest).dropLast := by simp [List.dropLast]
      have hd : pre ++ ((b :: c :: rest).map RawBlock.bytes).flatten =
          pre ++ b.bytes ++ ((c :: rest).map RawBlock.bytes).flatten := by simp
      obtain ⟨s, hs, hsd, ho, hf⟩ := ih (pre ++ b.bytes)
        (m_files ++ [Reader.Subfile.new b.subheader b.path
          (toInt32 ((pre.length + 16 + b.path.length : Nat) : Int))])
        (fun b' hm => hwf b' (List.mem_cons_of_mem _ hm))
        (fun b' hm => hskip b' (by
          rw [List.dropLast_cons₂]
          exact List.mem_cons_of_mem _ hm))
      refine ⟨s, ?_, by rw [hd]; exact hsd, ho, hf⟩
      rw [List.length_cons, hd, Reader_loop_cons _ b (hwf b (List.mem_cons_self _ _))
        (hskip b hmem), hs]
      simp [raw_records, List.append_assoc]

/-- The reader on a header followed by well-formed blocks, when the count fits
an `int` and so does the skip after every block but the last. -/
theorem Reader_new_raw_last (header : List Byte) (blocks : List RawBlock)
    (hh : header.length = 12) (hcount : Read32LE (header.drop 8) = blocks.length)
    (hn : blocks.length < 2147483648) (hwf : ∀ b ∈ blocks, b.wf)
    (hskip : ∀ b ∈ blocks.dropLast, b.payload_span + b.pad < 2147483648) :
    ∃ s : IfStream,
      Reader.new (some (raw_archive header blocks)) =
        some ⟨s, raw_records 12 blocks, header, Read32LE_int header, 0⟩ ∧
      s.data = raw_archive header blocks ∧ s.is_open = true ∧ s.failbit = false := by
  have ht : (raw_archive header blocks).take 12 = header := by
    unfold raw_archive
    rw [← hh, List.take_left]
  have h1 : IfStream.read ⟨raw_archive header blocks, 0, true, false⟩ 12 =
      (header, ⟨raw_archive header blocks, 12, true, false⟩) := by
    rw [IfStream.read_ok _ _ rfl (by
      show 0 + 12 ≤ (raw_archive header blocks).length
      unfold raw_archive
      rw [List.length_append, hh]; omega)]
    show ((List.drop 0 (raw_archive header blocks)).take 12,
      (⟨raw_archive header blocks, 0 + 12, true, false⟩ : IfStream)) = _
    rw [List.drop_zero, ht]
  have hcnt : (Read32LE_int (header.drop 8)).toNat = blocks.length := by
    rw [Read32LE_int, hcount, toInt32_of_lt _ hn, Int.toNat_ofNat]
  obtain ⟨s, hs, hd, ho, hf⟩ := Reader_loop_raw_last blocks header [] hwf hskip
  rw [hh, List.nil_append] at hs
  exact ⟨s, Reader_new_of_loop _ _ ⟨_, 0, true, false⟩ ⟨_, 12, true, false⟩ _ _ _ rfl rfl h1 rfl
    (by rw [hcnt]; exact hs), hd, ho, hf⟩

/-- C12, as amended (reader parse layout): for an archive byte string made of a
12-byte header with subfile count n followed by n blocks (16-byte subheader,
path_byte_length path bytes, payload_span payload bytes, padding to a multiple
of 4), with n and all size fields in [0, 2^31) and payload_span + padding
below 2^31 in every block but the last, open succeeds with error() == 0 and n
records, and record i has size() and cmp_size() equal to the decoded header
fields, prepath equal to the path bytes, and offset() equal to the absolute
position just after its path bytes whenever that position is below 2^31 (in
general, to that position converted to a 32-bit int). -/
theorem reader_parse_layout (header : List Byte) (blocks : List RawBlock)
    (hh : header.length = 12) (hcount : Read32LE (header.drop 8) = blocks.length)
    (hn : blocks.length < 2147483648) (hwf : ∀ b ∈ blocks, b.wf)
    (hskip : ∀ b ∈ blocks.dropLast, b.payload_span + b.pad < 2147483648) :
    ∃ r, Reader.new (some (raw_archive header blocks)) = some r ∧ r.error = 0 ∧
      r.files.length = blocks.length ∧
      ∀ i b, blocks[i]? = some b →
        ∃ f, r.files[i]? = some f ∧ f.size = (b.size : Int) ∧ f.cmp_size = (b.cmp_size : Int) ∧
          f.m_prepath = b.path ∧ f.offset = toInt32 (raw_offset blocks i : Int) ∧
          (raw_offset blocks i < 2147483648 → f.offset = (raw_offset blocks i : Int)) := by
  obtain ⟨s, hs, _, _, _⟩ := Reader_new_raw_last header blocks hh hcount hn hwf hskip
  refine ⟨_, hs, rfl, raw_records_length blocks 12, ?_⟩
  intro i b hget
  have hrec := raw_records_get blocks 12 i b hget
  have hb : b ∈ blocks := List.getElem?_mem hget
  obtain ⟨h16, hpl, hdl, hpad, hsz, hcmp, hps⟩ := hwf b hb
  refine ⟨_, hrec, ?_, ?_, rfl, ?_, ?_⟩
  · show Read32LE_int b.subheader = _
    rw [Read32LE_int, show Read32LE b.subheader = b.size from rfl, toInt32_of_lt _ hsz]
  · show Read32LE_int (b.subheader.drop 4) = _
    rw [Read32LE_int, show Read32LE (b.subheader.drop 4) = b.cmp_size from rfl,
      toInt32_of_lt _ hcmp]
  · show toInt32 _ = _
    rw [raw_offset_of_get blocks i b hget]
  · intro hlt
    show toInt32 _ = _
    rw [raw_offset_of_get blocks i b hget] at hlt ⊢
    rw [toInt32_of_lt _ hlt]

set_option maxRecDepth 100000 in
theorem reader_parse_layout_witness :
    (∃ r, Reader.new (some (raw_archive [0, 0, 0, 0, 3, 0, 0xcd, 0xab, 2, 0, 0, 0]
        [⟨[5, 0, 0, 0, 2, 0, 0, 0, 4, 0, 0, 0, 0, 0, 0, 0], [0x61, 0, 0, 0], [1, 0x41], [0, 0]⟩,
         ⟨[1, 0, 0, 0, 0, 0, 0, 0, 0, 0, 0, 0, 0, 0, 0, 0], [], [7], [0, 0, 0]⟩])) = some r ∧
      r.error = 0 ∧ r.files.length = 2 ∧
      ∃ f, r.files[1]? = some f ∧ f.size = 1 ∧ f.cmp_size = 0 ∧ f.m_prepath = [] ∧
        f.offset = 52) ∧
    (∃ r f, Reader.new (some (raw_archive [0, 0, 0, 0, 3, 0, 0xcd, 0xab, 2, 0, 0, 0]
        big_blocks)) = some r ∧ r.error = 0 ∧ r.files.length = 2 ∧
      r.files[0]? = some f ∧ f.size = 2147483644 ∧ f.cmp_size = 0 ∧ f.offset = 28) := by
  constructor
  · obtain ⟨r, hr, he, hl, hall⟩ :=
      reader_parse_layout [0, 0, 0, 0, 3, 0, 0xcd, 0xab, 2, 0, 0, 0]
      [⟨[5, 0, 0, 0, 2, 0, 0, 0, 4, 0, 0, 0, 0, 0, 0, 0], [0x61, 0, 0, 0], [1, 0x41], [0, 0]⟩,
       ⟨[1, 0, 0, 0, 0, 0, 0, 0, 0, 0, 0, 0, 0, 0, 0, 0], [], [7], [0, 0, 0]⟩]
      rfl (by decide) (by decide)
      (by
        intro b hb
        simp only [List.mem_cons, List.mem_singleton, List.not_mem_nil, or_false] at hb
        rcases hb with h | h <;> subst h <;>
          exact ⟨rfl, by decide, by decide, by decide, by decide, by decide, by decide⟩)
      (by
        intro b hb
        simp only [List.dropLast, List.mem_singleton] at hb
        subst hb
        decide)
    obtain ⟨f, hf, hsz, hcmp, hp, _, hoff⟩ := hall 1 _ rfl
    exact ⟨r, hr, he, hl, f, hf, hsz.trans (by decide), hcmp.trans (by decide), hp,
      (hoff (by decide)).trans (by decide)⟩
  · obtain ⟨r, hr, he, hl, hall⟩ :=
      reader_parse_layout [0, 0, 0, 0, 3, 0, 0xcd, 0xab, 2, 0, 0, 0] big_blocks
      rfl (by decide) (by decide) (fun b hb => (big_blocks_wf b hb).1)
      (fun b hb => (big_blocks_wf b (List.mem_of_mem_dropLast hb)).2)
    obtain ⟨f, hf, hsz, hcmp, _, _, hoff⟩ := hall 0
      ⟨[0xfc, 0xff, 0xff, 0x7f, 0, 0, 0, 0, 0, 0, 0, 0, 0, 0, 0, 0], [], big_payload, []⟩ rfl
    have hpos : raw_offset big_blocks 0 = 28 := by
      rw [raw_offset_of_get big_blocks 0
        ⟨[0xfc, 0xff, 0xff, 0x7f, 0, 0, 0, 0, 0, 0, 0, 0, 0, 0, 0, 0], [], big_payload, []⟩ rfl]
      simp
    rw [hpos] at hoff
    exact ⟨r, f, hr, he, hl.trans (by decide), hf, hsz.trans (by decide),
      hcmp.trans (by decide), hoff (by decide)⟩

/-! ## Written archives as lists of blocks -/

theorem Subfile.raw_bytes (sf : Subfile) : sf.raw.bytes = block sf := by
  simp only [Subfile.raw, RawBlock.bytes, block, stored_payload, List.append_assoc]

theorem archive_bytes_raw (subfiles : List Subfile) :
    archive_bytes subfiles =
      raw_archive (Write32LE ((12 + ((subfiles.map block).flatten).length) % 4294967296) ++
        [0x03, 0x0, 0xcd, 0xab] ++ Write32LE (subfiles.length % 4294967296))
        (subfiles.map Subfile.raw) := by
  unfold archive_bytes raw_archive
  rw [List.map_map]
  have : RawBlock.bytes ∘ Subfile.raw = block := funext Subfile.raw_bytes
  rw [this]

theorem raw_records_of_subfiles (sfs : List Subfile) :
    ∀ base, raw_records base (sfs.map Subfile.raw) = expected_records base sfs := by
  induction sfs with
  | nil => intro base; rfl
  | cons sf rest ih =>
    intro base
    show Reader.Subfile.new (stored_subheader sf) (stored_path sf) _ ::
      raw_records (base + sf.raw.bytes.length) (rest.map Subfile.raw) = _
    rw [ih, Subfile.raw_bytes]
    rfl

theorem Subfile.raw_fields (sf : Subfile) :
    sf.raw.size = sf.contents.length % 4294967296 ∧ sf.raw.cmp_size = 0 ∧
    sf.raw.path_size = (stored_path sf).length % 4294967296 := by
  refine ⟨?_, ?_, ?_⟩
  · show Read32LE (stored_subheader sf) = _
    have := Read32LE_Write32LE_append (sf.contents.length % 4294967296)
      (Write32LE 0 ++ (Write32LE ((stored_path sf).length % 4294967296) ++
        Write32LE (string_crc sf.prepath)))
    simp only [stored_subheader, List.append_assoc]
    rw [this]; omega
  · show Read32LE ((stored_subheader sf).drop 4) = _
    have hd : (stored_subheader sf).drop 4 = Write32LE 0 ++
        (Write32LE ((stored_path sf).length % 4294967296) ++
          Write32LE (string_crc sf.prepath)) := rfl
    rw [hd, Read32LE_Write32LE_append]
  · show Read32LE ((stored_subheader sf).drop 8) = _
    have hd : (stored_subheader sf).drop 8 =
        Write32LE ((stored_path sf).length % 4294967296) ++
          Write32LE (string_crc sf.prepath) := rfl
    rw [hd, Read32LE_Write32LE_append]; omega

theorem Subfile.raw_span (sf : Subfile) (hc : sf.contents.length < 2147483648) :
    sf.raw.payload_span = sf.contents.length ∧
    sf.raw.payload_span + sf.raw.pad = (stored_payload sf).length := by
  obtain ⟨hsz, hcmp, _⟩ := Subfile.raw_fields sf
  have hspan : sf.raw.payload_span = sf.contents.length := by
    unfold RawBlock.payload_span
    rw [hcmp, if_neg (fun h => h rfl), hsz]
    omega
  refine ⟨hspan, ?_⟩
  unfold RawBlock.pad
  rw [hspan]
  simp only [stored_payload, List.length_append, List.length_replicate]
  split <;> simp_all

theorem Subfile.raw_wf (sf : Subfile) (hp : (stored_path sf).length < 2147483648)
    (hc : sf.contents.length < 2147483648) : sf.raw.wf := by
  obtain ⟨hsz, hcmp, hps⟩ := Subfile.raw_fields sf
  obtain ⟨hspan, hsum⟩ := Subfile.raw_span sf hc
  refine ⟨rfl, ?_, ?_, ?_, by rw [hsz]; omega, by rw [hcmp]; omega, by rw [hps]; omega⟩
  · show (stored_path sf).length = _
    rw [hps]; omega
  · show sf.contents.length = _
    rw [hspan]
  · have hl : sf.raw.payload.length + sf.raw.padding.length = (stored_payload sf).length := by
      simp only [Subfile.raw, stored_payload, List.length_append]
    have hpl : sf.raw.payload.length = sf.contents.length := rfl
    omega

/-- The reader on a written archive, when the count, the stored path lengths
and the payload lengths fit an `int` and so does the stored length of every
payload but the last. -/
theorem Reader_new_archive_last (subfiles : List Subfile)
    (hcount : subfiles.length < 2147483648)
    (hpath : ∀ sf ∈ subfiles, (stored_path sf).length < 2147483648)
    (hpay : ∀ sf ∈ subfiles, sf.contents.length < 2147483648)
    (hskip : ∀ sf ∈ subfiles.dropLast, (stored_payload sf).length < 2147483648) :
    ∃ s : IfStream,
      Reader.new (some (archive_bytes subfiles)) =
        some ⟨s, expected_records 12 subfiles, (archive_bytes subfiles).take 12,
          Read32LE_int ((archive_bytes subfiles).take 12), 0⟩ ∧
      s.data = archive_bytes subfiles ∧ s.is_open = true ∧ s.failbit = false := by
  generalize hH : Write32LE ((12 + ((subfiles.map block).flatten).length) % 4294967296) ++
      [0x03, 0x0, 0xcd, 0xab] ++ Write32LE (subfiles.length % 4294967296) = H
  have hraw : archive_bytes subfiles = raw_archive H (subfiles.map Subfile.raw) := by
    rw [← hH]; exact archive_bytes_raw subfiles
  have hlenH : H.length = 12 := by rw [← hH]; rfl
  have htake : (archive_bytes subfiles).take 12 = H := by
    rw [hraw]
    unfold raw_archive
    rw [← hlenH, List.take_left]
  have hcnt : Read32LE (H.drop 8) = (subfiles.map Subfile.raw).length := by
    have hd : H.drop 8 = Write32LE (subfiles.length % 4294967296) ++ [] := by
      rw [← hH]; rfl
    rw [hd, Read32LE_Write32LE_append, List.length_map]
    omega
  obtain ⟨s, hs, hd, ho, hf⟩ := Reader_new_raw_last H (subfiles.map Subfile.raw) hlenH hcnt
    (by rw [List.length_map]; exact hcount)
    (by
      intro b hb
      obtain ⟨sf, hsf, rfl⟩ := List.mem_map.mp hb
      exact Subfile.raw_wf sf (hpath sf hsf) (hpay sf hsf))
    (by
      intro b hb
      rw [← List.map_dropLast] at hb
      obtain ⟨sf, hsf, rfl⟩ := List.mem_map.mp hb
      rw [(Subfile.raw_span sf (hpay sf (List.mem_of_mem_dropLast hsf))).2]
      exact hskip sf hsf)
  rw [raw_records_of_subfiles, ← hraw] at hs
  rw [← hraw] at hd
  exact ⟨s, by rw [htake]; exact hs, hd, ho, hf⟩

/-- C1, as amended (raw round trip): when write returns NO_ERROR for subfiles
whose payloads are shorter than 2^31 bytes, whose number and stored path
lengths are below 2^31 and whose stored payload lengths but the last are below
2^31, Reader opens the archive with error 0 and one record per subfile, in
input order; record i has size() equal to the length of payload i and
cmp_size() 0, and whenever its payload offset in the archive is below 2^31
extracting it from any open stream over the archive that has not failed
returns NO_ERROR and emits exactly the bytes of payload i, leaving the stream
usable. -/
theorem raw_round_trip (subfiles : List Subfile) (writable : Bool)
    (hok : (write subfiles writable).1 = NO_ERROR)
    (hpay : ∀ sf ∈ subfiles, sf.contents.length < 2147483648)
    (hcount : subfiles.length < 2147483648)
    (hpath : ∀ sf ∈ subfiles, (stored_path sf).length < 2147483648)
    (hskip : ∀ sf ∈ subfiles.dropLast, (stored_payload sf).length < 2147483648) :
    ∃ r : Reader, Reader.new (some (write subfiles writable).2.data) = some r ∧
      r.error = 0 ∧ r.files.length = subfiles.length ∧
      r.stream.data = (write subfiles writable).2.data ∧
      r.stream.is_open = true ∧ r.stream.failbit = false ∧
      ∀ (i : Nat) (hi : i < subfiles.length), ∃ f : Reader.Subfile,
        r.files[i]? = some f ∧
        subfiles[i].source = some subfiles[i].contents ∧
        f.size = (subfiles[i].contents.length : Int) ∧ f.cmp_size = 0 ∧
        (block_offset subfiles i + 16 + (stored_path subfiles[i]).length < 2147483648 →
          f.offset = ((block_offset subfiles i + 16 + (stored_path subfiles[i]).length : Nat)
            : Int) ∧
          ∀ st : IfStream, st.data = (write subfiles writable).2.data →
            st.is_open = true → st.failbit = false →
            ∃ st' : IfStream,
              extract_to_buffer f st = some (NO_ERROR, st', subfiles[i].contents) ∧
              st'.data = st.data ∧ st'.is_open = true ∧ st'.failbit = false) := by
  have hsrc := source_of_ok subfiles writable hok
  rw [write_data subfiles writable hok]
  obtain ⟨s, hs, hd, ho, hf⟩ := Reader_new_archive_last subfiles hcount hpath hpay hskip
  refine ⟨_, hs, rfl, expected_records_length subfiles 12, hd, ho, hf, ?_⟩
  intro i hi
  have hrange := payload_in_range subfiles i hi
  have hpl := hpath subfiles[i] (List.getElem_mem _)
  have hcl := hpay subfiles[i] (List.getElem_mem _)
  obtain ⟨fsz, fcmp, _⟩ := stored_subheader_fields subfiles[i] hpl hcl
  refine ⟨_, archive_record subfiles i hi, hsrc i hi, fsz, fcmp, ?_⟩
  intro hlt
  have hoff : toInt32 ((block_offset subfiles i + 16 + (stored_path subfiles[i]).length : Nat)
      : Int) = ((block_offset subfiles i + 16 + (stored_path subfiles[i]).length : Nat) : Int) :=
    toInt32_of_lt _ hlt
  refine ⟨hoff, ?_⟩
  intro st hdata hopen hfail
  have hx := extract_raw_record
    (Reader.Subfile.new (stored_subheader subfiles[i]) (stored_path subfiles[i])
      (toInt32 ((block_offset subfiles i + 16 + (stored_path subfiles[i]).length : Nat) : Int)))
    st (block_offset subfiles i + 16 + (stored_path subfiles[i]).length)
    subfiles[i].contents.length fcmp fsz hoff hopen hfail (by rw [hdata]; exact hrange)
  rw [hdata, (archive_block_fields subfiles i hi).2.2.2.2.2] at hx
  exact ⟨_, hx, hdata.symm, rfl, rfl⟩

set_option maxRecDepth 100000 in
theorem raw_round_trip_witness :
    (∃ r : Reader, Reader.new (some (write example_files true).2.data) = some r ∧
      r.error = 0 ∧ r.files.length = 2 ∧
      (∃ f : Reader.Subfile, r.files[0]? = some f ∧ f.size = 5 ∧ f.cmp_size = 0 ∧
        (extract_to_buffer f r.stream).map (fun x => (x.1, x.2.2)) =
          some (NO_ERROR, bytesOf "hello")) ∧
      (∃ f : Reader.Subfile, r.files[1]? = some f ∧ f.size = 0 ∧ f.cmp_size = 0 ∧
        (extract_to_buffer f r.stream).map (fun x => (x.1, x.2.2)) = some (NO_ERROR, []))) ∧
    (∃ (r : Reader) (f : Reader.Subfile),
      Reader.new (some (write big_files true).2.data) = some r ∧ r.error = 0 ∧
      r.files[0]? = some f ∧ f.offset = 32 ∧
      (extract_to_buffer f r.stream).map (fun x => (x.1, x.2.2)) =
        some (NO_ERROR, big_payload)) := by
  constructor
  · obtain ⟨r, hr, he, hn, hd, ho, hf, hall⟩ :=
      raw_round_trip example_files true (by decide) (by decide) (by decide) (by decide)
        (by decide)
    obtain ⟨f0, hf0, _, hsz0, hcmp0, hex0⟩ := hall 0 (by decide)
    obtain ⟨st0, hst0, _⟩ := (hex0 (by decide)).2 r.stream hd ho hf
    obtain ⟨f1, hf1, _, hsz1, hcmp1, hex1⟩ := hall 1 (by decide)
    obtain ⟨st1, hst1, _⟩ := (hex1 (by decide)).2 r.stream hd ho hf
    exact ⟨r, hr, he, hn, ⟨f0, hf0, hsz0, hcmp0, by rw [hst0]; rfl⟩,
      ⟨f1, hf1, hsz1, hcmp1, by rw [hst1]; rfl⟩⟩
  · have hok : (write big_files true).1 = NO_ERROR :=
      (write_ok_iff big_files true).mpr ⟨rfl, by
        intro sf hm
        simp only [big_files, List.mem_cons, List.mem_singleton, List.not_mem_nil,
          or_false] at hm
        rcases hm with h | h <;> subst h <;> simp⟩
    obtain ⟨r, hr, he, hn, hd, ho, hf, hall⟩ :=
      raw_round_trip big_files true hok big_files_contents (by decide)
        (fun sf hm => (big_files_fit.2 sf hm).1)
        (fun sf hm => (big_files_fit.2 sf (List.mem_of_mem_dropLast hm)).2)
    obtain ⟨f0, hf0, _, hsz0, hcmp0, hex0⟩ := hall 0 (by decide)
    have e0 : big_files[0] = ⟨some big_payload, []⟩ := rfl
    have hpos : block_offset big_files 0 + 16 + (stored_path big_files[0]).length = 32 := by
      rw [e0, stored_path_length, prepath_mk]
      simp [block_offset]
    rw [hpos] at hex0
    obtain ⟨hoff, hx⟩ := hex0 (by decide)
    obtain ⟨st0, hst0, _⟩ := hx r.stream hd ho hf
    rw [e0, contents_mk] at hst0
    exact ⟨r, f0, hr, he, hf0, hoff, by rw [hst0]; rfl⟩

/-! ## Feeding a sink -/

theorem feed_nil {σ : Type} (outfunc : Outfunc σ) (s : σ) : feed outfunc s [] = (s, []) := rfl

theorem feed_cons {σ : Type} (outfunc : Outfunc σ) (s : σ) (c : List Byte)
    (rest : List (List Byte)) :
    feed outfunc s (c :: rest) =
      if (outfunc s c).1 ≠ 0 then ((outfunc s c).2, [(c, (outfunc s c).1)])
      else ((feed outfunc (outfunc s c).2 rest).1,
        (c, (outfunc s c).1) :: (feed outfunc (outfunc s c).2 rest).2) := rfl

/-- One more chunk after chunks that were all accepted. -/
theorem feed_snoc {σ : Type} (outfunc : Outfunc σ) (c : List Byte) (cs : List (List Byte)) :
    ∀ s, (∀ x ∈ (feed outfunc s cs).2, x.2 = 0) →
      feed outfunc s (cs ++ [c]) =
        ((outfunc (feed outfunc s cs).1 c).2,
          (feed outfunc s cs).2 ++ [(c, (outfunc (feed outfunc s cs).1 c).1)]) := by
  induction cs with
  | nil =>
    intro s _
    show feed outfunc s [c] = _
    rw [feed_cons, feed_nil, feed_nil]
    split <;> rfl
  | cons a rest ih =>
    intro s h
    rw [List.cons_append, feed_cons, feed_cons]
    rw [feed_cons] at h
    by_cases ha : (outfunc s a).1 ≠ 0
    · rw [if_pos ha] at h
      exact absurd (h _ (List.mem_singleton.mpr rfl)) ha
    · rw [if_neg ha] at h
      rw [if_neg ha, if_neg ha, ih _ (fun x hx => h x (List.mem_cons_of_mem _ hx))]
      rfl

/-- After a call that failed, further chunks change nothing. -/
theorem feed_stable {σ : Type} (outfunc : Outfunc σ) (more : List (List Byte))
    (cs : List (List Byte)) :
    ∀ s, (∃ x ∈ (feed outfunc s cs).2, x.2 ≠ 0) →
      feed outfunc s (cs ++ more) = feed outfunc s cs := by
  induction cs with
  | nil =>
    intro s h
    obtain ⟨x, hx, _⟩ := h
    exact absurd hx (List.not_mem_nil x)
  | cons a rest ih =>
    intro s h
    rw [List.cons_append, feed_cons, feed_cons]
    rw [feed_cons] at h
    by_cases ha : (outfunc s a).1 ≠ 0
    · rw [if_pos ha, if_pos ha]
    · rw [if_neg ha] at h
      rw [if_neg ha, if_neg ha]
      obtain ⟨x, hx, hne⟩ := h
      rcases List.mem_cons.mp hx with rfl | hx'
      · exact absurd hne ha
      · rw [ih _ ⟨x, hx', hne⟩]

/-- The chunks of the calls made are the first chunks handed over. -/
theorem feed_chunks {σ : Type} (outfunc : Outfunc σ) (cs : List (List Byte)) :
    ∀ s, (feed outfunc s cs).2.map Prod.fst = cs.take (feed outfunc s cs).2.length := by
  induction cs with
  | nil => intro s; rfl
  | cons a rest ih =>
    intro s
    rw [feed_cons]
    split
    · rfl
    · simp only [List.map_cons, List.length_cons, List.take_succ_cons]
      rw [← ih]

theorem feed_all_zero_chunks {σ : Type} (outfunc : Outfunc σ) (cs : List (List Byte)) :
    ∀ s, (∀ x ∈ (feed outfunc s cs).2, x.2 = 0) →
      (feed outfunc s cs).2.map Prod.fst = cs := by
  induction cs with
  | nil => intro s _; rfl
  | cons a rest ih =>
    intro s h
    rw [feed_cons] at h ⊢
    by_cases ha : (outfunc s a).1 ≠ 0
    · rw [if_pos ha] at h
      exact absurd (h _ (List.mem_singleton.mpr rfl)) ha
    · rw [if_neg ha] at h ⊢
      simp only [List.map_cons]
      rw [ih _ (fun x hx => h x (List.mem_cons_of_mem _ hx))]

theorem SinkSync_init {σ : Type} (outfunc : Outfunc σ) (s0 : σ) :
    SinkSync outfunc s0 (s0, []) [] :=
  ⟨rfl, fun x hx => absurd hx (List.not_mem_nil x)⟩

/-- One call of both sinks while they are level. -/
theorem SinkSync_call {σ : Type} (outfunc : Outfunc σ) (s0 : σ)
    (sa : σ × List (List Byte × Int)) (lr : List (List Byte × Int)) (c : List Byte)
    (h : SinkSync outfunc s0 sa lr) :
    ((outfunc sa.1 c).1 = 0 →
      SinkSync outfunc s0 ((outfunc sa.1 c).2, sa.2 ++ [(c, (outfunc sa.1 c).1)])
        (lr ++ [(c, 0)])) ∧
    ((outfunc sa.1 c).1 ≠ 0 →
      SinkHalt outfunc s0 (outfunc sa.1 c).1
        ((outfunc sa.1 c).2, sa.2 ++ [(c, (outfunc sa.1 c).1)]) (lr ++ [(c, 0)])) := by
  obtain ⟨hf, hz⟩ := h
  have hsn := feed_snoc outfunc c (lr.map Prod.fst) s0 (by rw [hf]; exact hz)
  rw [hf] at hsn
  have hmap : (lr ++ [(c, (0 : Int))]).map Prod.fst = lr.map Prod.fst ++ [c] := by simp
  constructor
  · intro h0
    refine ⟨by rw [hmap]; exact hsn, ?_⟩
    intro x hx
    rcases List.mem_append.mp hx with hx | hx
    · exact hz x hx
    · rw [List.mem_singleton] at hx
      rw [hx]; exact h0
  · intro hne
    exact ⟨hne, by rw [hmap]; exact hsn, _, _, rfl⟩

/-- A sink that has failed stays as it is while the accepting sink goes on. -/
theorem SinkHalt_extend {σ : Type} (outfunc : Outfunc σ) (s0 : σ) (code : Int)
    (sa : σ × List (List Byte × Int)) (lr lr1 : List (List Byte × Int))
    (h : SinkHalt outfunc s0 code sa lr) (hp : lr <+: lr1) :
    SinkHalt outfunc s0 code sa lr1 := by
  obtain ⟨hne, hf, l, d, hl⟩ := h
  obtain ⟨t, rfl⟩ := hp
  refine ⟨hne, ?_, l, d, hl⟩
  rw [List.map_append, feed_stable outfunc _ _ s0 ⟨(d, code), by rw [hf, hl]; simp, hne⟩]
  exact hf

/-! ## The record of the calls only grows -/

theorem CopyByte_log_grows {σ : Type} (g : Outfunc σ) (v : ExtractVars) (st : IfStream)
    (s : σ × List (List Byte × Int)) :
    s.2 <+: (CopyByte v st (logged g) s).2.2.2.2 := by
  rw [CopyByte_eq]
  split_ifs
  · exact List.prefix_refl _
  · exact List.prefix_append _ _
  · exact List.prefix_append _ _

theorem CopyRB_loop_log_grows {σ : Type} (g : Outfunc σ) (offset n : Nat) :
    ∀ (i : Nat) (v : ExtractVars) (s : σ × List (List Byte × Int)),
      s.2 <+: (CopyRB_loop (logged g) offset n i v s).2.2.2 := by
  induction n with
  | zero => intro i v s; exact List.prefix_refl _
  | succ n ih =>
    intro i v s
    rw [CopyRB_loop_succ]
    split_ifs
    · exact List.prefix_append _ _
    · refine List.IsPrefix.trans ?_ (ih (i + 1) _ _)
      exact List.prefix_append _ _

theorem CopyRB_log_grows {σ : Type} (g : Outfunc σ) (v : ExtractVars) (st : IfStream)
    (s : σ × List (List Byte × Int)) :
    s.2 <+: (CopyRB v st (logged g) s).2.2.2.2 := by
  rw [CopyRB_eq]
  split_ifs
  · exact List.prefix_refl _
  · exact CopyRB_loop_log_grows g _ _ _ _ _

theorem extract_bits_log_grows {σ : Type} (g : Outfunc σ) (m_cmp_size : Int) (type_byte : Byte)
    (n i : Nat) (v : ExtractVars) (st : IfStream) (s : σ × List (List Byte × Int)) :
    s.2 <+: (extract_bits (logged g) m_cmp_size type_byte n i v st s).2.2.2.2 :=
  extract_bits_inv (logged g) m_cmp_size (fun r => s.2 <+: r.2.2.2.2)
    (fun v st s1 h => h.trans (CopyByte_log_grows g v st s1))
    (fun v st s1 h => h.trans (CopyRB_log_grows g v st s1))
    type_byte n i v st s (List.prefix_refl _)

theorem after_token_log_grows {σ : Type} (g : Outfunc σ) (m_cmp_size : Int) (type_byte : Byte)
    (n i : Nat) (r : Int × ExtractVars × IfStream × σ × List (List Byte × Int)) :
    r.2.2.2.2 <+: (after_token (logged g) m_cmp_size type_byte n i r).2.2.2.2 := by
  unfold after_token
  split_ifs
  · exact List.prefix_refl _
  · exact List.prefix_refl _
  · exact extract_bits_log_grows g m_cmp_size type_byte n (i + 1) _ _ _

theorem extract_loop_log_grows {σ : Type} (g : Outfunc σ) (m_cmp_size : Int) (fuel : Nat)
    (v : ExtractVars) (st : IfStream) (s : σ × List (List Byte × Int))
    (r : Int × ExtractVars × IfStream × σ × List (List Byte × Int))
    (hr : extract_loop (logged g) m_cmp_size fuel v st s = some r) :
    s.2 <+: r.2.2.2.2 :=
  (extract_loop_inv (logged g) m_cmp_size (fun r => s.2 <+: r.2.2.2.2)
    (fun v st s1 h => h.trans (CopyByte_log_grows g v st s1))
    (fun v st s1 h => h.trans (CopyRB_log_grows g v st s1))
    (fun v st s1 h _ => by split <;> exact h)
    fuel v st s r (List.prefix_refl _) hr).1

theorem extract_raw_loop_log_grows {σ : Type} (g : Outfunc σ) (fuel : Nat) :
    ∀ (bytes : Int) (st : IfStream) (s : σ × List (List Byte × Int))
      (r : Int × IfStream × σ × List (List Byte × Int)),
      extract_raw_loop (logged g) fuel bytes st s = some r → s.2 <+: r.2.2.2 := by
  induction fuel with
  | zero =>
    intro bytes st s r hr
    rw [extract_raw_loop_zero] at hr
    split_ifs at hr
    simp only [Option.some.injEq] at hr
    subst hr
    exact List.prefix_refl _
  | succ fuel ih =>
    intro bytes st s r hr
    rw [extract_raw_loop_succ] at hr
    split_ifs at hr
    · simp only [Option.some.injEq] at hr; subst hr; exact List.prefix_refl _
    · simp only [Option.some.injEq] at hr; subst hr; exact List.prefix_append _ _
    · exact (List.prefix_append _ _).trans (ih _ _ _ _ hr)
    · simp only [Option.some.injEq] at hr; subst hr; exact List.prefix_refl _
    · simp only [Option.some.injEq] at hr; subst hr; exact List.prefix_append _ _
    · simp only [Option.some.injEq] at hr; subst hr; exact List.prefix_append _ _
    · simp only [Option.some.injEq] at hr; subst hr; exact List.prefix_refl _

/-! ## A decode with any sink against the decode with the accepting sink -/

theorem null_logged_code (lr : List (List Byte × Int)) (c : List Byte) :
    ¬ (logged null_outfunc ((), lr) c).1 ≠ 0 := fun h => h rfl

theorem CopyByte_rel {σ : Type} (outfunc : Outfunc σ) (s0 : σ) (v : ExtractVars) (st : IfStream)
    (sa : σ × List (List Byte × Int)) (lr : List (List Byte × Int))
    (h : SinkSync outfunc s0 sa lr) :
    SinkRel outfunc s0 (CopyByte v st (logged outfunc) sa).1
      (CopyByte v st (logged null_outfunc) ((), lr)).1
      ((CopyByte v st (logged outfunc) sa).2.1 =
          (CopyByte v st (logged null_outfunc) ((), lr)).2.1 ∧
        (CopyByte v st (logged outfunc) sa).2.2.1 =
          (CopyByte v st (logged null_outfunc) ((), lr)).2.2.1)
      (CopyByte v st (logged outfunc) sa).2.2.2
      (CopyByte v st (logged null_outfunc) ((), lr)).2.2.2.2 := by
  rw [CopyByte_eq, CopyByte_eq]
  by_cases hf : (st.read 1).2.fail = true
  · rw [if_pos hf, if_pos hf]
    exact Or.inl ⟨rfl, ⟨rfl, rfl⟩, h⟩
  · rw [if_neg hf, if_neg hf, if_neg (null_logged_code lr _)]
    have hc := SinkSync_call outfunc s0 sa lr [(st.read 1).1.getD 0 0] h
    by_cases he : (outfunc sa.1 [(st.read 1).1.getD 0 0]).1 ≠ 0
    · rw [if_pos (show (logged outfunc sa [(st.read 1).1.getD 0 0]).1 ≠ 0 from he)]
      exact Or.inr (hc.2 he)
    · rw [if_neg (show ¬ (logged outfunc sa [(st.read 1).1.getD 0 0]).1 ≠ 0 from he)]
      exact Or.inl ⟨rfl, ⟨rfl, rfl⟩, hc.1 (not_not.mp he)⟩

theorem CopyRB_loop_rel {σ : Type} (outfunc : Outfunc σ) (s0 : σ) (offset n : Nat) :
    ∀ (i : Nat) (v : ExtractVars) (sa : σ × List (List Byte × Int))
      (lr : List (List Byte × Int)), SinkSync outfunc s0 sa lr →
      SinkRel outfunc s0 (CopyRB_loop (logged outfunc) offset n i v sa).1
        (CopyRB_loop (logged null_outfunc) offset n i v ((), lr)).1
        ((CopyRB_loop (logged outfunc) offset n i v sa).2.1 =
          (CopyRB_loop (logged null_outfunc) offset n i v ((), lr)).2.1)
        (CopyRB_loop (logged outfunc) offset n i v sa).2.2
        (CopyRB_loop (logged null_outfunc) offset n i v ((), lr)).2.2.2 := by
  induction n with
  | zero => intro i v sa lr h; exact Or.inl ⟨rfl, rfl, h⟩
  | succ n ih =>
    intro i v sa lr h
    rw [CopyRB_loop_succ, CopyRB_loop_succ, if_neg (null_logged_code lr _)]
    have hc := SinkSync_call outfunc s0 sa lr [v.ring_buffer.getD ((offset + i) % 4096) 0] h
    by_cases he : (outfunc sa.1 [v.ring_buffer.getD ((offset + i) % 4096) 0]).1 ≠ 0
    · rw [if_pos (show (logged outfunc sa
        [v.ring_buffer.getD ((offset + i) % 4096) 0]).1 ≠ 0 from he)]
      exact Or.inr (SinkHalt_extend outfunc s0 _ _ _ _ (hc.2 he)
        (CopyRB_loop_log_grows null_outfunc offset n (i + 1) _
          (logged null_outfunc ((), lr) [v.ring_buffer.getD ((offset + i) % 4096) 0]).2))
    · rw [if_neg (show ¬ (logged outfunc sa
        [v.ring_buffer.getD ((offset + i) % 4096) 0]).1 ≠ 0 from he)]
      exact ih _ _ _ _ (hc.1 (not_not.mp he))

theorem CopyRB_rel {σ : Type} (outfunc : Outfunc σ) (s0 : σ) (v : ExtractVars) (st : IfStream)
    (sa : σ × List (List Byte × Int)) (lr : List (List Byte × Int))
    (h : SinkSync outfunc s0 sa lr) :
    SinkRel outfunc s0 (CopyRB v st (logged outfunc) sa).1
      (CopyRB v st (logged null_outfunc) ((), lr)).1
      ((CopyRB v st (logged outfunc) sa).2.1 =
          (CopyRB v st (logged null_outfunc) ((), lr)).2.1 ∧
        (CopyRB v st (logged outfunc) sa).2.2.1 =
          (CopyRB v st (logged null_outfunc) ((), lr)).2.2.1)
      (CopyRB v st (logged outfunc) sa).2.2.2
      (CopyRB v st (logged null_outfunc) ((), lr)).2.2.2.2 := by
  rw [CopyRB_eq, CopyRB_eq]
  by_cases hf : (st.read 2).2.fail = true
  · rw [if_pos hf, if_pos hf]
    exact Or.inl ⟨rfl, ⟨rfl, rfl⟩, h⟩
  · rw [if_neg hf, if_neg hf]
    rcases CopyRB_loop_rel outfunc s0
      (((st.read 2).1.getD 0 0).val ||| ((((st.read 2).1.getD 1 0).val &&& 0xf0) <<< 4))
      ((((st.read 2).1.getD 1 0).val &&& 0xf) + 3) 0 { v with in_pos := v.in_pos + 2 } sa lr h
      with ⟨hc, hv, hs⟩ | hh
    · exact Or.inl ⟨hc, ⟨hv, rfl⟩, hs⟩
    · exact Or.inr hh

theorem extract_bits_rel {σ : Type} (outfunc : Outfunc σ) (s0 : σ) (m_cmp_size : Int)
    (type_byte : Byte) (n : Nat) :
    ∀ (i : Nat) (v : ExtractVars) (st : IfStream) (sa : σ × List (List Byte × Int))
      (lr : List (List Byte × Int)), SinkSync outfunc s0 sa lr →
      SinkRel outfunc s0 (extract_bits (logged outfunc) m_cmp_size type_byte n i v st sa).1
        (extract_bits (logged null_outfunc) m_cmp_size type_byte n i v st ((), lr)).1
        ((extract_bits (logged outfunc) m_cmp_size type_byte n i v st sa).2.1 =
            (extract_bits (logged null_outfunc) m_cmp_size type_byte n i v st ((), lr)).2.1 ∧
          (extract_bits (logged outfunc) m_cmp_size type_byte n i v st sa).2.2.1 =
            (extract_bits (logged null_outfunc) m_cmp_size type_byte n i v st ((), lr)).2.2.1)
        (extract_bits (logged outfunc) m_cmp_size type_byte n i v st sa).2.2.2
        (extract_bits (logged null_outfunc) m_cmp_size type_byte n i v st ((), lr)).2.2.2.2 := by
  have key : ∀ (n : Nat), (∀ (i : Nat) (v : ExtractVars) (st : IfStream)
      (sa : σ × List (List Byte × Int)) (lr : List (List Byte × Int)),
      SinkSync outfunc s0 sa lr →
      SinkRel outfunc s0 (extract_bits (logged outfunc) m_cmp_size type_byte n i v st sa).1
        (extract_bits (logged null_outfunc) m_cmp_size type_byte n i v st ((), lr)).1
        ((extract_bits (logged outfunc) m_cmp_size type_byte n i v st sa).2.1 =
            (extract_bits (logged null_outfunc) m_cmp_size type_byte n i v st ((), lr)).2.1 ∧
          (extract_bits (logged outfunc) m_cmp_size type_byte n i v st sa).2.2.1 =
            (extract_bits (logged null_outfunc) m_cmp_size type_byte n i v st ((), lr)).2.2.1)
        (extract_bits (logged outfunc) m_cmp_size type_byte n i v st sa).2.2.2
        (extract_bits (logged null_outfunc) m_cmp_size type_byte n i v st ((), lr)).2.2.2.2) →
      ∀ (i : Nat) (ra : Int × ExtractVars × IfStream × σ × List (List Byte × Int))
        (rr : Int × ExtractVars × IfStream × Unit × List (List Byte × Int)),
        SinkRel outfunc s0 ra.1 rr.1 (ra.2.1 = rr.2.1 ∧ ra.2.2.1 = rr.2.2.1) ra.2.2.2
          rr.2.2.2.2 →
        SinkRel outfunc s0 (after_token (logged outfunc) m_cmp_size type_byte n i ra).1
          (after_token (logged null_outfunc) m_cmp_size type_byte n i rr).1
          ((after_token (logged outfunc) m_cmp_size type_byte n i ra).2.1 =
              (after_token (logged null_outfunc) m_cmp_size type_byte n i rr).2.1 ∧
            (after_token (logged outfunc) m_cmp_size type_byte n i ra).2.2.1 =
              (after_token (logged null_outfunc) m_cmp_size type_byte n i rr).2.2.1)
          (after_token (logged outfunc) m_cmp_size type_byte n i ra).2.2.2
          (after_token (logged null_outfunc) m_cmp_size type_byte n i rr).2.2.2.2 := by
    intro n ih i ra rr h
    rcases h with ⟨hc, ⟨hv, hst⟩, hs⟩ | hh
    · obtain ⟨ca, va, sta, sa⟩ := ra
      obtain ⟨cr, vr, str, u, lr⟩ := rr
      dsimp only at hc hv hst hs
      subst hc hv hst
      unfold after_token
      by_cases hc : cr ≠ 0
      · rw [if_pos hc, if_pos hc]
        exact Or.inl ⟨rfl, ⟨rfl, rfl⟩, hs⟩
      · rw [if_neg hc, if_neg hc]
        by_cases hp : va.in_pos ≥ m_cmp_size
        · rw [if_pos hp, if_pos hp]
          exact Or.inl ⟨rfl, ⟨rfl, rfl⟩, hs⟩
        · rw [if_neg hp, if_neg hp]
          exact ih _ _ _ _ _ hs
    · have hra : after_token (logged outfunc) m_cmp_size type_byte n i ra = ra := by
        unfold after_token
        rw [if_pos hh.1]
      rw [hra]
      exact Or.inr (SinkHalt_extend outfunc s0 _ _ _ _ hh
        (after_token_log_grows null_outfunc m_cmp_size type_byte n i rr))
  induction n with
  | zero => intro i v st sa lr h; exact Or.inl ⟨rfl, ⟨rfl, rfl⟩, h⟩
  | succ n ih =>
    intro i v st sa lr h
    rw [extract_bits_succ, extract_bits_succ]
    by_cases hb : type_byte.val &&& (0x1 <<< i) ≠ 0
    · rw [if_pos hb, if_pos hb]
      exact key n ih i _ _ (CopyByte_rel outfunc s0 v st sa lr h)
    · rw [if_neg hb, if_neg hb]
      exact key n ih i _ _ (CopyRB_rel outfunc s0 v st sa lr h)

theorem extract_loop_rel {σ : Type} (outfunc : Outfunc σ) (s0 : σ) (m_cmp_size : Int)
    (fuel : Nat) :
    ∀ (v : ExtractVars) (st : IfStream) (sa : σ × List (List Byte × Int))
      (lr : List (List Byte × Int))
      (ra : Int × ExtractVars × IfStream × σ × List (List Byte × Int))
      (rr : Int × ExtractVars × IfStream × Unit × List (List Byte × Int)),
      SinkSync outfunc s0 sa lr →
      extract_loop (logged outfunc) m_cmp_size fuel v st sa = some ra →
      extract_loop (logged null_outfunc) m_cmp_size fuel v st ((), lr) = some rr →
      SinkRel outfunc s0 ra.1 rr.1 (ra.2.2.1 = rr.2.2.1) ra.2.2.2 rr.2.2.2.2 := by
  induction fuel with
  | zero =>
    intro v st sa lr ra rr h ha hr
    rw [extract_loop_zero] at ha hr
    by_cases hlt : v.in_pos < m_cmp_size
    · rw [if_pos hlt] at ha; exact absurd ha (by simp)
    · rw [if_neg hlt] at ha hr
      simp only [Option.some.injEq] at ha hr
      subst ha hr
      exact Or.inl ⟨rfl, rfl, h⟩
  | succ fuel ih =>
    intro v st sa lr ra rr h ha hr
    rw [extract_loop_succ] at ha hr
    by_cases hlt : v.in_pos < m_cmp_size
    · rw [if_pos hlt] at ha hr
      by_cases hf : (st.read 1).2.fail = true
      · rw [if_pos hf] at ha hr
        simp only [Option.some.injEq] at ha hr
        subst ha hr
        exact Or.inl ⟨rfl, rfl, h⟩
      · rw [if_neg hf] at ha hr
        have hb := extract_bits_rel outfunc s0 m_cmp_size ((st.read 1).1.getD 0 0) 8 0
          { v with in_pos := v.in_pos + 1 } (st.read 1).2 sa lr h
        generalize extract_bits (logged outfunc) m_cmp_size ((st.read 1).1.getD 0 0) 8 0
          { v with in_pos := v.in_pos + 1 } (st.read 1).2 sa = ba at ha hb
        generalize extract_bits (logged null_outfunc) m_cmp_size ((st.read 1).1.getD 0 0) 8 0
          { v with in_pos := v.in_pos + 1 } (st.read 1).2 ((), lr) = br at hr hb
        rcases hb with ⟨hc, ⟨hv, hst⟩, hs⟩ | hh
        · obtain ⟨ca, va, sta, sa1⟩ := ba
          obtain ⟨cr, vr, str, u, lr1⟩ := br
          dsimp only at hc hv hst hs ha hr
          subst hc hv hst
          by_cases hc : cr ≠ 0
          · rw [if_pos hc] at ha hr
            simp only [Option.some.injEq] at ha hr
            subst ha hr
            exact Or.inl ⟨rfl, rfl, hs⟩
          · rw [if_neg hc] at ha hr
            exact ih _ _ _ _ _ _ hs ha hr
        · dsimp only at ha hr
          rw [if_pos hh.1] at ha
          simp only [Option.some.injEq] at ha
          subst ha
          by_cases hc : br.1 ≠ 0
          · rw [if_pos hc] at hr
            simp only [Option.some.injEq] at hr
            subst hr
            exact Or.inr hh
          · rw [if_neg hc] at hr
            exact Or.inr (SinkHalt_extend outfunc s0 _ _ _ _ hh
              (extract_loop_log_grows null_outfunc m_cmp_size fuel _ _ _ _ hr))
    · rw [if_neg hlt] at ha hr
      simp only [Option.some.injEq] at ha hr
      subst ha hr
      exact Or.inl ⟨rfl, rfl, h⟩

theorem extract_raw_loop_rel {σ : Type} (outfunc : Outfunc σ) (s0 : σ) (fuel : Nat) :
    ∀ (bytes : Int) (st : IfStream) (sa : σ × List (List Byte × Int))
      (lr : List (List Byte × Int)) (ra : Int × IfStream × σ × List (List Byte × Int))
      (rr : Int × IfStream × Unit × List (List Byte × Int)),
      SinkSync outfunc s0 sa lr →
      extract_raw_loop (logged outfunc) fuel bytes st sa = some ra →
      extract_raw_loop (logged null_outfunc) fuel bytes st ((), lr) = some rr →
      SinkRel outfunc s0 ra.1 rr.1 (ra.2.1 = rr.2.1) ra.2.2 rr.2.2.2 := by
  induction fuel with
  | zero =>
    intro bytes st sa lr ra rr h ha hr
    rw [extract_raw_loop_zero] at ha hr
    by_cases h0 : bytes > 0
    · rw [if_pos h0] at ha; exact absurd ha (by simp)
    · rw [if_neg h0] at ha hr
      simp only [Option.some.injEq] at ha hr
      subst ha hr
      exact Or.inl ⟨rfl, rfl, h⟩
  | succ fuel ih =>
    intro bytes st sa lr ra rr h ha hr
    rw [extract_raw_loop_succ] at ha hr
    by_cases h0 : bytes > 0
    · rw [if_pos h0] at ha hr
      by_cases h1 : bytes ≥ (NSPRE_CHUNK_SIZE : Int)
      · rw [if_pos h1] at ha hr
        by_cases hf : (st.read NSPRE_CHUNK_SIZE).2.fail = true
        · rw [if_pos hf] at ha hr
          simp only [Option.some.injEq] at ha hr
          subst ha hr
          exact Or.inl ⟨rfl, rfl, h⟩
        · rw [if_neg hf] at ha hr
          rw [if_neg (null_logged_code lr _)] at hr
          have hc := SinkSync_call outfunc s0 sa lr (st.read NSPRE_CHUNK_SIZE).1 h
          by_cases he : (outfunc sa.1 (st.read NSPRE_CHUNK_SIZE).1).1 ≠ 0
          · rw [if_pos (show (logged outfunc sa (st.read NSPRE_CHUNK_SIZE).1).1 ≠ 0
              from he)] at ha
            simp only [Option.some.injEq] at ha
            subst ha
            exact Or.inr (SinkHalt_extend outfunc s0 _ _ _ _ (hc.2 he)
              (extract_raw_loop_log_grows null_outfunc fuel _ _ _ _ hr))
          · rw [if_neg (show ¬ (logged outfunc sa (st.read NSPRE_CHUNK_SIZE).1).1 ≠ 0
              from he)] at ha
            exact ih _ _ _ _ _ _ (hc.1 (not_not.mp he)) ha hr
      · rw [if_neg h1] at ha hr
        by_cases hf : (st.read bytes.toNat).2.fail = true
        · rw [if_pos hf] at ha hr
          simp only [Option.some.injEq] at ha hr
          subst ha hr
          exact Or.inl ⟨rfl, rfl, h⟩
        · rw [if_neg hf] at ha hr
          rw [if_neg (null_logged_code lr _)] at hr
          have hc := SinkSync_call outfunc s0 sa lr (st.read bytes.toNat).1 h
          simp only [Option.some.injEq] at hr
          subst hr
          by_cases he : (outfunc sa.1 (st.read bytes.toNat).1).1 ≠ 0
          · rw [if_pos (show (logged outfunc sa (st.read bytes.toNat).1).1 ≠ 0
              from he)] at ha
            simp only [Option.some.injEq] at ha
            subst ha
            exact Or.inr (hc.2 he)
          · rw [if_neg (show ¬ (logged outfunc sa (st.read bytes.toNat).1).1 ≠ 0
              from he)] at ha
            simp only [Option.some.injEq] at ha
            subst ha
            exact Or.inl ⟨rfl, rfl, hc.1 (not_not.mp he)⟩
    · rw [if_neg h0] at ha hr
      simp only [Option.some.injEq] at ha hr
      subst ha hr
      exact Or.inl ⟨rfl, rfl, h⟩

/-- Extraction with the sink `outfunc` against extraction with the accepting
sink: they return the same code and stream with `outfunc` having accepted
every chunk, or `outfunc` has failed on one of the chunks and its code is the
code returned. -/
theorem extract_rel {σ : Type} (f : Reader.Subfile) (stream : IfStream) (outfunc : Outfunc σ)
    (s0 : σ) (ra : Int × IfStream × σ × List (List Byte × Int))
    (rr : Int × IfStream × Unit × List (List Byte × Int))
    (ha : extract f stream (logged outfunc) (s0, []) = some ra)
    (hr : extract f stream (logged null_outfunc) ((), []) = some rr) :
    SinkRel outfunc s0 ra.1 rr.1 (ra.2.1 = rr.2.1) ra.2.2 rr.2.2.2 := by
  have h := SinkSync_init outfunc s0
  by_cases ho : stream.is_open = true
  · by_cases hs : (stream.seekg f.m_offset).failbit = true
    · rw [extract_seek_fail f stream _ _ ho hs] at ha hr
      simp only [Option.some.injEq] at ha hr
      subst ha hr
      exact Or.inl ⟨rfl, rfl, h⟩
    · have hs' : (stream.seekg f.m_offset).failbit = false := by simpa using hs
      by_cases hc : f.m_cmp_size = 0
      · rw [extract_raw f stream _ _ ho hs' hc] at ha hr
        exact extract_raw_loop_rel outfunc s0 _ _ _ _ _ _ _ h ha hr
      · have hfuel : f.m_cmp_size - ExtractVars.new.in_pos ≤ (f.m_cmp_size.toNat : Int) := by
          have h0 : ExtractVars.new.in_pos = 0 := rfl
          rw [h0]
          have := Int.self_le_toNat f.m_cmp_size
          omega
        obtain ⟨la, hla⟩ := extract_loop_total (logged outfunc) f.m_cmp_size f.m_cmp_size.toNat
          ExtractVars.new (stream.seekg f.m_offset) (s0, []) hfuel
        obtain ⟨lr, hlr⟩ := extract_loop_total (logged null_outfunc) f.m_cmp_size
          f.m_cmp_size.toNat ExtractVars.new (stream.seekg f.m_offset) ((), []) hfuel
        rw [extract_compressed f stream _ _ ho hs' hc la hla] at ha
        rw [extract_compressed f stream _ _ ho hs' hc lr hlr] at hr
        simp only [Option.some.injEq] at ha hr
        subst ha hr
        exact extract_loop_rel outfunc s0 _ _ _ _ _ _ _ _ h hla hlr
  · have ho' : stream.is_open = false := by simpa using ho
    rw [extract_closed f stream _ _ ho'] at ha hr
    simp only [Option.some.injEq] at ha hr
    subst ha hr
    exact Or.inl ⟨rfl, rfl, h⟩

/-- In any extraction a call of the sink that returned a nonzero code is the
last call, and its code is the code extraction returns; the recording sink
leaves the code, the stream and the sink state as they are without it. -/
theorem extract_failed_call_last {σ : Type} (f : Reader.Subfile) (stream : IfStream)
    (outfunc : Outfunc σ) (s0 : σ) :
    ∃ code stream1 s1 log,
      extract f stream (logged outfunc) (s0, []) = some (code, stream1, (s1, log)) ∧
      extract f stream outfunc s0 = some (code, stream1, s1) ∧
      (∀ k, k < log.length → (log.getD k ([], 0)).2 ≠ 0 →
        k + 1 = log.length ∧ code = (log.getD k ([], 0)).2) := by
  obtain ⟨r, hr⟩ := extract_total f stream (logged outfunc) (s0, [])
  obtain ⟨code, stream1, s1, log⟩ := r
  have hfin : Final code log := extract_final f stream outfunc (s0, []) _
    (fun k hk => absurd hk (Nat.not_lt_zero k)) hr
  have hsim := extract_logged f stream outfunc (s0, [])
  rw [hr] at hsim
  exact ⟨code, stream1, s1, log, hr, hsim.symm, hfin⟩

theorem chunks_split (cs : List (List Byte)) (k : Nat) (hk1 : 1 ≤ k) (hk : k ≤ cs.length) :
    cs = (cs.take (k - 1) ++ [cs.getD (k - 1) []]) ++ cs.drop k := by
  have hlt : k - 1 < cs.length := by omega
  have h1 : cs.getD (k - 1) [] = cs[k - 1] := List.getD_eq_getElem cs [] hlt
  have h2 : cs.drop (k - 1) = cs[k - 1] :: cs.drop (k - 1 + 1) := List.drop_eq_getElem_cons hlt
  have h3 : k - 1 + 1 = k := by omega
  rw [h3] at h2
  rw [h1, List.append_assoc, List.singleton_append, ← h2, List.take_append_drop]

/-- C15 (sink error pass-through): let log0 be the chunks that extraction of a
record, raw or compressed, hands to a sink that accepts every chunk.  If a sink
outfunc, handed these chunks one after the other from its state s0, returns 0
on the first k - 1 of them and a nonzero code e on chunk k, then extraction
with outfunc returns e at once: the calls made to outfunc are exactly the first
k chunks, k - 1 with code 0 and the last with code e, the sink is left in the
state after that call and is not called again.  With k = 1 this is a sink
failing on its first call: it is called once and extract returns its code. -/
theorem sink_error_passthrough {σ : Type} (f : Reader.Subfile) (stream : IfStream)
    (outfunc : Outfunc σ) (s0 : σ) (code0 : Int) (stream0 : IfStream)
    (log0 : List (List Byte × Int)) (k : Nat) (e : Int)
    (hread : extract f stream (logged null_outfunc) ((), []) = some (code0, stream0, ((), log0)))
    (hk1 : 1 ≤ k) (hk : k ≤ log0.length)
    (hzero : ∀ x ∈ (feed outfunc s0 ((log0.map Prod.fst).take (k - 1))).2, x.2 = 0)
    (hfail : (outfunc (feed outfunc s0 ((log0.map Prod.fst).take (k - 1))).1
      ((log0.map Prod.fst).getD (k - 1) [])).1 = e)
    (he : e ≠ 0) :
    ∃ stream1,
      extract f stream (logged outfunc) (s0, []) =
        some (e, stream1,
          ((outfunc (feed outfunc s0 ((log0.map Prod.fst).take (k - 1))).1
              ((log0.map Prod.fst).getD (k - 1) [])).2,
            (feed outfunc s0 ((log0.map Prod.fst).take (k - 1))).2 ++
              [((log0.map Prod.fst).getD (k - 1) [], e)])) ∧
      extract f stream outfunc s0 =
        some (e, stream1,
          (outfunc (feed outfunc s0 ((log0.map Prod.fst).take (k - 1))).1
            ((log0.map Prod.fst).getD (k - 1) [])).2) ∧
      (feed outfunc s0 ((log0.map Prod.fst).take (k - 1))).2.map Prod.fst =
        (log0.map Prod.fst).take (k - 1) ∧
      (feed outfunc s0 ((log0.map Prod.fst).take (k - 1))).2.length = k - 1 := by
  have hklen : k ≤ (log0.map Prod.fst).length := by rw [List.length_map]; exact hk
  generalize hcs : log0.map Prod.fst = cs at hklen hzero hfail ⊢
  have hsplit := chunks_split cs k hk1 hklen
  have hsn := feed_snoc outfunc (cs.getD (k - 1) []) (cs.take (k - 1)) s0 hzero
  rw [hfail] at hsn
  have hst := feed_stable outfunc (cs.drop k) (cs.take (k - 1) ++ [cs.getD (k - 1) []]) s0
    ⟨(cs.getD (k - 1) [], e), by rw [hsn]; simp, he⟩
  rw [← hsplit, hsn] at hst
  have hchunks := feed_all_zero_chunks outfunc (cs.take (k - 1)) s0 hzero
  have hlen : (feed outfunc s0 (cs.take (k - 1))).2.length = k - 1 := by
    have := congrArg List.length hchunks
    rw [List.length_map, List.length_take] at this
    omega
  obtain ⟨ra, hra⟩ := extract_total f stream (logged outfunc) (s0, [])
  have hrel := extract_rel f stream outfunc s0 ra _ hra hread
  obtain ⟨ca, sta, sa⟩ := ra
  have hmain : ca = e ∧ sa = ((outfunc (feed outfunc s0 (cs.take (k - 1))).1
      (cs.getD (k - 1) [])).2,
      (feed outfunc s0 (cs.take (k - 1))).2 ++ [(cs.getD (k - 1) [], e)]) := by
    rcases hrel with ⟨_, _, hsync, hz⟩ | ⟨_, hfd, l, d, hl⟩
    · exfalso
      dsimp only at hsync hz
      rw [hcs, hst] at hsync
      exact he (hz (cs.getD (k - 1) [], e) (by rw [← hsync]; simp))
    · dsimp only at hfd hl
      rw [hcs, hst] at hfd
      rw [← hfd] at hl
      have hlast := (List.append_inj' hl rfl).2
      simp only [List.cons.injEq, Prod.mk.injEq, and_true] at hlast
      exact ⟨hlast.2.symm, hfd.symm⟩
  obtain ⟨hca, hsa⟩ := hmain
  subst hca hsa
  have hsim := extract_logged f stream outfunc (s0, [])
  rw [hra] at hsim
  exact ⟨sta, hra, hsim.symm, hchunks, hlen⟩

/-- A compressed record of two literals (type byte 03, then 41 and 42) with a
sink that counts its calls and returns 7 on the second: extract returns 7, the
sink was called twice, with the chunks 41 and 42.  A raw record of three bytes
with a sink that returns 9 on every call: extract returns 9 after one call. -/
theorem sink_error_passthrough_witness :
    (∃ stream1,
      extract ⟨[], [], 3, 2, 0⟩ ⟨[0x03, 0x41, 0x42], 0, true, false⟩
        (logged (fun (n : Nat) (_ : List Byte) => ((if n = 1 then 7 else 0 : Int), n + 1)))
        (0, []) = some (7, stream1, (2, [([0x41], 0), ([0x42], 7)])) ∧
      extract ⟨[], [], 3, 2, 0⟩ ⟨[0x03, 0x41, 0x42], 0, true, false⟩
        (fun (n : Nat) (_ : List Byte) => ((if n = 1 then 7 else 0 : Int), n + 1)) 0 =
        some (7, stream1, 2)) ∧
    (∃ stream1,
      extract ⟨[], [], 0, 3, 1⟩ ⟨[9, 1, 2, 3, 7], 0, true, false⟩
        (logged (fun (n : Nat) (_ : List Byte) => ((9 : Int), n + 1))) (0, []) =
        some (9, stream1, (1, [([1, 2, 3], 9)])) ∧
      extract ⟨[], [], 0, 3, 1⟩ ⟨[9, 1, 2, 3, 7], 0, true, false⟩
        (fun (n : Nat) (_ : List Byte) => ((9 : Int), n + 1)) 0 = some (9, stream1, 1)) := by
  constructor
  · obtain ⟨stream1, h1, h2, _, _⟩ := sink_error_passthrough
      ⟨[], [], 3, 2, 0⟩ ⟨[0x03, 0x41, 0x42], 0, true, false⟩
      (fun (n : Nat) (_ : List Byte) => ((if n = 1 then 7 else 0 : Int), n + 1)) 0
      0 ⟨[0x03, 0x41, 0x42], 3, true, false⟩ [([0x41], 0), ([0x42], 0)] 2 7
      (by with_unfolding_all rfl) (by decide) (by decide)
      (by with_unfolding_all decide) (by with_unfolding_all decide) (by decide)
    exact ⟨stream1, h1, h2⟩
  · obtain ⟨stream1, h1, h2, _, _⟩ := sink_error_passthrough
      ⟨[], [], 0, 3, 1⟩ ⟨[9, 1, 2, 3, 7], 0, true, false⟩
      (fun (n : Nat) (_ : List Byte) => ((9 : Int), n + 1)) 0
      0 ⟨[9, 1, 2, 3, 7], 4, true, false⟩ [([1, 2, 3], 0)] 1 9
      (by with_unfolding_all rfl) (by decide) (by decide)
      (by with_unfolding_all decide) (by with_unfolding_all decide) (by decide)
    exact ⟨stream1, h1, h2⟩

/-! ## The reader when the skip after a block overflows -/

theorem span_skip_wraps (c : Nat) (hc : c < 2147483648)
    (h : 2147483648 ≤ c + (if c % 4 = 0 then 0 else 4 - c % 4)) :
    toInt32 ((c : Int) + (if Int.tmod (c : Int) 4 ≠ 0 then 4 - Int.tmod (c : Int) 4 else 0)) ≤
      0 := by
  have ht : Int.tmod (c : Int) 4 = (c : Int) % 4 :=
    Int.tmod_eq_emod (Int.ofNat_nonneg _) (by decide)
  rw [ht]
  unfold toInt32
  split at h <;> split <;> omega

theorem IfStream.ignore_nonpos (s : IfStream) (n : Int) (h : n ≤ 0) : s.ignore n = s := by
  unfold IfStream.ignore
  by_cases h1 : s.failbit = true
  · rw [if_pos h1]
  · rw [if_neg h1, if_pos h]

theorem read_header_raw (header : List Byte) (blocks : List RawBlock)
    (hh : header.length = 12) :
    IfStream.read ⟨raw_archive header blocks, 0, true, false⟩ 12 =
      (header, ⟨raw_archive header blocks, 12, true, false⟩) := by
  have ht : (raw_archive header blocks).take 12 = header := by
    unfold raw_archive
    rw [← hh, List.take_left]
  rw [IfStream.read_ok _ _ rfl (by
    show 0 + 12 ≤ (raw_archive header blocks).length
    unfold raw_archive
    rw [List.length_append, hh]; omega)]
  show ((List.drop 0 (raw_archive header blocks)).take 12,
    (⟨raw_archive header blocks, 0 + 12, true, false⟩ : IfStream)) = _
  rw [List.drop_zero, ht]

/-- One iteration of the loop of the constructor, on a well-formed block whose
payload span and padding have a sum of 2^31 or more: the record is appended,
the `int` sum is not positive and nothing is skipped, so that the stream is
left at the start of the payload. -/
theorem Reader_loop_skip_wraps (n : Nat) (b : RawBlock) (hwf : b.wf)
    (hsum : 2147483648 ≤ b.payload_span + b.pad) (pre post : List Byte)
    (m_files : List Reader.Subfile) :
    Reader_loop (n + 1) ⟨pre ++ b.bytes ++ post, pre.length, true, false⟩ m_files =
      Reader_loop n ⟨pre ++ b.bytes ++ post, pre.length + 16 + b.path.length, true, false⟩
        (m_files ++ [Reader.Subfile.new b.subheader b.path
          (toInt32 ((pre.length + 16 + b.path.length : Nat) : Int))]) := by
  obtain ⟨h16, hpl, hdl, hpad, hsz, hcmp, hps⟩ := hwf
  have fpl : Read32LE_int (b.subheader.drop 8) = (b.path.length : Int) := by
    rw [Read32LE_int, show Read32LE (b.subheader.drop 8) = b.path_size from rfl,
      toInt32_of_lt _ hps, hpl]
  have fsz : Read32LE_int b.subheader = (b.size : Int) := by
    rw [Read32LE_int, show Read32LE b.subheader = b.size from rfl, toInt32_of_lt _ hsz]
  have fcmp : Read32LE_int (b.subheader.drop 4) = (b.cmp_size : Int) := by
    rw [Read32LE_int, show Read32LE (b.subheader.drop 4) = b.cmp_size from rfl,
      toInt32_of_lt _ hcmp]
  have hbl := RawBlock.bytes_length b
  have r1 : IfStream.read ⟨pre ++ b.bytes ++ post, pre.length, true, false⟩ 16 =
      (b.subheader, ⟨pre ++ b.bytes ++ post, pre.length + 16, true, false⟩) := by
    have := IfStream.read_mid pre b.bytes post true 0 16 (by omega)
    have htake : b.bytes.take 16 = b.subheader := by
      simp only [RawBlock.bytes, List.append_assoc]
      rw [← h16, List.take_left]
    rw [Nat.add_zero, List.drop_zero, htake] at this
    exact this
  have r2 : IfStream.read ⟨pre ++ b.bytes ++ post, pre.length + 16, true, false⟩
      (Read32LE_int (b.subheader.drop 8)).toNat = (b.path,
        ⟨pre ++ b.bytes ++ post, pre.length + 16 + b.path.length, true, false⟩) := by
    rw [fpl, Int.toNat_ofNat]
    have := IfStream.read_mid pre b.bytes post true 16 b.path.length (by omega)
    rw [this]
    have hdrop : b.bytes.drop 16 = b.path ++ (b.payload ++ b.padding) := by
      simp only [RawBlock.bytes, List.append_assoc]
      rw [← h16, List.drop_left]
    rw [hdrop, List.take_left]
  have hstep := Reader_loop_step n _ m_files _ _ _ _ r1 rfl (by rw [fpl]; omega) r2 rfl
  rw [hstep]
  have hnew : (Reader.Subfile.new b.subheader b.path
      (toInt32 (IfStream.tellg ⟨pre ++ b.bytes ++ post,
          pre.length + 16 + b.path.length, true, false⟩))) =
      Reader.Subfile.new b.subheader b.path
        (toInt32 ((pre.length + 16 + b.path.length : Nat) : Int)) := rfl
  rw [hnew]
  rw [Reader.Subfile.new_cmp_size, Reader.Subfile.new_size, fcmp, fsz]
  have hspan : (if (b.cmp_size : Int) ≠ 0 then (b.cmp_size : Int) else (b.size : Int)) =
      ((b.payload_span : Nat) : Int) := by
    unfold RawBlock.payload_span
    by_cases h0 : b.cmp_size = 0
    · rw [h0]; simp
    · rw [if_pos h0, if_pos (by exact_mod_cast h0)]
  have hlt : b.payload_span < 2147483648 := by
    unfold RawBlock.payload_span
    split <;> assumption
  rw [hspan, IfStream.ignore_nonpos _ _ (span_skip_wraps b.payload_span hlt hsum)]

theorem wide_payload_length : wide_payload.length = 2147483647 :=
  List.length_replicate _ _

theorem wide_payload_split :
    wide_payload = List.replicate 16 0 ++ List.replicate 2147483631 0 :=
  List.replicate_add 16 2147483631 0

theorem wide_blocks_wf : ∀ b ∈ wide_blocks, b.wf := by
  intro b hm
  simp only [wide_blocks, List.mem_cons, List.mem_singleton, List.not_mem_nil, or_false] at hm
  rcases hm with h | h <;> subst h
  · refine ⟨rfl, rfl, ?_, by decide, by decide, by decide, by decide⟩
    rw [RawBlock.payload_mk, wide_payload_length]
    decide
  · exact ⟨rfl, rfl, by decide, by decide, by decide, by decide, by decide⟩

/-- Why the skip after a block has to fit an `int`: a header with count 2
followed by two well-formed blocks whose size fields are all below 2^31, the
first with a payload of 2^31 - 1 bytes and one byte of padding.  The `int` sum
file_size + padding is 2^31 and wraps, nothing is skipped, and the second
record is read from the payload of the first: open succeeds with error() == 0
and two records, but record 1 has size() 0 and offset() 44, while block 1 has
uncompressed_size 1. -/
theorem reader_skip_overflow :
    (∀ b ∈ wide_blocks, b.wf) ∧
    Read32LE (([0, 0, 0, 0, 3, 0, 0xcd, 0xab, 2, 0, 0, 0] : List Byte).drop 8) =
      wide_blocks.length ∧
    (∀ b ∈ wide_blocks.dropLast, b.payload_span + b.pad = 2147483648) ∧
    ∃ (r : Reader) (f : Reader.Subfile),
      Reader.new (some (raw_archive [0, 0, 0, 0, 3, 0, 0xcd, 0xab, 2, 0, 0, 0] wide_blocks)) =
        some r ∧
      r.error = 0 ∧ r.files.length = 2 ∧ r.files[1]? = some f ∧
      f.size = 0 ∧ f.offset = 44 ∧ wide_blocks[1]?.map RawBlock.size = some 1 := by
  have hw0 := wide_blocks_wf ⟨[0xff, 0xff, 0xff, 0x7f, 0, 0, 0, 0, 0, 0, 0, 0, 0, 0, 0, 0], [],
    wide_payload, [0]⟩ (List.mem_cons_self _ _)
  have hsum : RawBlock.payload_span ⟨[0xff, 0xff, 0xff, 0x7f, 0, 0, 0, 0, 0, 0, 0, 0, 0, 0, 0, 0],
      [], wide_payload, [0]⟩ + RawBlock.pad ⟨[0xff, 0xff, 0xff, 0x7f, 0, 0, 0, 0, 0, 0, 0, 0, 0,
      0, 0, 0], [], wide_payload, [0]⟩ = 2147483648 := by decide
  have hz : RawBlock.wf ⟨List.replicate 16 0, [], [], []⟩ :=
    ⟨rfl, rfl, by decide, by decide, by decide, by decide, by decide⟩
  have hdata : raw_archive [0, 0, 0, 0, 3, 0, 0xcd, 0xab, 2, 0, 0, 0] wide_blocks =
      ([0, 0, 0, 0, 3, 0, 0xcd, 0xab, 2, 0, 0, 0] : List Byte) ++
        RawBlock.bytes ⟨[0xff, 0xff, 0xff, 0x7f, 0, 0, 0, 0, 0, 0, 0, 0, 0, 0, 0, 0], [],
          wide_payload, [0]⟩ ++
        RawBlock.bytes ⟨[1, 0, 0, 0, 0, 0, 0, 0, 0, 0, 0, 0, 0, 0, 0, 0], [], [7], [0, 0, 0]⟩ := by
    simp only [raw_archive, wide_blocks, List.map_cons, List.map_nil, List.flatten_cons,
      List.flatten_nil, List.append_nil, List.append_assoc]
  have hdata2 : ([0, 0, 0, 0, 3, 0, 0xcd, 0xab, 2, 0, 0, 0] : List Byte) ++
        RawBlock.bytes ⟨[0xff, 0xff, 0xff, 0x7f, 0, 0, 0, 0, 0, 0, 0, 0, 0, 0, 0, 0], [],
          wide_payload, [0]⟩ ++
        RawBlock.bytes ⟨[1, 0, 0, 0, 0, 0, 0, 0, 0, 0, 0, 0, 0, 0, 0, 0], [], [7], [0, 0, 0]⟩ =
      (([0, 0, 0, 0, 3, 0, 0xcd, 0xab, 2, 0, 0, 0] : List Byte) ++
        [0xff, 0xff, 0xff, 0x7f, 0, 0, 0, 0, 0, 0, 0, 0, 0, 0, 0, 0]) ++
        RawBlock.bytes ⟨List.replicate 16 0, [], [], []⟩ ++
        (List.replicate 2147483631 0 ++ [0] ++
          RawBlock.bytes ⟨[1, 0, 0, 0, 0, 0, 0, 0, 0, 0, 0, 0, 0, 0, 0, 0], [], [7],
            [0, 0, 0]⟩) := by
    simp only [RawBlock.bytes, List.append_nil, List.append_assoc]
    rw [wide_payload_split]
    simp only [List.append_assoc]
  have hstep := Reader_loop_skip_wraps 1 _ hw0 (Nat.le_of_eq hsum.symm)
    [0, 0, 0, 0, 3, 0, 0xcd, 0xab, 2, 0, 0, 0]
    (RawBlock.bytes ⟨[1, 0, 0, 0, 0, 0, 0, 0, 0, 0, 0, 0, 0, 0, 0, 0], [], [7], [0, 0, 0]⟩) []
  obtain ⟨s, hs, _⟩ := Reader_loop_last _ hz
    (([0, 0, 0, 0, 3, 0, 0xcd, 0xab, 2, 0, 0, 0] : List Byte) ++
      [0xff, 0xff, 0xff, 0x7f, 0, 0, 0, 0, 0, 0, 0, 0, 0, 0, 0, 0])
    (List.replicate 2147483631 0 ++ [0] ++
      RawBlock.bytes ⟨[1, 0, 0, 0, 0, 0, 0, 0, 0, 0, 0, 0, 0, 0, 0, 0], [], [7], [0, 0, 0]⟩)
    ([] ++ [Reader.Subfile.new [0xff, 0xff, 0xff, 0x7f, 0, 0, 0, 0, 0, 0, 0, 0, 0, 0, 0, 0] []
      (toInt32 ((28 : Nat) : Int))])
  rw [← hdata2] at hs
  have hloop : Reader_loop 2 ⟨raw_archive [0, 0, 0, 0, 3, 0, 0xcd, 0xab, 2, 0, 0, 0] wide_blocks,
      12, true, false⟩ [] = some (s, [] ++ [Reader.Subfile.new
        [0xff, 0xff, 0xff, 0x7f, 0, 0, 0, 0, 0, 0, 0, 0, 0, 0, 0, 0] []
        (toInt32 ((28 : Nat) : Int))] ++ [Reader.Subfile.new (List.replicate 16 0) []
        (toInt32 ((44 : Nat) : Int))], 0) := by
    rw [hdata]
    exact hstep.trans hs
  have h1 := read_header_raw [0, 0, 0, 0, 3, 0, 0xcd, 0xab, 2, 0, 0, 0] wide_blocks rfl
  have hcnt : (Read32LE_int (([0, 0, 0, 0, 3, 0, 0xcd, 0xab, 2, 0, 0, 0] : List Byte).drop 8)).toNat
      = 2 := by
    rw [Read32LE_int, toInt32_of_lt _ (by decide)]
    decide
  have hnew := Reader_new_of_loop _ _ ⟨_, 0, true, false⟩ ⟨_, 12, true, false⟩ _ _ _ rfl rfl h1
    rfl (by rw [hcnt]; exact hloop)
  refine ⟨wide_blocks_wf, by decide, ?_, _,
    Reader.Subfile.new (List.replicate 16 0) [] (toInt32 ((44 : Nat) : Int)), hnew, rfl, rfl,
    rfl, ?_, ?_, by decide⟩
  · intro b hb
    simp only [wide_blocks, List.dropLast, List.mem_singleton] at hb
    subst hb
    exact hsum
  · rw [Reader.Subfile.new_size, Read32LE_int, toInt32_of_lt _ (by decide)]
    decide
  · show toInt32 ((44 : Nat) : Int) = 44
    rw [toInt32_of_lt _ (by decide)]
    rfl

end Nspre
